import Mathlib

/-! # centretown/scan: traversal and script generation

A shallow embedding of `scan.go`.  The program state that the Go code keeps in
package variables and in the operating system (the folders queue `fQ`, the
flag `showMessages`, the working directory, the file tree and the text printed
on standard output) is one record, `World`, passed through every function.

The file tree is a finite tree of directory listings.  Go strings stay
strings; the functions of the Go packages `path` and `os` that the program
calls are modelled on them below.
-/

namespace Scan

/-! ## The Go package `path` -/

/-- Split a text at every slash: `a/b` has the parts `a` and `b`, and a text
without a slash is its own single part. -/
def splitSlash : List Char → List (List Char)
  | [] => [[]]
  | c :: cs =>
    if c = '/' then [] :: splitSlash cs
    else match splitSlash cs with
      | [] => [[c]]
      | h :: t => (c :: h) :: t

/-- The slash-separated elements of a path, empty elements included. -/
def pathComps (s : String) : List String := (splitSlash s.data).map String.mk

/-- Go `path.IsAbs`: the path begins with a slash. -/
def pathIsAbs (s : String) : Bool :=
  match s.data with
  | c :: _ => decide (c = '/')
  | [] => false

/-- The elements of a path written with single slashes between them. -/
def joinSlash : List String → String
  | [] => ""
  | [c] => c
  | c :: d :: cs => c ++ "/" ++ joinSlash (d :: cs)

/-- The lexical processing of Go `path.Clean` on path elements: empty and `.`
elements go, `..` removes the element before it, is dropped at the start of a
rooted path and is kept at the start of a relative one.  The first list is the
stack of elements kept so far, last one first. -/
def cleanStack (rooted : Bool) : List String → List String → List String
  | acc, [] => acc.reverse
  | acc, c :: cs =>
    if c = "" ∨ c = "." then cleanStack rooted acc cs
    else if c = ".." then
      match acc with
      | [] => if rooted then cleanStack rooted [] cs else cleanStack rooted [".."] cs
      | a :: rest =>
        if a = ".." then cleanStack rooted (".." :: a :: rest) cs
        else cleanStack rooted rest cs
    else cleanStack rooted (c :: acc) cs

/-- Go `path.Clean`. -/
def pathClean (s : String) : String :=
  if s = "" then "."
  else
    let cs := cleanStack (pathIsAbs s) [] (pathComps s)
    if pathIsAbs s then "/" ++ joinSlash cs
    else if cs = [] then "." else joinSlash cs

/-- Go `path.Join` of two elements: leading empty elements are ignored, the
rest is joined with slashes and cleaned. -/
def pathJoin (a b : String) : String :=
  if a = "" then (if b = "" then "" else pathClean b)
  else pathClean (a ++ "/" ++ b)

/-- Go `path.Base`: the last element of the path, trailing slashes removed;
`.` for the empty path and `/` for a path of slashes only. -/
def pathBase (s : String) : String :=
  if s = "" then "."
  else match (pathComps s).reverse.dropWhile (fun c => decide (c = "")) with
    | [] => "/"
    | c :: _ => c

/-! ## The file tree -/

/-- An entry as `os.ReadDir` reports it (Go `fs.DirEntry`): its name and
whether it is a directory. -/
structure DirEntry where
  name : String
  isDir : Bool
deriving DecidableEq, Repr

/-- A directory listing: the entries of one directory in the order in which
`os.ReadDir` reports them, every subdirectory with its own listing and with a
flag that says whether it may be listed. -/
inductive Listing where
  | nil : Listing
  | file (name : String) (content : String) (rest : Listing) : Listing
  | dir (name : String) (readable : Bool) (sub : Listing) (rest : Listing) : Listing
deriving DecidableEq, Repr

/-- What a name stands for in a listing. -/
inductive Kind where
  | file (content : String) : Kind
  | dir (readable : Bool) (sub : Listing) : Kind
deriving DecidableEq, Repr

/-- The first entry of that name. -/
def Listing.find : Listing → String → Option Kind
  | .nil, _ => none
  | .file n c rest, x => if n = x then some (.file c) else rest.find x
  | .dir n r sub rest, x => if n = x then some (.dir r sub) else rest.find x

/-- The entries of a listing, in order. -/
def Listing.entries : Listing → List DirEntry
  | .nil => []
  | .file n _ rest => ⟨n, false⟩ :: rest.entries
  | .dir n _ _ rest => ⟨n, true⟩ :: rest.entries

/-- Follow a chain of directory names down from a listing. -/
def walk : Bool → Listing → List String → Option (Bool × Listing)
  | r, l, [] => some (r, l)
  | _, l, n :: ns =>
    match l.find n with
    | some (.dir r sub) => walk r sub ns
    | _ => none

/-- The order of two names as sequences of characters, the first difference
deciding: the order in which `os.ReadDir` sorts the entries of a directory. -/
def ltChars : List Char → List Char → Bool
  | [], [] => false
  | [], _ :: _ => true
  | _ :: _, [] => false
  | a :: as, b :: bs =>
    if a.toNat < b.toNat then true
    else if b.toNat < a.toNat then false
    else ltChars as bs

/-- The order of two names. -/
def nameLt (a b : String) : Bool := ltChars a.data b.data

/-- Add an empty, listable directory to a listing, before the first entry with
a greater name: in a listing in the order of the names, in which `os.ReadDir`
reports the entries, the new directory comes at its place in that order. -/
def Listing.addDir : Listing → String → Listing
  | .nil, x => .dir x true .nil .nil
  | .file n c rest, x =>
    if nameLt x n then .dir x true .nil (.file n c rest) else .file n c (rest.addDir x)
  | .dir n r sub rest, x =>
    if nameLt x n then .dir x true .nil (.dir n r sub rest) else .dir n r sub (rest.addDir x)

/-- Replace the content of the file of that name, or add the file before the
first entry with a greater name. -/
def Listing.putFile : Listing → String → String → Listing
  | .nil, x, data => .file x data .nil
  | .file n c rest, x, data =>
    if n = x then .file n data rest
    else if nameLt x n then .file x data (.file n c rest)
    else .file n c (rest.putFile x data)
  | .dir n r sub rest, x, data =>
    if nameLt x n then .file x data (.dir n r sub rest) else .dir n r sub (rest.putFile x data)

/-- Apply a change to the listing of the directory at a place below this
listing; nothing changes when the place does not exist. -/
def Listing.update : Listing → List String → (Listing → Listing) → Listing
  | l, [], f => f l
  | .nil, _ :: _, _ => .nil
  | .file n c rest, x :: xs, f =>
    if n = x then .file n c rest else .file n c (rest.update (x :: xs) f)
  | .dir n r sub rest, x :: xs, f =>
    if n = x then .dir n r (sub.update xs f) rest
    else .dir n r sub (rest.update (x :: xs) f)

/-! ## Program state -/

/-- A queued folder (Go `qitem`). -/
structure qitem where
  in_ : String
  out : String
deriving DecidableEq, Repr

/-- The errors the program passes on or makes. -/
inductive Error where
  | chdir (path : String) : Error
  | readDir (path : String) : Error
  | mkdir (path : String) : Error
  | writeFile (name : String) : Error
  | notDirectory (dir : String) : Error
deriving DecidableEq, Repr

/-- One call that prints on standard output. -/
inductive Output where
  | printf (format : String) (a : List String) : Output
  | println (err : Error) : Output
deriving DecidableEq, Repr

/-- Everything the program reads and changes besides its arguments. -/
structure World where
  /-- the listing of the root directory `/` -/
  root : Listing
  /-- the working directory, as the names on the way down from the root -/
  cwd : List String
  /-- the package variable `fQ`, oldest item first -/
  fQ : List qitem
  /-- the package variable `showMessages` -/
  showMessages : Bool
  /-- what has been printed, oldest first -/
  stdout : List Output
deriving DecidableEq, Repr

/-! ## The Go package `os` -/

/-- Resolve the elements of a path from a directory: every named element must
be a directory. -/
def resolveFrom (root : Listing) : List String → List String → Option (List String)
  | loc, [] => some loc
  | loc, c :: cs =>
    if c = "" ∨ c = "." then resolveFrom root loc cs
    else if c = ".." then resolveFrom root loc.dropLast cs
    else match walk true root (loc ++ [c]) with
      | some _ => resolveFrom root (loc ++ [c]) cs
      | none => none

/-- Where the walk along a path starts. -/
def startOf (cwd : List String) (path : String) : List String :=
  if pathIsAbs path then [] else cwd

/-- The place of the directory a path names, if it names one. -/
def resolveDir (root : Listing) (cwd : List String) (path : String) : Option (List String) :=
  if path = "" then none
  else match walk true root (startOf cwd path) with
    | none => none
    | some _ => resolveFrom root (startOf cwd path) (pathComps path)

/-- A path taken apart for creating its last element: the place of the
directory that holds it, and its name. -/
def resolveParent (root : Listing) (cwd : List String) (comps : List String) (path : String) :
    Option (List String × String) :=
  match comps.reverse with
  | [] => none
  | name :: before =>
    if name = "" ∨ name = "." ∨ name = ".." then none
    else match walk true root (startOf cwd path) with
      | none => none
      | some _ =>
        match resolveFrom root (startOf cwd path) before.reverse with
        | none => none
        | some loc => some (loc, name)

/-- Go `os.Chdir`. -/
def osChdir (path : String) (w : World) : Option Error × World :=
  match resolveDir w.root w.cwd path with
  | some loc => (none, { w with cwd := loc })
  | none => (some (.chdir path), w)

/-- Go `os.ReadDir`: the entries of a directory that may be listed. -/
def osReadDir (path : String) (w : World) : Except Error (List DirEntry) :=
  match resolveDir w.root w.cwd path with
  | none => .error (.readDir path)
  | some loc =>
    match walk true w.root loc with
    | some (true, l) => .ok l.entries
    | _ => .error (.readDir path)

/-- Go `os.Stat`, as far as the program looks at it: whether there is
something at the path, and whether it is a directory. -/
def osStat (path : String) (w : World) : Option Bool :=
  match resolveDir w.root w.cwd path with
  | some _ => some true
  | none =>
    match resolveParent w.root w.cwd (pathComps path) path with
    | none => none
    | some (loc, name) =>
      match walk true w.root loc with
      | none => none
      | some (_, l) =>
        match l.find name with
        | some (.file _) => some false
        | _ => none

/-- Go `os.Mkdir`: the directory that is to hold the new one must exist, and
nothing of that name may be in it.  Trailing slashes do not count. -/
def osMkdir (path : String) (w : World) : Option Error × World :=
  match resolveParent w.root w.cwd
      ((pathComps path).reverse.dropWhile (fun c => decide (c = ""))).reverse path with
  | none => (some (.mkdir path), w)
  | some (loc, name) =>
    match walk true w.root loc with
    | none => (some (.mkdir path), w)
    | some (_, l) =>
      match l.find name with
      | some _ => (some (.mkdir path), w)
      | none => (none, { w with root := w.root.update loc (fun d => d.addDir name) })

/-- Go `os.WriteFile`: creates the file or replaces its content; fails on a
directory and where the holding directory does not exist. -/
def osWriteFile (name : String) (data : String) (w : World) : Option Error × World :=
  match resolveParent w.root w.cwd (pathComps name) name with
  | none => (some (.writeFile name), w)
  | some (loc, base) =>
    match walk true w.root loc with
    | none => (some (.writeFile name), w)
    | some (_, l) =>
      match l.find base with
      | some (.dir _ _) => (some (.writeFile name), w)
      | _ => (none, { w with root := w.root.update loc (fun d => d.putFile base data) })

/-! ## scan.go -/

/-- Go `Folder`: properties collected during scan. -/
structure Folder where
  Source : String
  Destination : String
  Script : String
  Code : String
  Files : List DirEntry
  Children : List String
deriving DecidableEq, Repr

/-- Go `Builder`: the two functions the caller supplies. -/
structure Builder where
  Filter : DirEntry → Bool
  Format : DirEntry → Folder → String

/-- Go `msg`: prints when `showMessages` is set. -/
def msg (format : String) (a : List String) (w : World) : World :=
  if w.showMessages then { w with stdout := w.stdout ++ [.printf (format ++ "\n") a] }
  else w

/-- Go `displayError`. -/
def displayError (err : Option Error) (w : World) : World :=
  match err with
  | some e => { w with stdout := w.stdout ++ [.println e] }
  | none => w

/-- Go `enq`. -/
def enq (in_ out : String) (w : World) : World :=
  { w with fQ := w.fQ ++ [⟨in_, out⟩] }

/-- Go `deq`; nothing when the queue is empty. -/
def deq (w : World) : Option ((String × String) × World) :=
  match w.fQ with
  | [] => none
  | next :: rest => some ((next.in_, next.out), { w with fQ := rest })

/-- Go `clearQ`: dequeue while the queue has an item. -/
def clearQ.loop : List qitem → List qitem
  | [] => []
  | _ :: rest => clearQ.loop rest

/-- Go `clearQ`. -/
def clearQ (w : World) : World :=
  { w with fQ := clearQ.loop w.fQ }

/-- Go `makeDir`: creates new directories if necessary. -/
def makeDir (dir : String) (w : World) : Option Error × World :=
  match osStat dir w with
  | none => osMkdir dir w
  | some isDir =>
    if !isDir then (some (.notDirectory dir), w)
    else (none, w)

/-- The body of the loop over the entries in Go `scanFolder`. -/
def scanFolder.step (in_ out : String) (builder : Builder) (acc : Folder × World)
    (f : DirEntry) : Folder × World :=
  let name := f.name
  let w := msg "scan:%s" [name] acc.2
  if builder.Filter f then
    if f.isDir then
      let inc := pathJoin in_ name
      let outc := pathJoin out name
      let w := enq inc outc w
      let folder := { acc.1 with Children := acc.1.Children ++ [inc] }
      (folder, msg "folder:%s selected." [name] w)
    else
      let folder := { acc.1 with Files := acc.1.Files ++ [f] }
      (folder, msg "file:%s selected." [name] w)
  else (acc.1, w)

/-- Go `scanFolder`. -/
def scanFolder (in_ out script : String) (builder : Builder) (w : World) :
    Except Error Folder × World :=
  match osChdir in_ w with
  | (some err, w) => (.error err, w)
  | (none, w) =>
    match osReadDir in_ w with
    | .error err => (.error err, w)
    | .ok files =>
      let folder : Folder :=
        { Source := in_, Destination := out, Script := script, Code := "",
          Files := [], Children := [] }
      let w := msg "scanning: %s" [in_] w
      let r := files.foldl (scanFolder.step in_ out builder) (folder, w)
      (.ok r.1, msg "children:%v" r.1.Children r.2)

/-- Go `scanQ`: scan and filter each folder in the tree.  The loop runs while
the queue has an item; the first number bounds the rounds (nothing is returned
when it is used up), the list holds the folders scanned so far. -/
def scanQ.loop (script : String) (builder : Builder) :
    Nat → List Folder → World → Option ((List Folder × Option Error) × World)
  | 0, _, _ => none
  | fuel + 1, fs, w =>
    match deq w with
    | none => some ((fs, none), w)
    | some ((qi, qo), w) =>
      let w := msg "scan and filter %v" [qi] w
      match scanFolder qi qo script builder w with
      | (.error err, w) => some ((fs, some err), w)
      | (.ok folder, w) => scanQ.loop script builder fuel (fs ++ [folder]) w

/-- Go `scanQ`. -/
def scanQ (fuel : Nat) (script : String) (builder : Builder) (w : World) :
    Option ((List Folder × Option Error) × World) :=
  scanQ.loop script builder fuel [] w

/-- The text Go `fmt.Sprintf(formatChild, child, script)` makes. -/
def formatChild (child script : String) : String :=
  "cd \"" ++ child ++ "\"" ++ "\n./" ++ script ++ "\ncd ..\n"

/-- Go `(*Folder).generate`: create a script for the selected files and
folders. -/
def Folder.generate (f : Folder) (b : Builder) (w : World) : Folder × World :=
  let cmd := f.Files.foldl (fun cmd file => cmd ++ b.Format file f) ""
  let cmd := f.Children.foldl (fun cmd child => cmd ++ formatChild child f.Script) cmd
  let f := { f with Code := cmd }
  (f, msg "generate '%s/%s\n%s'" [f.Source, f.Script, f.Code] w)

/-- Go `(*Folder).Write`: create folders and write output files. -/
def Folder.Write (f : Folder) (cmd : String) (w : World) : Option Error × World :=
  let w := msg "navigate to %s" [f.Source] w
  match osChdir f.Source w with
  | (some err, w) => (some err, w)
  | (none, w) =>
    let w := msg "write script '%s'" [f.Script] w
    match osWriteFile f.Script cmd w with
    | (some err, w) => (some err, w)
    | (none, w) =>
      let w := msg "verify/create destination %s" [f.Destination] w
      makeDir f.Destination w

/-- Go `Folders.generate`. -/
def Folders.generate : List Folder → Builder → World → List Folder × World
  | [], _, w => ([], w)
  | f :: fs, b, w =>
    let r := f.generate b w
    let rs := Folders.generate fs b r.2
    (r.1 :: rs.1, rs.2)

/-- Go `Folders.Write`: folders and output files, stopping at the first
error. -/
def Folders.Write : List Folder → World → Option Error × World
  | [], w => (none, w)
  | f :: fs, w =>
    match f.Write f.Code w with
    | (some err, w) => (some err, w)
    | (none, w) => Folders.Write fs w

/-- The statements of Go `Build` after the scan: generate the scripts and,
when asked to, make the output folder and write. -/
def Build.finish (in_ out : String) (builder : Builder) (write : Bool)
    (folders : List Folder) (w : World) : (List Folder × Option Error) × World :=
  let w := msg "generate scripts" [] w
  let g := Folders.generate folders builder w
  let w := (osChdir in_ g.2).2
  if write then
    let w := msg "create output folder %v" [out] w
    match makeDir out w with
    | (some err, w) => ((g.1, some err), w)
    | (none, w) =>
      let w := msg "write script and create output folders" [] w
      match Folders.Write g.1 w with
      | (some err, w) => ((g.1, some err), w)
      | (none, w) => ((g.1, none), w)
  else ((g.1, none), w)

/-- The statements of Go `Build` between its deferred calls. -/
def Build.body (fuel : Nat) (in_ out script : String) (builder : Builder)
    (write verbose : Bool) (w : World) : Option ((List Folder × Option Error) × World) :=
  let w := msg "Build(in: \"%v\", write: %v, verbose: %v)"
    [in_, toString write, toString verbose] w
  match osChdir in_ w with
  | (some err, w) => some (([], some err), w)
  | (none, w) =>
    let out := if !pathIsAbs out then pathJoin in_ out else out
    match (if write then makeDir out (msg "create base output folder %v" [out] w)
           else (none, w)) with
    | (some err, w) => some (([], some err), w)
    | (none, w) =>
      let out := pathJoin out (pathBase in_)
      let w := enq in_ out w
      match scanQ fuel script builder w with
      | none => none
      | some ((folders, some err), w) => some ((folders, some err), w)
      | some ((folders, none), w) => some (Build.finish in_ out builder write folders w)

/-- Go `Build`: returns input scan results in folders.  The deferred calls run
when the body is left: `displayError` (deferred when verbose) first, `clearQ`
last.  The first argument bounds the rounds of the scan loop. -/
def Build (fuel : Nat) (in_ out script : String) (builder : Builder)
    (write verbose : Bool) (w : World) : Option ((List Folder × Option Error) × World) :=
  let w := if verbose then { w with showMessages := true } else w
  match Build.body fuel in_ out script builder write verbose w with
  | none => none
  | some ((folders, err), w) =>
    let w := if verbose then displayError err w else w
    some ((folders, err), clearQ w)

/-! ## Words of the specification -/

/-- Texts written one after the other. -/
def concatAll : List String → String
  | [] => ""
  | s :: ss => s ++ concatAll ss

/-- An entry the builder keeps that is not a directory. -/
def keptFile (b : Builder) (e : DirEntry) : Bool := b.Filter e && !e.isDir

/-- An entry the builder keeps that is a directory. -/
def keptDir (b : Builder) (e : DirEntry) : Bool := b.Filter e && e.isDir

/-- The record of a folder whose listing is `E`, as the scan leaves it. -/
def scanned (in_ out script : String) (b : Builder) (E : List DirEntry) : Folder :=
  { Source := in_, Destination := out, Script := script, Code := "",
    Files := E.filter (keptFile b),
    Children := (E.filter (keptDir b)).map (fun e => pathJoin in_ e.name) }

/-- The items a scan of a folder with listing `E` puts on the queue. -/
def queued (in_ out : String) (b : Builder) (E : List DirEntry) : List qitem :=
  (E.filter (keptDir b)).map (fun e => ⟨pathJoin in_ e.name, pathJoin out e.name⟩)

/-! ## Sample data -/

/-- A small tree: `/home/root` holds `a.txt`, the unlistable folder `bad` and
the folder `sub` with `b.txt` in it. -/
def sampleTree : Listing :=
  .dir "home" true
    (.dir "root" true
      (.file "a.txt" "A"
        (.dir "bad" false .nil
          (.dir "sub" true (.file "b.txt" "B" .nil) .nil)))
      .nil)
    .nil

/-- The program at its start, in the sample tree. -/
def sampleWorld : World :=
  { root := sampleTree, cwd := [], fQ := [], showMessages := false, stdout := [] }

/-- A builder like the one of `scan_test.go`, keeping every entry. -/
def copyBuilder : Builder :=
  { Filter := fun _ => true,
    Format := fun file folder =>
      "cp \"" ++ file.name ++ "\" \"" ++ folder.Destination ++ "\"\n" }

/-- The builder of `scan_test.go` with another entry left out: it keeps what
is not called `gen`, `run` or `bad`. -/
def testBuilder : Builder :=
  { Filter := fun file =>
      decide (file.name ≠ "gen") && decide (file.name ≠ "run") && decide (file.name ≠ "bad"),
    Format := fun file folder =>
      "cp \"" ++ file.name ++ "\" \"" ++ folder.Destination ++ "\"\n" }

/-- A builder whose format repeats the code the folder already has. -/
def echoBuilder : Builder :=
  { Filter := fun _ => true,
    Format := fun _ folder => folder.Code ++ "x" }

/-- A folder record with one file and no code yet. -/
def sampleFolder : Folder :=
  { Source := "/home/root", Destination := "/gen/root", Script := "run", Code := "",
    Files := [⟨"a.txt", false⟩], Children := ["/home/root/sub"] }

/-- A name a directory entry can have. -/
def validName (n : String) : Prop := n ≠ "" ∧ n ≠ "." ∧ n ≠ ".." ∧ '/' ∉ n.data

instance (n : String) : Decidable (validName n) := by unfold validName; infer_instance

/-- The absolute path, in clean form, of the place with these names on the way down from the root. -/
def absPath (P : List String) : String := "/" ++ joinSlash P

/-- Every name on the way is one a directory entry can have. -/
def validPath (P : List String) : Prop := ∀ n ∈ P, validName n

/-- The names of the entries of a listing. -/
def Listing.names : Listing → List String
  | .nil => []
  | .file n _ rest => n :: rest.names
  | .dir n _ _ rest => n :: rest.names

/-- A listing as a file system has it: every name is one an entry can have, no
two entries of a directory have the same name, and so in every directory
below. -/
def Listing.wf : Listing → Bool
  | .nil => true
  | .file n _ rest => decide (validName n) && decide (n ∉ rest.names) && rest.wf
  | .dir n _ sub rest => decide (validName n) && decide (n ∉ rest.names) && sub.wf && rest.wf

/-- Every folder below may be listed. -/
def Listing.allReadable : Listing → Bool
  | .nil => true
  | .file _ _ rest => rest.allReadable
  | .dir _ r sub rest => r && sub.allReadable && rest.allReadable

/-- The number of folders below a listing. -/
def Listing.dirs : Listing → Nat
  | .nil => 0
  | .file _ _ rest => rest.dirs
  | .dir _ _ sub rest => 1 + sub.dirs + rest.dirs

/-- The subfolders of a listing that the filter keeps, in listing order, each
with its own listing. -/
def keptSubs (b : Builder) : Listing → List (String × Listing)
  | .nil => []
  | .file _ _ rest => keptSubs b rest
  | .dir n _ sub rest =>
    if b.Filter ⟨n, true⟩ then (n, sub) :: keptSubs b rest else keptSubs b rest

/-- A chain of subfolders below a listing, each accepted by the filter. -/
def keptChain (b : Builder) : Listing → List String → Bool
  | _, [] => true
  | L, n :: ns =>
    match L.find n with
    | some (.dir _ sub) => b.Filter ⟨n, true⟩ && keptChain b sub ns
    | _ => false

/-- The number of folders below a listing that are reached by a chain of
subfolders each accepted by the filter. -/
def keptBelow (b : Builder) : Listing → Nat
  | .nil => 0
  | .file _ _ rest => keptBelow b rest
  | .dir n _ sub rest =>
    (if b.Filter ⟨n, true⟩ then 1 + keptBelow b sub else 0) + keptBelow b rest

/-- A folder waiting to be scanned: its place, its output path and its
listing. -/
structure Item where
  loc : List String
  out : String
  sub : Listing

/-- The items a scan of an item adds to the queue. -/
def Item.kids (b : Builder) (x : Item) : List Item :=
  (keptSubs b x.sub).map (fun s => ⟨x.loc ++ [s.1], pathJoin x.out s.1, s.2⟩)

/-- The order in which a first-in first-out queue hands out the items and
what their scans add. -/
def bfsOrder (b : Builder) : Nat → List Item → List Item
  | 0, _ => []
  | _ + 1, [] => []
  | n + 1, x :: rest => x :: bfsOrder b n (rest ++ x.kids b)

/-- The record the scan makes of an item. -/
def Item.record (script : String) (b : Builder) (x : Item) : Folder :=
  scanned (absPath x.loc) x.out script b x.sub.entries

/-- An item as the queue holds it. -/
def Item.toQ (x : Item) : qitem := ⟨absPath x.loc, x.out⟩

/-- The folders an item stands for: itself and those below. -/
def Item.size (x : Item) : Nat := 1 + x.sub.dirs

/-- The folders a queue stands for. -/
def totalSize (q : List Item) : Nat := (q.map Item.size).sum

/-- An item agrees with the file tree. -/
def Item.good (R : Listing) (x : Item) : Prop :=
  validPath x.loc ∧ walk true R x.loc = some (true, x.sub) ∧ x.sub.wf = true
    ∧ x.sub.allReadable = true

/-- Neither place lies at or below the other. -/
def apart (x y : Item) : Prop := ¬ x.loc <+: y.loc ∧ ¬ y.loc <+: x.loc

/-- A change that leaves the folders of the listings it is made for as they
are. -/
def keepsDirs (P : Listing → Prop) (f : Listing → Listing) : Prop :=
  ∀ (M : Listing), P M → ∀ (n : String) (r : Bool) (sub : Listing),
    M.find n = some (.dir r sub) → (f M).find n = some (.dir r sub)

/-- The output base `Build` works with: `out` when it is absolute, and `out`
joined to `in` otherwise. -/
def outputBase (in_ out : String) : String :=
  if !pathIsAbs out then pathJoin in_ out else out

/-- The output path of the root record. -/
def rootDest (in_ out : String) : String := pathJoin (outputBase in_ out) (pathBase in_)

/-- The file tree as the scan of `Build` finds it: the tree `Build` is called
in, with the output base made in it when `write` is set. -/
def scanTree (in_ out : String) (write : Bool) (w : World) : Listing :=
  if write then (makeDir (outputBase in_ out) w).2.root else w.root

/-- The number of names in a path, once it is cleaned. -/
def pathDepth (s : String) : Nat := (cleanStack (pathIsAbs s) [] (pathComps s)).length

/-- How far below the folder `in_` a path lies. -/
def depthBelow (in_ p : String) : Nat := pathDepth p - pathDepth in_

/-- A tree in which every folder may be listed: `/home/root` holds `a.txt`,
the folder `skip` (with `c.txt` and the folder `inner`) and the folder `sub`
(with `b.txt` and the folder `deep`). -/
def openTree : Listing :=
  .dir "home" true
    (.dir "root" true
      (.file "a.txt" "A"
        (.dir "skip" true (.file "c.txt" "C" (.dir "inner" true .nil .nil))
          (.dir "sub" true (.file "b.txt" "B" (.dir "deep" true .nil .nil)) .nil)))
      .nil)
    .nil

/-- The listing of `/home/root` in that tree. -/
def openListing : Listing :=
  .file "a.txt" "A"
    (.dir "skip" true (.file "c.txt" "C" (.dir "inner" true .nil .nil))
      (.dir "sub" true (.file "b.txt" "B" (.dir "deep" true .nil .nil)) .nil))

/-- The program at its start, in that tree. -/
def openWorld : World :=
  { root := openTree, cwd := [], fQ := [], showMessages := false, stdout := [] }

/-- A builder that rejects what is called `skip`. -/
def skipBuilder : Builder :=
  { Filter := fun file => decide (file.name ≠ "skip"),
    Format := fun file folder =>
      "cp \"" ++ file.name ++ "\" \"" ++ folder.Destination ++ "\"\n" }

/-- Every kept subfolder of the record `P`, whose folder has the listing `E`,
is waiting in the queue or has its own record, with the source and the
destination of `P` joined to its name. -/
def served (b : Builder) (fs : List Folder) (q : List qitem) (P : Folder)
    (E : List DirEntry) : Prop :=
  ∀ e ∈ E, keptDir b e = true →
    (⟨pathJoin P.Source e.name, pathJoin P.Destination e.name⟩ : qitem) ∈ q
      ∨ ∃ C ∈ fs, C.Source = pathJoin P.Source e.name
          ∧ C.Destination = pathJoin P.Destination e.name

/-- The paths `s` and `d` are the paths `in_` and `rd` joined with the same
names, one after the other. -/
def below (in_ rd s d : String) : Prop :=
  ∃ rel : List String, s = rel.foldl pathJoin in_ ∧ d = rel.foldl pathJoin rd

/-- What a file tree has at a place: a file with its content, or a folder. -/
inductive Stat where
  | file (content : String) : Stat
  | dir : Stat
deriving DecidableEq, Repr

/-- What a name stands for, without what is below it. -/
def Kind.stat : Kind → Stat
  | .file c => .file c
  | .dir _ _ => .dir

/-- What the tree below a listing has at a place, if anything. -/
def statAt : Listing → List String → Option Stat
  | _, [] => some .dir
  | L, [n] => (L.find n).map Kind.stat
  | L, n :: m :: ms =>
    match L.find n with
    | some (.dir _ sub) => statAt sub (m :: ms)
    | _ => none

/-- No folder anywhere below the listing has this name. -/
def Listing.noDir (x : String) : Listing → Bool
  | .nil => true
  | .file _ _ rest => rest.noDir x
  | .dir n _ sub rest => decide (n ≠ x) && sub.noDir x && rest.noDir x

/-- A tree with a folder in a folder of the same name: `/home/root` holds
`a.txt` and the folder `sub`, which holds `b.txt` and a folder `sub` of its
own, with `c.txt` in it. -/
def nestedTree : Listing :=
  .dir "home" true
    (.dir "root" true
      (.file "a.txt" "A"
        (.dir "sub" true
          (.file "b.txt" "B" (.dir "sub" true (.file "c.txt" "C" .nil) .nil)) .nil))
      .nil)
    .nil

/-- The program in that tree, with `/home/root` as its working directory. -/
def nestedWorld : World :=
  { root := nestedTree, cwd := ["home", "root"], fQ := [], showMessages := false, stdout := [] }

/-- The records with `in_` as the source of the first. -/
def withSource (in_ : String) : List Folder → List Folder
  | [] => []
  | f :: rest => { f with Source := in_ } :: rest

/-- A stack of path elements as `path.Clean` keeps them, last one first: no
element is empty or `.` or holds a slash, and `..` stands at the start of a
relative path only, with nothing but `..` before it. -/
def stackOK (rooted : Bool) : List String → Prop
  | [] => True
  | a :: rest =>
    a ≠ "" ∧ a ≠ "." ∧ '/' ∉ a.data ∧ (a = ".." → rooted = false ∧ ∀ x ∈ rest, x = "..")
      ∧ stackOK rooted rest

/-- What holds of the depths of the records made and of the queue while the
scan runs: records and queued folders come by depth, and no queued folder lies
more than one level below another. -/
def depthInv (fs : List Folder) (q : List qitem) : Prop :=
  (fs.map (fun f => pathDepth f.Source) ++ q.map (fun it => pathDepth it.in_)).Pairwise
      (fun a c => a ≤ c)
    ∧ ∀ a ∈ q, ∀ c ∈ q, pathDepth c.in_ ≤ pathDepth a.in_ + 1

/-- What holds of the records made and the queue while the scan of the tree
`R` runs, on absolute paths: every record is the record of the listing of the
folder its source is a path of, its kept subfolders are served, the records and
the queued folders lie below the root, the queued paths are absolute, and the
root comes first. -/
def scanState (R : Listing) (in_ rd script : String) (b : Builder) (fs : List Folder)
    (q : List qitem) : Prop :=
  (∀ P ∈ fs, ∃ loc L, resolveDir R [] P.Source = some loc ∧ walk true R loc = some (true, L)
      ∧ P = scanned P.Source P.Destination script b L.entries ∧ served b fs q P L.entries)
    ∧ (∀ f ∈ fs, below in_ rd f.Source f.Destination)
    ∧ (∀ it ∈ q, below in_ rd it.in_ it.out ∧ pathIsAbs it.in_ = true)
    ∧ (fs.map (fun f => (f.Source, f.Destination)) ++ q.map (fun it => (it.in_, it.out))).head?
        = some (in_, rd)

/-- What holds of the file tree `T` while the records are written, `T0` being
the tree the scan was made in: the folders of `T0` are folders of `T`, the
source folders are there, those still to be written have no folder in the
place of their script, nothing at or below the output folder `Dst` is a file,
the records written have their destination folder and their script, and the
output base `Og` and the output folder are there. -/
def writeState (T0 : Listing) (P0 Dst Og : List String) (script : String) (T : Listing)
    (done todo : List (List String × Folder)) : Prop :=
  (∀ j ∈ done ++ todo, statAt T (P0 ++ j.1) = some .dir)
    ∧ (∀ j ∈ todo, statAt T (P0 ++ j.1 ++ [script]) ≠ some .dir)
    ∧ (∀ p, Dst <+: p → ∀ c, statAt T p ≠ some (.file c))
    ∧ (∀ j ∈ done, statAt T (Dst ++ j.1) = some .dir
        ∧ statAt T (P0 ++ j.1 ++ [script]) = some (.file j.2.Code))
    ∧ statAt T Og = some .dir ∧ statAt T Dst = some .dir
    ∧ ∀ p, statAt T0 p = some .dir → statAt T p = some .dir

/-- The records to write, each with its place below the input folder: the
source is an absolute path of the input folder `P0` with that place added, in
the tree `T0`, the destination is the output folder `Dst` with that place
added, no script lies at or below the output folder or in the place of the
output base, no place comes twice, and every place comes after the place above
it. -/
def writePlan (T0 : Listing) (P0 Dst Og : List String) (script : String)
    (all : List (List String × Folder)) : Prop :=
  (∀ j ∈ all, validPath j.1 ∧ pathIsAbs j.2.Source = true
      ∧ resolveDir T0 [] j.2.Source = some (P0 ++ j.1)
      ∧ j.2.Destination = absPath (Dst ++ j.1) ∧ j.2.Script = script
      ∧ ¬ Dst <+: P0 ++ j.1 ++ [script] ∧ P0 ++ j.1 ++ [script] ≠ Og)
    ∧ (all.map (fun j => j.1)).Nodup
    ∧ (∀ pre j post, all = pre ++ j :: post → ∀ init n, j.1 = init ++ [n] →
        init ∈ pre.map (fun j => j.1))

/-- The record the scan makes of an item when the root, at `P0`, was given by
the path `in_`. -/
def Item.recordFrom (in_ : String) (P0 : List String) (script : String) (b : Builder)
    (x : Item) : Folder :=
  { x.record script b with Source := if x.loc = P0 then in_ else absPath x.loc }

/-- The file tree with the output base and, in it, the output folder of the
root made: the tree in which `Build` writes the records. -/
def writeTree (in_ out : String) (w : World) : Listing :=
  (makeDir (rootDest in_ out) (makeDir (outputBase in_ out) w).2).2.root

/-! ## Frame lemmas -/

@[simp] theorem msg_root (s : String) (a : List String) (w : World) :
    (msg s a w).root = w.root := by
  unfold msg; split <;> rfl

@[simp] theorem msg_cwd (s : String) (a : List String) (w : World) :
    (msg s a w).cwd = w.cwd := by
  unfold msg; split <;> rfl

@[simp] theorem msg_fQ (s : String) (a : List String) (w : World) :
    (msg s a w).fQ = w.fQ := by
  unfold msg; split <;> rfl

@[simp] theorem msg_showMessages (s : String) (a : List String) (w : World) :
    (msg s a w).showMessages = w.showMessages := by
  unfold msg; split <;> rfl

theorem msg_quiet (s : String) (a : List String) (w : World) (h : w.showMessages = false) :
    msg s a w = w := by
  unfold msg; simp [h]

theorem osChdir_ok (path : String) (w w1 : World) (h : osChdir path w = (none, w1)) :
    ∃ loc, resolveDir w.root w.cwd path = some loc ∧ w1 = { w with cwd := loc } := by
  unfold osChdir at h
  split at h
  · next loc hl =>
    refine ⟨loc, hl, ?_⟩
    simp only [Prod.mk.injEq, true_and] at h
    exact h.symm
  · simp at h

@[simp] theorem osChdir_root (path : String) (w : World) : (osChdir path w).2.root = w.root := by
  unfold osChdir; split <;> rfl

@[simp] theorem osChdir_fQ (path : String) (w : World) : (osChdir path w).2.fQ = w.fQ := by
  unfold osChdir; split <;> rfl

@[simp] theorem osChdir_showMessages (path : String) (w : World) :
    (osChdir path w).2.showMessages = w.showMessages := by
  unfold osChdir; split <;> rfl

@[simp] theorem osChdir_stdout (path : String) (w : World) :
    (osChdir path w).2.stdout = w.stdout := by
  unfold osChdir; split <;> rfl

theorem clearQ_loop_nil (q : List qitem) : clearQ.loop q = [] := by
  induction q with
  | nil => rfl
  | cons _ _ ih => simpa [clearQ.loop] using ih

/-! ## Generation -/

theorem foldl_append_concat {α : Type} (g : α → String) (l : List α) (init : String) :
    l.foldl (fun cmd x => cmd ++ g x) init = init ++ concatAll (l.map g) := by
  induction l generalizing init with
  | nil => simp [concatAll]
  | cons x xs ih => simp [concatAll, ih, String.append_assoc]

/-- C1: after `generate` the code of a folder is the formatted text of its
files, in order, followed for each child, in order, by the three lines
`cd "<child>"`, `./<script>` and `cd ..`, each ended by a newline; the other
fields are as before, and a folder without files and children gets the empty
text. -/
theorem generate_code (f : Folder) (b : Builder) (w : World) :
    (f.generate b w).1.Code
        = concatAll (f.Files.map (fun file => b.Format file f))
          ++ concatAll (f.Children.map
              (fun c => "cd \"" ++ c ++ "\"\n" ++ "./" ++ f.Script ++ "\n" ++ "cd ..\n"))
      ∧ (f.generate b w).1.Source = f.Source
      ∧ (f.generate b w).1.Destination = f.Destination
      ∧ (f.generate b w).1.Script = f.Script
      ∧ (f.generate b w).1.Files = f.Files
      ∧ (f.generate b w).1.Children = f.Children
      ∧ (f.Files = [] → f.Children = [] → (f.generate b w).1.Code = "") := by
  have hfc : ∀ c s : String,
      formatChild c s = "cd \"" ++ c ++ "\"\n" ++ "./" ++ s ++ "\n" ++ "cd ..\n" := by
    intro c s
    simp only [formatChild, String.append_assoc]
    rfl
  refine ⟨?_, rfl, rfl, rfl, rfl, rfl, ?_⟩
  · simp only [Folder.generate, foldl_append_concat, String.empty_append]
    simp only [hfc]
  · intro h1 h2
    simp [Folder.generate, h1, h2]

theorem generate_code_eq (f : Folder) (b : Builder) (w : World) :
    (f.generate b w).1 =
      { f with Code := concatAll (f.Files.map (fun file => b.Format file f))
          ++ concatAll (f.Children.map (fun c => formatChild c f.Script)) } := by
  simp only [Folder.generate, foldl_append_concat, String.empty_append]

/-- C7, as the code has it: generating twice in succession leaves the code of
the first call, for a builder whose format does not read the code of the
folder it is given. -/
theorem generate_twice (f : Folder) (b : Builder) (w w2 : World)
    (hb : ∀ (file : DirEntry) (g : Folder) (c : String),
      b.Format file { g with Code := c } = b.Format file g) :
    ((f.generate b w).1.generate b w2).1.Code = (f.generate b w).1.Code := by
  rw [generate_code_eq f b w, generate_code_eq]
  simp only [hb]

/-- C7 fails for a builder whose format reads the code of the folder: the
second call of `generate` gives another code than the first. -/
theorem generate_twice_differs :
    (sampleFolder.generate echoBuilder sampleWorld).1.Code
        = "xcd \"/home/root/sub\"\n./run\ncd ..\n"
      ∧ ((sampleFolder.generate echoBuilder sampleWorld).1.generate echoBuilder sampleWorld).1.Code
        = "xcd \"/home/root/sub\"\n./run\ncd ..\nxcd \"/home/root/sub\"\n./run\ncd ..\n" := by
  decide

theorem generate_twice_witness :
    ((sampleFolder.generate copyBuilder sampleWorld).1.generate copyBuilder sampleWorld).1.Code
        = (sampleFolder.generate copyBuilder sampleWorld).1.Code
      ∧ (sampleFolder.generate copyBuilder sampleWorld).1.Code
        = "cp \"a.txt\" \"/gen/root\"\ncd \"/home/root/sub\"\n./run\ncd ..\n" :=
  ⟨generate_twice sampleFolder copyBuilder sampleWorld sampleWorld (fun _ _ _ => rfl),
    by decide⟩

/-! ## Scanning one folder -/

theorem scan_step_foldl (in_ out : String) (b : Builder) (E : List DirEntry)
    (acc : Folder × World) :
    (E.foldl (scanFolder.step in_ out b) acc).1 =
      { acc.1 with
        Files := acc.1.Files ++ E.filter (keptFile b)
        Children := acc.1.Children ++ (E.filter (keptDir b)).map (fun e => pathJoin in_ e.name) }
    ∧ (E.foldl (scanFolder.step in_ out b) acc).2.fQ = acc.2.fQ ++ queued in_ out b E
    ∧ (E.foldl (scanFolder.step in_ out b) acc).2.root = acc.2.root
    ∧ (E.foldl (scanFolder.step in_ out b) acc).2.cwd = acc.2.cwd
    ∧ (E.foldl (scanFolder.step in_ out b) acc).2.showMessages = acc.2.showMessages := by
  induction E generalizing acc with
  | nil => simp [queued]
  | cons e es ih =>
    rw [List.foldl_cons]
    obtain ⟨h1, h2, h3, h4, h5⟩ := ih (scanFolder.step in_ out b acc e)
    rw [h1, h2, h3, h4, h5]
    by_cases hf : b.Filter e <;> by_cases hd : e.isDir <;>
      simp [scanFolder.step, hf, hd, keptFile, keptDir, enq, queued]

theorem scanFolder_ok (in_ out script : String) (b : Builder) (w w1 : World)
    (E : List DirEntry) (hcd : osChdir in_ w = (none, w1)) (hrd : osReadDir in_ w1 = .ok E) :
    ∃ w2, scanFolder in_ out script b w = (.ok (scanned in_ out script b E), w2)
      ∧ w2.fQ = w.fQ ++ queued in_ out b E ∧ w2.root = w.root ∧ w2.cwd = w1.cwd
      ∧ w2.showMessages = w.showMessages := by
  obtain ⟨loc, -, hw1⟩ := osChdir_ok in_ w w1 hcd
  have e1 : w1.fQ = w.fQ := by rw [hw1]
  have e2 : w1.root = w.root := by rw [hw1]
  have e3 : w1.showMessages = w.showMessages := by rw [hw1]
  obtain ⟨h1, h2, h3, h4, h5⟩ := scan_step_foldl in_ out b E
    ({ Source := in_, Destination := out, Script := script, Code := "",
       Files := [], Children := [] }, msg "scanning: %s" [in_] w1)
  simp only [msg_fQ, msg_root, msg_cwd, msg_showMessages, e1, e2, e3] at h2 h3 h4 h5
  have h1' : (List.foldl (scanFolder.step in_ out b)
        ({ Source := in_, Destination := out, Script := script, Code := "",
           Files := [], Children := [] }, msg "scanning: %s" [in_] w1) E).1
      = scanned in_ out script b E := by
    rw [h1]
    simp [scanned]
  refine ⟨msg "children:%v" (scanned in_ out script b E).Children
    (List.foldl (scanFolder.step in_ out b)
        ({ Source := in_, Destination := out, Script := script, Code := "",
           Files := [], Children := [] }, msg "scanning: %s" [in_] w1) E).2, ?_, ?_, ?_, ?_, ?_⟩
  · unfold scanFolder
    rw [hcd]
    simp only [hrd]
    rw [h1']
  · simpa using h2
  · simpa using h3
  · simpa using h4
  · simpa using h5

theorem scanFolder_frame (in_ out script : String) (b : Builder) (w : World) :
    (scanFolder in_ out script b w).2.root = w.root
      ∧ (scanFolder in_ out script b w).2.showMessages = w.showMessages
      ∧ ∀ f, (scanFolder in_ out script b w).1 = .ok f → f.Code = "" := by
  cases hcd : osChdir in_ w with
  | mk e w1 =>
    have hr : w1.root = w.root := by have := osChdir_root in_ w; rw [hcd] at this; exact this
    have hs : w1.showMessages = w.showMessages := by
      have := osChdir_showMessages in_ w; rw [hcd] at this; exact this
    cases e with
    | some err => simp [scanFolder, hcd, hr, hs]
    | none =>
      cases hrd : osReadDir in_ w1 with
      | error err => simp [scanFolder, hcd, hrd, hr, hs]
      | ok E =>
        obtain ⟨w2, h, -, h3, -, h5⟩ := scanFolder_ok in_ out script b w w1 E hcd hrd
        rw [h]
        refine ⟨h3, h5, ?_⟩
        intro f hf
        simp only [Except.ok.injEq] at hf
        rw [← hf]
        rfl

/-! ## The whole scan and the build -/

theorem scanQ_loop_frame (script : String) (b : Builder) (fuel : Nat) (fs : List Folder)
    (w : World) (r : (List Folder × Option Error) × World)
    (h : scanQ.loop script b fuel fs w = some r) :
    r.2.root = w.root ∧ r.2.showMessages = w.showMessages
      ∧ ((∀ f ∈ fs, f.Code = "") → ∀ f ∈ r.1.1, f.Code = "") := by
  induction fuel generalizing fs w with
  | zero => simp [scanQ.loop] at h
  | succ n ih =>
    unfold scanQ.loop at h
    cases hq : w.fQ with
    | nil =>
      simp only [deq, hq, Option.some.injEq] at h
      subst h
      exact ⟨rfl, rfl, fun hfs => hfs⟩
    | cons next rest =>
      simp only [deq, hq] at h
      obtain ⟨hroot, hshow, hcode⟩ := scanFolder_frame next.in_ next.out script b
        (msg "scan and filter %v" [next.in_] { w with fQ := rest })
      cases hsf : scanFolder next.in_ next.out script b
          (msg "scan and filter %v" [next.in_] { w with fQ := rest }) with
      | mk res w2 =>
        rw [hsf] at h hroot hshow hcode
        simp only [msg_root, msg_showMessages] at hroot hshow
        cases res with
        | error err =>
          simp only [Option.some.injEq] at h
          subst h
          exact ⟨hroot, hshow, fun hfs => hfs⟩
        | ok folder =>
          simp only at h
          obtain ⟨i1, i2, i3⟩ := ih _ _ h
          refine ⟨i1.trans hroot, i2.trans hshow, fun hfs => i3 ?_⟩
          intro f hf
          rcases List.mem_append.mp hf with hf | hf
          · exact hfs f hf
          · simp only [List.mem_singleton] at hf
            subst hf
            exact hcode _ rfl

theorem generate_fst (f : Folder) (b : Builder) (w w2 : World) :
    (f.generate b w).1 = (f.generate b w2).1 := rfl

@[simp] theorem generate_root (f : Folder) (b : Builder) (w : World) :
    (f.generate b w).2.root = w.root := by
  simp [Folder.generate]

theorem Folders_generate_spec (fs : List Folder) (b : Builder) (w w0 : World) :
    (Folders.generate fs b w).1 = fs.map (fun f => (f.generate b w0).1)
      ∧ (Folders.generate fs b w).2.root = w.root := by
  induction fs generalizing w with
  | nil => simp [Folders.generate]
  | cons f fs ih =>
    obtain ⟨h1, h2⟩ := ih (f.generate b w).2
    simp only [Folders.generate, List.map_cons, h1, h2, generate_root, and_true]
    rfl

/-- C6: whenever `Build` returns, on whatever path and whatever the queue held
when it was called, the queue `fQ` is empty. -/
theorem Build_clears_queue (fuel : Nat) (in_ out script : String) (b : Builder)
    (write verbose : Bool) (w : World) (r : (List Folder × Option Error) × World)
    (h : Build fuel in_ out script b write verbose w = some r) :
    r.2.fQ = [] ∧ r.2.fQ.length = 0 := by
  unfold Build at h
  cases hb : Build.body fuel in_ out script b write verbose
      (if verbose = true then { w with showMessages := true } else w) with
  | none => simp [hb] at h
  | some x =>
    obtain ⟨⟨folders, err⟩, w2⟩ := x
    simp only [hb, Option.some.injEq] at h
    subst h
    simp [clearQ, clearQ_loop_nil]

theorem Build_clears_queue_witness :
    ∃ r, Build 9 "/home/root" "gen" "run" copyBuilder false false
          { sampleWorld with fQ := [⟨"/home/root/sub", "/old"⟩] } = some r
      ∧ r.1.2 = some (.readDir "/home/root/bad")
      ∧ r.1.1.map (fun f => f.Source) = ["/home/root/sub", "/home/root"]
      ∧ r.2.fQ = [] :=
  ⟨_, rfl, by decide, by decide,
    (Build_clears_queue 9 "/home/root" "gen" "run" copyBuilder false false
      { sampleWorld with fQ := [⟨"/home/root/sub", "/old"⟩] } _ rfl).1⟩

theorem Build_body_dry (fuel : Nat) (in_ out script : String) (b : Builder)
    (verbose : Bool) (w : World) (r : (List Folder × Option Error) × World)
    (h : Build.body fuel in_ out script b false verbose w = some r) :
    r.2.root = w.root
      ∧ (r.1.2 = none → ∀ f ∈ r.1.1,
          f = (({ f with Code := "" } : Folder).generate b w).1) := by
  unfold Build.body at h
  simp only [Bool.false_eq_true, if_false] at h
  cases hcd : osChdir in_ (msg "Build(in: \"%v\", write: %v, verbose: %v)"
      [in_, toString false, toString verbose] w) with
  | mk e w1 =>
    have hr1 : w1.root = w.root := by
      have := osChdir_root in_ (msg "Build(in: \"%v\", write: %v, verbose: %v)"
        [in_, toString false, toString verbose] w)
      rw [hcd] at this
      simpa using this
    rw [hcd] at h
    cases e with
    | some err =>
      simp only [Option.some.injEq] at h
      subst h
      exact ⟨hr1, fun hn => by simp at hn⟩
    | none =>
      simp only at h
      generalize (if (!pathIsAbs out) = true then pathJoin in_ out else out) = out1 at h
      cases hs : scanQ fuel script b (enq in_ (pathJoin out1 (pathBase in_)) w1) with
      | none => simp [hs] at h
      | some x =>
        obtain ⟨⟨folders, err⟩, w2⟩ := x
        obtain ⟨f1, -, f3⟩ := scanQ_loop_frame script b fuel [] _ _ hs
        have hr2 : w2.root = w.root := by
          rw [← hr1]
          simpa [enq] using f1
        have hcode : ∀ f ∈ folders, f.Code = "" := f3 (by simp)
        rw [hs] at h
        cases err with
        | some err =>
          simp only [Option.some.injEq] at h
          subst h
          exact ⟨hr2, fun hn => by simp at hn⟩
        | none =>
          simp only [Build.finish, Bool.false_eq_true, if_false, Option.some.injEq] at h
          subst h
          obtain ⟨g1, g2⟩ := Folders_generate_spec folders b (msg "generate scripts" [] w2) w
          refine ⟨?_, fun _ => ?_⟩
          · simp only [osChdir_root, g2, msg_root, hr2]
          · intro f hf
            simp only [g1, List.mem_map] at hf
            obtain ⟨f0, hf0, rfl⟩ := hf
            have hc := hcode f0 hf0
            have e0 : ({ (f0.generate b w).1 with Code := "" } : Folder) = f0 := by
              cases f0
              simp only [Folder.generate] at *
              simp [hc]
            rw [e0]

/-- C8, as the code has it: `Build` called with `write = false` leaves the
file tree as it was, on every path; and when it returns without an error every
returned record has the code that `generate` makes of the scanned record. -/
theorem Build_dry (fuel : Nat) (in_ out script : String) (b : Builder)
    (verbose : Bool) (w : World) (r : (List Folder × Option Error) × World)
    (h : Build fuel in_ out script b false verbose w = some r) :
    r.2.root = w.root
      ∧ (r.1.2 = none → ∀ f ∈ r.1.1,
          f = (({ f with Code := "" } : Folder).generate b w).1) := by
  unfold Build at h
  cases hb : Build.body fuel in_ out script b false verbose
      (if verbose = true then { w with showMessages := true } else w) with
  | none => simp [hb] at h
  | some x =>
    obtain ⟨⟨folders, err⟩, w2⟩ := x
    simp only [hb, Option.some.injEq] at h
    subst h
    obtain ⟨h1, h2⟩ := Build_body_dry fuel in_ out script b verbose _ _ hb
    refine ⟨?_, ?_⟩
    · have e1 : (clearQ (if verbose = true then displayError err w2 else w2)).root = w2.root := by
        cases verbose <;> cases err <;> simp [clearQ, displayError]
      have e2 : (if verbose = true then { w with showMessages := true } else w).root = w.root := by
        cases verbose <;> simp
      simp only [e1]
      rw [h1, e2]
    · intro hn f hf
      exact h2 hn f hf

theorem Build_dry_witness :
    ∃ r, Build 9 "/home/root" "gen" "run" testBuilder false false sampleWorld = some r
      ∧ r.1.2 = none
      ∧ r.2.root = sampleTree
      ∧ r.1.1.map (fun f => f.Code)
          = ["cp \"a.txt\" \"/home/root/gen/root\"\ncd \"/home/root/sub\"\n./run\ncd ..\n",
             "cp \"b.txt\" \"/home/root/gen/root/sub\"\n"] :=
  ⟨_, rfl, by decide,
    (Build_dry 9 "/home/root" "gen" "run" testBuilder false sampleWorld _ rfl).1, by decide⟩

/-- C8 fails where a scan step fails: `Build` returns the records scanned so
far, and their code is still empty, not what `generate` makes of them. -/
theorem Build_dry_ungenerated :
    (Build 9 "/home/root" "gen" "run" copyBuilder false false sampleWorld).map
        (fun r => (r.1.2, r.1.1.map
          (fun f => (f.Source, f.Code, (f.generate copyBuilder r.2).1.Code))))
      = some (some (.readDir "/home/root/bad"),
          [("/home/root", "",
            "cp \"a.txt\" \"/home/root/gen/root\"\ncd \"/home/root/bad\"\n./run\ncd ..\n"
              ++ "cd \"/home/root/sub\"\n./run\ncd ..\n")]) := by
  decide

/-- C10 fails after a verbose call: `showMessages` stays set, and a later
`Build` with `verbose = false` prints its progress messages (here 17 of
them). -/
theorem Build_prints_after_verbose :
    ((Build 9 "/home/root" "gen" "run" testBuilder false true sampleWorld).bind
        (fun r1 => (Build 9 "/home/root" "gen" "run" testBuilder false false r1.2).map
          (fun r2 => (r1.2.showMessages, r1.2.stdout.length, r2.2.stdout.length))))
      = some (true, 17, 34) := by
  decide

theorem splitSlash_ne_nil (a : List Char) : splitSlash a ≠ [] := by
  induction a with
  | nil => simp [splitSlash]
  | cons c cs ih =>
    unfold splitSlash
    split
    · simp
    · split <;> simp

theorem splitSlash_append (a b : List Char) :
    splitSlash (a ++ '/' :: b) = splitSlash a ++ splitSlash b := by
  induction a with
  | nil => simp [splitSlash]
  | cons c cs ih =>
    by_cases hc : c = '/'
    · simp [splitSlash, hc, ih]
    · have h1 := splitSlash_ne_nil cs
      simp only [List.cons_append, splitSlash, hc, if_false, List.append_eq]
      rw [ih]
      cases h : splitSlash cs with
      | nil => exact absurd h h1
      | cons x xs => simp

theorem splitSlash_noslash (a : List Char) (h : '/' ∉ a) : splitSlash a = [a] := by
  induction a with
  | nil => rfl
  | cons c cs ih =>
    have hc : c ≠ '/' := fun e => h (by simp [e])
    have hcs : '/' ∉ cs := fun e => h (by simp [e])
    simp [splitSlash, hc, ih hcs]

theorem pathComps_append_slash (s t : String) :
    pathComps (s ++ "/" ++ t) = pathComps s ++ pathComps t := by
  have : (s ++ "/" ++ t).data = s.data ++ '/' :: t.data := by
    simp [String.data_append]
  simp [pathComps, this, splitSlash_append]

theorem pathComps_slash_append (t : String) :
    pathComps ("/" ++ t) = "" :: pathComps t := by
  have : ("/" ++ t).data = '/' :: t.data := by
    simp [String.data_append]
  simp [pathComps, this, splitSlash]

theorem pathComps_name (n : String) (h : '/' ∉ n.data) : pathComps n = [n] := by
  simp [pathComps, splitSlash_noslash _ h]

theorem pathComps_joinSlash (P : List String) (hP : ∀ n ∈ P, validName n) (hne : P ≠ []) :
    pathComps (joinSlash P) = P := by
  induction P with
  | nil => exact absurd rfl hne
  | cons c cs ih =>
    cases cs with
    | nil =>
      simp only [joinSlash]
      exact pathComps_name c (hP c (by simp)).2.2.2
    | cons d ds =>
      simp only [joinSlash]
      rw [pathComps_append_slash, pathComps_name c (hP c (by simp)).2.2.2,
        ih (fun n hn => hP n (by simp [hn])) (by simp)]
      rfl

theorem cleanStack_valid (rooted : Bool) (acc P : List String) (hP : validPath P) :
    cleanStack rooted acc P = acc.reverse ++ P := by
  induction P generalizing acc with
  | nil => simp [cleanStack]
  | cons c cs ih =>
    obtain ⟨h1, h2, h3, -⟩ := hP c (by simp)
    have hcs : validPath cs := fun n hn => hP n (by simp [hn])
    simp [cleanStack, h1, h2, h3, ih _ hcs]

theorem cleanStack_skip (rooted : Bool) (acc cs : List String) :
    cleanStack rooted acc ("" :: cs) = cleanStack rooted acc cs := by
  simp [cleanStack]

theorem pathComps_absPath (P : List String) (hP : validPath P) :
    pathComps (absPath P) = "" :: (if P = [] then [""] else P) := by
  unfold absPath
  rw [pathComps_slash_append]
  by_cases h : P = []
  · subst h
    simp [joinSlash, pathComps, splitSlash]
  · simp [h, pathComps_joinSlash P hP h]

theorem pathIsAbs_slash (t : String) : pathIsAbs ("/" ++ t) = true := by
  have : ("/" ++ t).data = '/' :: t.data := by simp [String.data_append]
  simp [pathIsAbs, this]

theorem slash_append_ne (t : String) : "/" ++ t ≠ "" := by
  intro h
  have := congrArg String.data h
  simp [String.data_append] at this

theorem pathIsAbs_absPath (P : List String) : pathIsAbs (absPath P) = true :=
  pathIsAbs_slash _

theorem absPath_ne (P : List String) : absPath P ≠ "" := slash_append_ne _

theorem pathClean_absPath (P : List String) (hP : validPath P) :
    pathClean (absPath P) = absPath P := by
  unfold pathClean
  rw [if_neg (absPath_ne P), pathIsAbs_absPath, pathComps_absPath P hP]
  by_cases h : P = []
  · subst h
    simp [cleanStack, absPath]
  · simp only [h, if_false, cleanStack_skip, cleanStack_valid _ _ _ hP]
    simp [absPath]

theorem pathJoin_absPath (P : List String) (n : String) (hP : validPath P)
    (hn : validName n) : pathJoin (absPath P) n = absPath (P ++ [n]) := by
  unfold pathJoin
  rw [if_neg (absPath_ne P)]
  unfold pathClean
  have e1 : absPath P ++ "/" ++ n ≠ "" := by
    unfold absPath
    rw [String.append_assoc, String.append_assoc]
    exact slash_append_ne _
  have e2 : pathIsAbs (absPath P ++ "/" ++ n) = true := by
    unfold absPath
    rw [String.append_assoc, String.append_assoc]
    exact pathIsAbs_slash _
  rw [if_neg e1, e2, pathComps_append_slash, pathComps_absPath P hP,
    pathComps_name n hn.2.2.2]
  have hPn : validPath (P ++ [n]) := by
    intro m hm
    rcases List.mem_append.mp hm with h | h
    · exact hP m h
    · simp only [List.mem_singleton] at h
      subst h
      exact hn
  by_cases h : P = []
  · subst h
    simp only [if_true, List.cons_append, List.nil_append, cleanStack_skip]
    rw [cleanStack_valid _ _ _ (by simpa using hPn)]
    simp [absPath]
  · simp only [h, if_false, List.cons_append, cleanStack_skip]
    rw [cleanStack_valid _ _ _ hPn]
    simp [absPath]

theorem absPath_injective (P Q : List String) (hP : validPath P) (hQ : validPath Q)
    (h : absPath P = absPath Q) : P = Q := by
  have := congrArg pathComps h
  rw [pathComps_absPath P hP, pathComps_absPath Q hQ] at this
  simp only [List.cons.injEq, true_and] at this
  by_cases h1 : P = [] <;> by_cases h2 : Q = []
  · rw [h1, h2]
  · simp only [h1, h2, if_true, if_false] at this
    have := hQ "" (by rw [← this]; simp)
    exact absurd rfl this.1
  · simp only [h1, h2, if_true, if_false] at this
    have := hP "" (by rw [this]; simp)
    exact absurd rfl this.1
  · simpa [h1, h2] using this

theorem walk_append (r : Bool) (L : Listing) (p q : List String) :
    walk r L (p ++ q) = (walk r L p).bind (fun x => walk x.1 x.2 q) := by
  induction p generalizing r L with
  | nil => simp [walk]
  | cons n ns ih =>
    simp only [List.cons_append, walk]
    cases h : L.find n with
    | none => simp
    | some k =>
      cases k with
      | file c => simp
      | dir r2 sub => simp [ih]

theorem resolveFrom_valid (R : Listing) (loc P : List String) (hP : validPath P)
    (hloc : (walk true R loc).isSome) :
    resolveFrom R loc P
      = if (walk true R (loc ++ P)).isSome then some (loc ++ P) else none := by
  induction P generalizing loc with
  | nil => simp [resolveFrom, hloc]
  | cons c cs ih =>
    obtain ⟨h1, h2, h3, -⟩ := hP c (by simp)
    have hcs : validPath cs := fun n hn => hP n (by simp [hn])
    have e : loc ++ c :: cs = (loc ++ [c]) ++ cs := by simp
    simp only [resolveFrom, h1, h2, h3, false_or, if_false]
    cases hw : walk true R (loc ++ [c]) with
    | none =>
      simp only
      rw [e, walk_append, hw]
      simp
    | some x =>
      simp only
      rw [ih _ hcs (by simp [hw]), e]

theorem resolveDir_absPath (R : Listing) (cwd P : List String) (hP : validPath P) :
    resolveDir R cwd (absPath P) = if (walk true R P).isSome then some P else none := by
  unfold resolveDir
  rw [if_neg (absPath_ne P)]
  have hs : startOf cwd (absPath P) = [] := by simp [startOf, pathIsAbs_absPath]
  rw [hs, pathComps_absPath P hP]
  simp only [walk]
  by_cases h : P = []
  · subst h
    simp [resolveFrom, walk]
  · simp only [h, if_false]
    have := resolveFrom_valid R [] P hP (by simp [walk])
    simpa [resolveFrom] using this

theorem osChdir_absPath (P : List String) (w : World) (hP : validPath P)
    (hw : (walk true w.root P).isSome) :
    osChdir (absPath P) w = (none, { w with cwd := P }) := by
  simp [osChdir, resolveDir_absPath _ _ _ hP, hw]

theorem osReadDir_absPath (P : List String) (w : World) (L : Listing) (hP : validPath P)
    (hw : walk true w.root P = some (true, L)) :
    osReadDir (absPath P) w = .ok L.entries := by
  simp [osReadDir, resolveDir_absPath _ _ _ hP, hw]

theorem find_none_of_not_mem (L : Listing) (n : String) (h : n ∉ L.names) : L.find n = none := by
  induction L with
  | nil => rfl
  | file m c rest ih =>
    simp only [Listing.names, List.mem_cons, not_or] at h
    simp [Listing.find, Ne.symm h.1, ih h.2]
  | dir m r sub rest _ ih =>
    simp only [Listing.names, List.mem_cons, not_or] at h
    simp [Listing.find, Ne.symm h.1, ih h.2]

theorem keptSubs_mem_names (b : Builder) (L : Listing) (s : String × Listing)
    (h : s ∈ keptSubs b L) : s.1 ∈ L.names := by
  induction L with
  | nil => simp [keptSubs] at h
  | file m c rest ih =>
    simp only [keptSubs] at h
    simp [Listing.names, ih h]
  | dir m r sub rest _ ih =>
    simp only [keptSubs] at h
    split at h
    · rcases List.mem_cons.mp h with h | h
      · simp [Listing.names, h]
      · simp [Listing.names, ih h]
    · simp [Listing.names, ih h]

theorem keptSubs_spec (b : Builder) (L : Listing) (hwf : L.wf = true)
    (hr : L.allReadable = true) (s : String × Listing) (h : s ∈ keptSubs b L) :
    validName s.1 ∧ L.find s.1 = some (.dir true s.2) ∧ b.Filter ⟨s.1, true⟩ = true
      ∧ s.2.wf = true ∧ s.2.allReadable = true := by
  induction L with
  | nil => simp [keptSubs] at h
  | file m c rest ih =>
    simp only [Listing.wf, Bool.and_eq_true, decide_eq_true_eq] at hwf
    simp only [Listing.allReadable] at hr
    simp only [keptSubs] at h
    obtain ⟨i1, i2, i3, i4, i5⟩ := ih hwf.2 hr h
    have hne : m ≠ s.1 := by
      intro e
      exact hwf.1.2 (e ▸ keptSubs_mem_names b rest s h)
    exact ⟨i1, by simp [Listing.find, hne, i2], i3, i4, i5⟩
  | dir m r sub rest _ ih =>
    simp only [Listing.wf, Bool.and_eq_true, decide_eq_true_eq] at hwf
    simp only [Listing.allReadable, Bool.and_eq_true] at hr
    simp only [keptSubs] at h
    have hrest : s ∈ keptSubs b rest → validName s.1 ∧ (Listing.dir m r sub rest).find s.1
        = some (.dir true s.2) ∧ b.Filter ⟨s.1, true⟩ = true
        ∧ s.2.wf = true ∧ s.2.allReadable = true := by
      intro h
      obtain ⟨i1, i2, i3, i4, i5⟩ := ih hwf.2 hr.2 h
      have hne : m ≠ s.1 := by
        intro e
        exact hwf.1.1.2 (e ▸ keptSubs_mem_names b rest s h)
      exact ⟨i1, by simp [Listing.find, hne, i2], i3, i4, i5⟩
    split at h
    · next hf =>
      rcases List.mem_cons.mp h with h | h
      · subst h
        exact ⟨hwf.1.1.1, by simp [Listing.find, hr.1.1], hf, hwf.1.2, hr.1.2⟩
      · exact hrest h
    · exact hrest h

theorem keptSubs_names (b : Builder) (L : Listing) :
    (L.entries.filter (keptDir b)).map (fun e => e.name) = (keptSubs b L).map (fun s => s.1) := by
  induction L with
  | nil => rfl
  | file m c rest ih => simpa [Listing.entries, keptSubs, keptDir] using ih
  | dir m r sub rest _ ih =>
    by_cases hf : b.Filter ⟨m, true⟩ = true
    · simpa [Listing.entries, keptSubs, keptDir, hf] using ih
    · simpa [Listing.entries, keptSubs, keptDir, hf] using ih

theorem keptSubs_size (b : Builder) (L : Listing) :
    ((keptSubs b L).map (fun s => 1 + s.2.dirs)).sum ≤ L.dirs := by
  induction L with
  | nil => simp [keptSubs, Listing.dirs]
  | file m c rest ih => simpa [keptSubs, Listing.dirs] using ih
  | dir m r sub rest _ ih =>
    by_cases hf : b.Filter ⟨m, true⟩ = true
    · simp only [keptSubs, hf, if_true, List.map_cons, List.sum_cons, Listing.dirs]
      omega
    · simp only [keptSubs, hf, Listing.dirs]
      simp only [Bool.false_eq_true, if_false]
      omega

theorem kids_size (b : Builder) (x : Item) : totalSize (x.kids b) + 1 ≤ x.size := by
  have := keptSubs_size b x.sub
  simp only [totalSize, Item.kids, List.map_map, Item.size]
  have e : (Item.size ∘ fun s : String × Listing =>
      (⟨x.loc ++ [s.1], pathJoin x.out s.1, s.2⟩ : Item)) = fun s => 1 + s.2.dirs := by
    funext s
    simp [Item.size]
  rw [e]
  omega

theorem validPath_snoc (P : List String) (n : String) (hP : validPath P) (hn : validName n) :
    validPath (P ++ [n]) := by
  intro m hm
  rcases List.mem_append.mp hm with h | h
  · exact hP m h
  · simp only [List.mem_singleton] at h
    subst h
    exact hn

theorem kids_good (b : Builder) (R : Listing) (x : Item) (hx : x.good R) :
    ∀ k ∈ x.kids b, k.good R := by
  intro k hk
  obtain ⟨h1, h2, h3, h4⟩ := hx
  simp only [Item.kids, List.mem_map] at hk
  obtain ⟨s, hs, rfl⟩ := hk
  obtain ⟨i1, i2, -, i4, i5⟩ := keptSubs_spec b x.sub h3 h4 s hs
  refine ⟨validPath_snoc _ _ h1 i1, ?_, i4, i5⟩
  simp only
  rw [walk_append, h2]
  simp [walk, i2]

theorem queued_kids (b : Builder) (R : Listing) (x : Item) (hx : x.good R) :
    queued (absPath x.loc) x.out b x.sub.entries = (x.kids b).map Item.toQ := by
  obtain ⟨h1, -, h3, h4⟩ := hx
  have e1 : queued (absPath x.loc) x.out b x.sub.entries
      = ((x.sub.entries.filter (keptDir b)).map (fun e => e.name)).map
          (fun n => (⟨pathJoin (absPath x.loc) n, pathJoin x.out n⟩ : qitem)) := by
    simp [queued, List.map_map, Function.comp]
  have e2 : (x.kids b).map Item.toQ
      = ((keptSubs b x.sub).map (fun s => s.1)).map
          (fun n => (⟨absPath (x.loc ++ [n]), pathJoin x.out n⟩ : qitem)) := by
    simp [Item.kids, List.map_map, Function.comp, Item.toQ]
  rw [e1, e2, keptSubs_names]
  apply List.map_congr_left
  intro n hn
  simp only [List.mem_map] at hn
  obtain ⟨s, hs, rfl⟩ := hn
  rw [pathJoin_absPath _ _ h1 (keptSubs_spec b x.sub h3 h4 s hs).1]

theorem totalSize_cons (x : Item) (q : List Item) : totalSize (x :: q) = x.size + totalSize q := by
  simp [totalSize]

theorem totalSize_append (p q : List Item) : totalSize (p ++ q) = totalSize p + totalSize q := by
  simp [totalSize]

theorem scanQ_loop_sim (script : String) (b : Builder) (R : Listing) (fuel : Nat)
    (q : List Item) (fs : List Folder) (w : World)
    (hR : w.root = R) (hq : w.fQ = q.map Item.toQ) (hgood : ∀ x ∈ q, x.good R)
    (hfuel : totalSize q < fuel) :
    ∃ w2, scanQ.loop script b fuel fs w
        = some ((fs ++ (bfsOrder b fuel q).map (Item.record script b), none), w2)
      ∧ w2.fQ = [] ∧ w2.root = R ∧ w2.showMessages = w.showMessages := by
  induction fuel generalizing q fs w with
  | zero => omega
  | succ n ih =>
    cases q with
    | nil =>
      refine ⟨w, ?_, by simpa using hq, hR, rfl⟩
      simp only [List.map_nil] at hq
      simp [scanQ.loop, deq, hq, bfsOrder]
    | cons x rest =>
      have hx := hgood x (by simp)
      obtain ⟨h1, h2, h3, h4⟩ := hx
      simp only [List.map_cons] at hq
      have hcd := osChdir_absPath x.loc
        (msg "scan and filter %v" [absPath x.loc] { w with fQ := rest.map Item.toQ }) h1
        (by simp [hR, h2])
      have hrd := osReadDir_absPath x.loc
        ({ (msg "scan and filter %v" [absPath x.loc] { w with fQ := rest.map Item.toQ })
            with cwd := x.loc }) x.sub h1 (by simp [hR, h2])
      obtain ⟨w2, hs, g1, g2, -, g4⟩ := scanFolder_ok (absPath x.loc) x.out script b _ _ _ hcd hrd
      have hq2 : w2.fQ = (rest ++ x.kids b).map Item.toQ := by
        rw [g1, queued_kids b R x (hgood x (by simp))]
        simp
      have hgood2 : ∀ y ∈ rest ++ x.kids b, y.good R := by
        intro y hy
        rcases List.mem_append.mp hy with h | h
        · exact hgood y (by simp [h])
        · exact kids_good b R x (hgood x (by simp)) y h
      have hfuel2 : totalSize (rest ++ x.kids b) < n := by
        have := kids_size b x
        rw [totalSize_cons] at hfuel
        rw [totalSize_append]
        omega
      obtain ⟨w3, hl, k1, k2, k3⟩ := ih (rest ++ x.kids b) (fs ++ [x.record script b]) w2
        (by rw [g2]; simpa using hR) hq2 hgood2 hfuel2
      refine ⟨w3, ?_, k1, k2, ?_⟩
      · unfold scanQ.loop
        simp only [deq, hq, Item.toQ]
        rw [hs]
        simp only [Item.record] at hl
        simp only
        rw [hl]
        simp [bfsOrder, Item.record]
      · rw [k3, g4]
        simp

theorem find_dir_keptSubs (b : Builder) (L : Listing) (n : String) (r : Bool) (sub : Listing)
    (h : L.find n = some (.dir r sub)) (hf : b.Filter ⟨n, true⟩ = true) :
    (n, sub) ∈ keptSubs b L := by
  induction L with
  | nil => simp [Listing.find] at h
  | file m c rest ih =>
    simp only [Listing.find] at h
    split at h
    · simp at h
    · simpa [keptSubs] using ih h
  | dir m r2 sub2 rest _ ih =>
    simp only [Listing.find] at h
    split at h
    · next e =>
      simp only [Option.some.injEq, Kind.dir.injEq] at h
      subst e
      simp [keptSubs, hf, h.2]
    · have := ih h
      simp only [keptSubs]
      split
      · exact List.mem_cons_of_mem _ this
      · exact this

theorem keptChain_cons (b : Builder) (L : Listing) (hwf : L.wf = true)
    (hr : L.allReadable = true) (n : String) (ns : List String) :
    keptChain b L (n :: ns) = true ↔ ∃ s ∈ keptSubs b L, s.1 = n ∧ keptChain b s.2 ns = true := by
  constructor
  · intro h
    simp only [keptChain] at h
    split at h
    · next r sub hfind =>
      simp only [Bool.and_eq_true] at h
      exact ⟨(n, sub), find_dir_keptSubs b L n r sub hfind h.1, rfl, h.2⟩
    · simp at h
  · rintro ⟨s, hs, rfl, hc⟩
    obtain ⟨-, i2, i3, -, -⟩ := keptSubs_spec b L hwf hr s hs
    simp [keptChain, i2, i3, hc]

theorem bfsOrder_mem (b : Builder) (R : Listing) (fuel : Nat) (q : List Item)
    (hgood : ∀ x ∈ q, x.good R) (hfuel : totalSize q < fuel) (P : List String) :
    P ∈ (bfsOrder b fuel q).map (fun x => x.loc)
      ↔ ∃ y ∈ q, ∃ rel, keptChain b y.sub rel = true ∧ P = y.loc ++ rel := by
  induction fuel generalizing q with
  | zero => omega
  | succ n ih =>
    cases q with
    | nil => simp [bfsOrder]
    | cons x rest =>
      have hgood2 : ∀ y ∈ rest ++ x.kids b, y.good R := by
        intro y hy
        rcases List.mem_append.mp hy with h | h
        · exact hgood y (by simp [h])
        · exact kids_good b R x (hgood x (by simp)) y h
      have hfuel2 : totalSize (rest ++ x.kids b) < n := by
        have := kids_size b x
        rw [totalSize_cons] at hfuel
        rw [totalSize_append]
        omega
      obtain ⟨-, -, h3, h4⟩ := hgood x (by simp)
      simp only [bfsOrder, List.map_cons, List.mem_cons, ih _ hgood2 hfuel2]
      constructor
      · rintro (h | ⟨y, hy, rel, hc, hP⟩)
        · exact ⟨x, Or.inl rfl, [], by simp [keptChain], by simp [h]⟩
        · rcases List.mem_append.mp hy with h | h
          · exact ⟨y, Or.inr h, rel, hc, hP⟩
          · simp only [Item.kids, List.mem_map] at h
            obtain ⟨s, hs, rfl⟩ := h
            refine ⟨x, Or.inl rfl, s.1 :: rel, ?_, by simp [hP]⟩
            exact (keptChain_cons b x.sub h3 h4 s.1 rel).mpr ⟨s, hs, rfl, hc⟩
      · rintro ⟨y, hy, rel, hc, hP⟩
        rcases hy with rfl | hy
        · cases rel with
          | nil => left; simpa using hP
          | cons m ms =>
            right
            obtain ⟨s, hs, rfl, hc2⟩ := (keptChain_cons b y.sub h3 h4 m ms).mp hc
            refine ⟨⟨y.loc ++ [s.1], pathJoin y.out s.1, s.2⟩, ?_, ms, hc2, by simp [hP]⟩
            apply List.mem_append_right
            simp only [Item.kids, List.mem_map]
            exact ⟨s, hs, rfl⟩
        · right
          exact ⟨y, List.mem_append_left _ hy, rel, hc, hP⟩

theorem bfsOrder_below (b : Builder) (fuel : Nat) (q : List Item) (x : Item)
    (hx : x ∈ bfsOrder b fuel q) :
    ∃ y ∈ q, ∃ rel, x.loc = y.loc ++ rel ∧ x.out = rel.foldl pathJoin y.out := by
  induction fuel generalizing q with
  | zero => simp [bfsOrder] at hx
  | succ n ih =>
    cases q with
    | nil => simp [bfsOrder] at hx
    | cons z rest =>
      simp only [bfsOrder, List.mem_cons] at hx
      rcases hx with rfl | hx
      · exact ⟨x, by simp, [], by simp, rfl⟩
      · obtain ⟨y, hy, rel, h1, h2⟩ := ih _ hx
        rcases List.mem_append.mp hy with h | h
        · exact ⟨y, by simp [h], rel, h1, h2⟩
        · simp only [Item.kids, List.mem_map] at h
          obtain ⟨s, -, rfl⟩ := h
          exact ⟨z, by simp, s.1 :: rel, by simp [h1], by simp [h2]⟩

theorem keptBelow_sum (b : Builder) (L : Listing) :
    keptBelow b L = ((keptSubs b L).map (fun s => 1 + keptBelow b s.2)).sum := by
  induction L with
  | nil => rfl
  | file m c rest ih => simpa [keptBelow, keptSubs] using ih
  | dir m r sub rest _ ih =>
    by_cases hf : b.Filter ⟨m, true⟩ = true
    · simp [keptBelow, keptSubs, hf, ih]
    · simp [keptBelow, keptSubs, hf, ih]

theorem bfsOrder_length (b : Builder) (fuel : Nat) (q : List Item)
    (hfuel : totalSize q < fuel) :
    (bfsOrder b fuel q).length = (q.map (fun x => 1 + keptBelow b x.sub)).sum := by
  induction fuel generalizing q with
  | zero => omega
  | succ n ih =>
    cases q with
    | nil => simp [bfsOrder]
    | cons x rest =>
      have hfuel2 : totalSize (rest ++ x.kids b) < n := by
        have := kids_size b x
        rw [totalSize_cons] at hfuel
        rw [totalSize_append]
        omega
      simp only [bfsOrder, List.length_cons, ih _ hfuel2, List.map_append, List.sum_append,
        List.map_cons, List.sum_cons]
      rw [keptBelow_sum b x.sub]
      have e : ((fun y : Item => 1 + keptBelow b y.sub) ∘ fun s : String × Listing =>
          (⟨x.loc ++ [s.1], pathJoin x.out s.1, s.2⟩ : Item))
          = fun s => 1 + keptBelow b s.2 := by
        funext s
        rfl
      simp only [Item.kids, List.map_map, e]
      omega

theorem names_nodup (L : Listing) (hwf : L.wf = true) : L.names.Nodup := by
  induction L with
  | nil => simp [Listing.names]
  | file m c rest ih =>
    simp only [Listing.wf, Bool.and_eq_true, decide_eq_true_eq] at hwf
    simp [Listing.names, hwf.1.2, ih hwf.2]
  | dir m r sub rest _ ih =>
    simp only [Listing.wf, Bool.and_eq_true, decide_eq_true_eq] at hwf
    simp [Listing.names, hwf.1.1.2, ih hwf.2]

theorem keptSubs_sublist (b : Builder) (L : Listing) :
    ((keptSubs b L).map (fun s => s.1)).Sublist L.names := by
  induction L with
  | nil => simp [keptSubs, Listing.names]
  | file m c rest ih => exact List.Sublist.cons _ (by simpa [keptSubs] using ih)
  | dir m r sub rest _ ih =>
    by_cases hf : b.Filter ⟨m, true⟩ = true
    · simpa [keptSubs, hf, Listing.names] using ih
    · simp only [keptSubs, hf, Listing.names]
      exact List.Sublist.cons _ (by simpa using ih)

theorem kids_apart (b : Builder) (x : Item) (hwf : x.sub.wf = true) :
    (x.kids b).Pairwise apart := by
  have hn : ((keptSubs b x.sub).map (fun s => s.1)).Nodup :=
    (names_nodup x.sub hwf).sublist (keptSubs_sublist b x.sub)
  have : (x.kids b).Pairwise apart ↔
      ((keptSubs b x.sub).map (fun s => s.1)).Pairwise (fun m n => m ≠ n) := by
    simp only [Item.kids, List.pairwise_map, apart]
    apply List.Pairwise.iff
    intro s t
    simp only [List.prefix_append_right_inj]
    constructor
    · rintro ⟨h, -⟩ e
      exact h (by rw [e])
    · intro h
      constructor
      · intro hp
        have := hp.eq_of_length (by simp)
        simp only [List.cons.injEq, and_true] at this
        exact h this
      · intro hp
        have := hp.eq_of_length (by simp)
        simp only [List.cons.injEq, and_true] at this
        exact h this.symm
  exact this.mpr hn

theorem bfsOrder_nodup (b : Builder) (R : Listing) (fuel : Nat) (q : List Item)
    (hgood : ∀ x ∈ q, x.good R) (hap : q.Pairwise apart) :
    ((bfsOrder b fuel q).map (fun x => x.loc)).Nodup := by
  induction fuel generalizing q with
  | zero => simp [bfsOrder]
  | succ n ih =>
    cases q with
    | nil => simp [bfsOrder]
    | cons x rest =>
      rw [List.pairwise_cons] at hap
      have hgood2 : ∀ y ∈ rest ++ x.kids b, y.good R := by
        intro y hy
        rcases List.mem_append.mp hy with h | h
        · exact hgood y (by simp [h])
        · exact kids_good b R x (hgood x (by simp)) y h
      have hk : ∀ k ∈ x.kids b, ∃ m, k.loc = x.loc ++ [m] := by
        intro k hk
        simp only [Item.kids, List.mem_map] at hk
        obtain ⟨s, -, rfl⟩ := hk
        exact ⟨s.1, rfl⟩
      have hap2 : (rest ++ x.kids b).Pairwise apart := by
        rw [List.pairwise_append]
        refine ⟨hap.2, kids_apart b x (hgood x (by simp)).2.2.1, ?_⟩
        intro y hy k hkm
        obtain ⟨m, hm⟩ := hk k hkm
        obtain ⟨a1, a2⟩ := hap.1 y hy
        constructor
        · intro hp
          rw [hm] at hp
          rcases List.prefix_concat_iff.mp hp with h | h
          · exact a1 (by rw [h]; exact List.prefix_append _ _)
          · exact a2 h
        · intro hp
          exact a1 ((by rw [hm]; exact List.prefix_append _ _ : x.loc <+: k.loc).trans hp)
      simp only [bfsOrder, List.map_cons, List.nodup_cons]
      refine ⟨?_, ih _ hgood2 hap2⟩
      intro hmem
      simp only [List.mem_map] at hmem
      obtain ⟨z, hz, hzx⟩ := hmem
      obtain ⟨y, hy, rel, h1, -⟩ := bfsOrder_below b n _ z hz
      rcases List.mem_append.mp hy with h | h
      · exact (hap.1 y h).2 (by rw [← hzx, h1]; exact List.prefix_append _ _)
      · obtain ⟨m, hm⟩ := hk y h
        rw [h1, hm] at hzx
        have := congrArg List.length hzx
        simp at this

theorem find_addDir (L : Listing) (x : String) (hx : L.find x = none) (n : String) :
    (L.addDir x).find n = if n = x then some (.dir true .nil) else L.find n := by
  induction L with
  | nil =>
    by_cases h : n = x
    · simp [Listing.addDir, Listing.find, h]
    · have h2 : ¬ x = n := fun e => h e.symm
      simp [Listing.addDir, Listing.find, h, h2]
  | file m c rest ih =>
    simp only [Listing.find] at hx
    split at hx
    · simp at hx
    · next hm =>
      by_cases hlt : nameLt x m = true
      · by_cases h : n = x
        · simp [Listing.addDir, Listing.find, hlt, h]
        · have h2 : ¬ x = n := fun e => h e.symm
          simp [Listing.addDir, Listing.find, hlt, h, h2]
      · by_cases h : m = n
        · subst h
          simp [Listing.addDir, Listing.find, hlt, hm]
        · simp [Listing.addDir, Listing.find, hlt, h, ih hx]
  | dir m r sub rest _ ih =>
    simp only [Listing.find] at hx
    split at hx
    · simp at hx
    · next hm =>
      by_cases hlt : nameLt x m = true
      · by_cases h : n = x
        · simp [Listing.addDir, Listing.find, hlt, h]
        · have h2 : ¬ x = n := fun e => h e.symm
          simp [Listing.addDir, Listing.find, hlt, h, h2]
      · by_cases h : m = n
        · subst h
          simp [Listing.addDir, Listing.find, hlt, hm]
        · simp [Listing.addDir, Listing.find, hlt, h, ih hx]

theorem find_update_cons (L : Listing) (x : String) (xs : List String)
    (f : Listing → Listing) (n : String) :
    (L.update (x :: xs) f).find n =
      if n = x then
        (match L.find x with
          | some (.dir r sub) => some (.dir r (sub.update xs f))
          | o => o)
      else L.find n := by
  induction L with
  | nil => simp [Listing.update, Listing.find]
  | file m c rest ih =>
    by_cases h : m = x
    · subst h
      by_cases hn : n = m
      · subst hn
        simp [Listing.update, Listing.find]
      · simp [Listing.update, Listing.find, hn]
    · by_cases hn : n = x
      · subst hn
        simp [Listing.update, Listing.find, h, ih]
      · by_cases hm : m = n
        · simp [Listing.update, Listing.find, h, hn, hm]
        · simp [Listing.update, Listing.find, h, hn, hm, ih]
  | dir m r sub rest _ ih =>
    by_cases h : m = x
    · subst h
      by_cases hn : n = m
      · subst hn
        simp [Listing.update, Listing.find]
      · have hn2 : ¬ m = n := fun e => hn e.symm
        simp [Listing.update, Listing.find, hn, hn2]
    · by_cases hn : n = x
      · subst hn
        simp [Listing.update, Listing.find, h, ih]
      · by_cases hm : m = n
        · simp [Listing.update, Listing.find, h, hn, hm]
        · simp [Listing.update, Listing.find, h, hn, hm, ih]

theorem keepsDirs_addDir (x : String) :
    keepsDirs (fun M => M.find x = none) (fun d => d.addDir x) := by
  intro M hM n r sub h
  have hne : n ≠ x := by
    intro e
    rw [e, hM] at h
    simp at h
  simp [find_addDir M x hM, hne, h]

theorem walk_flag (L : Listing) (p : List String) (r r2 r1 : Bool) (l : Listing)
    (h : walk r L p = some (r1, l)) : ∃ r3, walk r2 L p = some (r3, l) := by
  cases p with
  | nil =>
    simp only [walk, Option.some.injEq, Prod.mk.injEq] at h
    exact ⟨r2, by simp [walk, h.2]⟩
  | cons n ns => exact ⟨r1, by simpa [walk] using h⟩

theorem walk_update (P : Listing → Prop) (f : Listing → Listing) (hf : keepsDirs P f)
    (p : List String) :
    ∀ (L : Listing) (loc : List String) (r r0 : Bool) (M : Listing),
      (∀ r1 r2 T, walk r1 L loc = some (r2, T) → P T) →
      walk r L p = some (r0, M) →
      walk r (L.update loc f) p
        = some (r0, if p <+: loc then M.update (loc.drop p.length) f else M) := by
  induction p with
  | nil =>
    intro L loc r r0 M _ h
    simp only [walk, Option.some.injEq, Prod.mk.injEq] at h
    simp [walk, h.1, h.2]
  | cons n ns ih =>
    intro L loc r r0 M hloc h
    simp only [walk] at h
    cases hfind : L.find n with
    | none => simp [hfind] at h
    | some k =>
      cases k with
      | file c => simp [hfind] at h
      | dir r1 sub =>
        simp only [hfind] at h
        cases loc with
        | nil =>
          simp [Listing.update, walk, hf L (hloc true true L rfl) n r1 sub hfind, h]
        | cons x xs =>
          by_cases hx : n = x
          · subst hx
            simp only [walk, find_update_cons, if_true, hfind]
            rw [ih sub xs r1 r0 M ?_ h]
            · simp [List.cons_prefix_cons]
            · intro r2 r3 T hT
              obtain ⟨r4, hT2⟩ := walk_flag sub xs r2 r1 r3 T hT
              exact hloc true r4 T (by simpa [walk, hfind] using hT2)
          · simp only [walk, find_update_cons, hx, if_false, hfind, h]
            simp [List.cons_prefix_cons, hx]

theorem names_addDir (L : Listing) (x n : String) :
    n ∈ (L.addDir x).names ↔ n = x ∨ n ∈ L.names := by
  induction L with
  | nil => simp [Listing.addDir, Listing.names]
  | file m c rest ih =>
    by_cases hlt : nameLt x m = true
    · simp [Listing.addDir, Listing.names, hlt]
    · simp only [Listing.addDir, hlt, if_false, Listing.names, List.mem_cons, ih]
      tauto
  | dir m r sub rest _ ih =>
    by_cases hlt : nameLt x m = true
    · simp [Listing.addDir, Listing.names, hlt]
    · simp only [Listing.addDir, hlt, if_false, Listing.names, List.mem_cons, ih]
      tauto

theorem find_eq_none_iff (L : Listing) (n : String) : L.find n = none ↔ n ∉ L.names := by
  induction L with
  | nil => simp [Listing.find, Listing.names]
  | file m c rest ih =>
    by_cases h : m = n
    · simp [Listing.find, Listing.names, h]
    · have h2 : ¬ n = m := fun e => h e.symm
      simp [Listing.find, Listing.names, h, h2, ih]
  | dir m r sub rest _ ih =>
    by_cases h : m = n
    · simp [Listing.find, Listing.names, h]
    · have h2 : ¬ n = m := fun e => h e.symm
      simp [Listing.find, Listing.names, h, h2, ih]

theorem wf_addDir (L : Listing) (x : String) (hwf : L.wf = true) (hx : validName x)
    (hn : L.find x = none) : (L.addDir x).wf = true := by
  induction L with
  | nil => simp [Listing.addDir, Listing.wf, Listing.names, hx]
  | file m c rest ih =>
    have hnm := (find_eq_none_iff _ x).mp hn
    simp only [Listing.wf, Bool.and_eq_true, decide_eq_true_eq] at hwf
    simp only [Listing.find] at hn
    split at hn
    · simp at hn
    · next hne =>
      by_cases hlt : nameLt x m = true
      · have hall : (Listing.file m c rest).wf = true := by
          simp [Listing.wf, hwf.1.1, hwf.1.2, hwf.2]
        simp only [Listing.addDir, hlt, if_true, Listing.wf, Bool.and_eq_true,
          decide_eq_true_eq]
        simp only [Listing.wf, Bool.and_eq_true, decide_eq_true_eq] at hall
        exact ⟨⟨⟨hx, hnm⟩, trivial⟩, hall⟩
      · simp only [Listing.addDir, hlt, if_false, Listing.wf, Bool.and_eq_true,
          decide_eq_true_eq, names_addDir, not_or]
        exact ⟨⟨hwf.1.1, hne, hwf.1.2⟩, ih hwf.2 hn⟩
  | dir m r sub rest _ ih =>
    have hnm := (find_eq_none_iff _ x).mp hn
    simp only [Listing.wf, Bool.and_eq_true, decide_eq_true_eq] at hwf
    simp only [Listing.find] at hn
    split at hn
    · simp at hn
    · next hne =>
      by_cases hlt : nameLt x m = true
      · have hall : (Listing.dir m r sub rest).wf = true := by
          simp [Listing.wf, hwf.1.1.1, hwf.1.1.2, hwf.1.2, hwf.2]
        simp only [Listing.addDir, hlt, if_true, Listing.wf, Bool.and_eq_true,
          decide_eq_true_eq]
        simp only [Listing.wf, Bool.and_eq_true, decide_eq_true_eq] at hall
        exact ⟨⟨⟨hx, hnm⟩, trivial⟩, hall⟩
      · simp only [Listing.addDir, hlt, if_false, Listing.wf, Bool.and_eq_true,
          decide_eq_true_eq, names_addDir, not_or]
        exact ⟨⟨⟨hwf.1.1.1, hne, hwf.1.1.2⟩, hwf.1.2⟩, ih hwf.2 hn⟩

theorem allReadable_addDir (L : Listing) (x : String) (hr : L.allReadable = true) :
    (L.addDir x).allReadable = true := by
  induction L with
  | nil => simp [Listing.addDir, Listing.allReadable]
  | file m c rest ih =>
    by_cases hlt : nameLt x m = true
    · simpa [Listing.addDir, hlt, Listing.allReadable] using hr
    · simpa [Listing.addDir, hlt, Listing.allReadable] using ih hr
  | dir m r sub rest _ ih =>
    by_cases hlt : nameLt x m = true
    · simpa [Listing.addDir, hlt, Listing.allReadable] using hr
    · simp only [Listing.allReadable, Bool.and_eq_true] at hr
      simp [Listing.addDir, hlt, Listing.allReadable, hr.1.1, hr.1.2, ih hr.2]

theorem dirs_addDir (L : Listing) (x : String) : (L.addDir x).dirs = L.dirs + 1 := by
  induction L with
  | nil => simp [Listing.addDir, Listing.dirs]
  | file m c rest ih =>
    by_cases hlt : nameLt x m = true
    · simp only [Listing.addDir, hlt, if_true, Listing.dirs]
      omega
    · simpa [Listing.addDir, hlt, Listing.dirs] using ih
  | dir m r sub rest _ ih =>
    by_cases hlt : nameLt x m = true
    · simp only [Listing.addDir, hlt, if_true, Listing.dirs]
      omega
    · simp only [Listing.addDir, hlt, if_false, Listing.dirs, ih]
      omega

theorem names_update_cons (L : Listing) (x : String) (xs : List String)
    (f : Listing → Listing) : (L.update (x :: xs) f).names = L.names := by
  induction L with
  | nil => rfl
  | file m c rest ih =>
    by_cases h : m = x
    · simp [Listing.update, Listing.names, h]
    · simp [Listing.update, Listing.names, h, ih]
  | dir m r sub rest _ ih =>
    by_cases h : m = x
    · simp [Listing.update, Listing.names, h]
    · simp [Listing.update, Listing.names, h, ih]

theorem wf_update_addDir (x : String) (hx : validName x) (L : Listing) :
    ∀ (rel : List String), L.wf = true →
      (∀ r r1 l, walk r L rel = some (r1, l) → l.find x = none) →
      (L.update rel (fun d => d.addDir x)).wf = true := by
  induction L with
  | nil =>
    intro rel hwf hfree
    cases rel with
    | nil => simp [Listing.update, Listing.addDir, Listing.wf, Listing.names, hx]
    | cons y ys => simp [Listing.update, Listing.wf]
  | file m c rest ih =>
    intro rel hwf hfree
    cases rel with
    | nil =>
      simp only [Listing.update]
      exact wf_addDir _ x hwf hx (hfree true true _ rfl)
    | cons y ys =>
      by_cases h : m = y
      · simpa [Listing.update, h] using hwf
      · simp only [Listing.wf, Bool.and_eq_true, decide_eq_true_eq] at hwf
        simp only [Listing.update, h, if_false, Listing.wf, Bool.and_eq_true,
          decide_eq_true_eq, names_update_cons]
        refine ⟨hwf.1, ih (y :: ys) hwf.2 ?_⟩
        intro r r1 l hw
        apply hfree r r1 l
        simpa [walk, Listing.find, h] using hw
  | dir m r0 sub rest ihs ih =>
    intro rel hwf hfree
    cases rel with
    | nil =>
      simp only [Listing.update]
      exact wf_addDir _ x hwf hx (hfree true true _ rfl)
    | cons y ys =>
      simp only [Listing.wf, Bool.and_eq_true, decide_eq_true_eq] at hwf
      by_cases h : m = y
      · subst h
        simp only [Listing.update, if_true, Listing.wf, Bool.and_eq_true,
          decide_eq_true_eq]
        have h : m = m := rfl
        refine ⟨⟨⟨hwf.1.1.1, hwf.1.1.2⟩, ihs ys hwf.1.2 ?_⟩, hwf.2⟩
        intro r r1 l hw
        cases ys with
        | nil =>
          simp only [walk, Option.some.injEq, Prod.mk.injEq] at hw
          apply hfree true r0 l
          simp [walk, Listing.find, h, hw.2]
        | cons z zs =>
          apply hfree true r1 l
          simpa [walk, Listing.find, h] using hw
      · simp only [Listing.update, h, if_false, Listing.wf, Bool.and_eq_true,
          decide_eq_true_eq, names_update_cons]
        refine ⟨⟨hwf.1.1, hwf.1.2⟩, ih (y :: ys) hwf.2 ?_⟩
        intro r r1 l hw
        apply hfree r r1 l
        simpa [walk, Listing.find, h] using hw

theorem allReadable_update_addDir (x : String) (L : Listing) :
    ∀ (rel : List String), L.allReadable = true →
      (L.update rel (fun d => d.addDir x)).allReadable = true := by
  induction L with
  | nil =>
    intro rel hr
    cases rel <;> simp [Listing.update, Listing.addDir, Listing.allReadable]
  | file m c rest ih =>
    intro rel hr
    cases rel with
    | nil => exact allReadable_addDir _ x hr
    | cons y ys =>
      by_cases h : m = y
      · simpa [Listing.update, h] using hr
      · simp only [Listing.allReadable] at hr
        simpa [Listing.update, h, Listing.allReadable] using ih (y :: ys) hr
  | dir m r0 sub rest ihs ih =>
    intro rel hr
    cases rel with
    | nil => exact allReadable_addDir _ x hr
    | cons y ys =>
      simp only [Listing.allReadable, Bool.and_eq_true] at hr
      by_cases h : m = y
      · simp [Listing.update, h, Listing.allReadable, hr.1.1, hr.2, ihs ys hr.1.2]
      · simp [Listing.update, h, Listing.allReadable, hr.1.1, hr.1.2, ih (y :: ys) hr.2]

theorem dirs_update_addDir (x : String) (L : Listing) :
    ∀ (rel : List String), (L.update rel (fun d => d.addDir x)).dirs ≤ L.dirs + 1 := by
  induction L with
  | nil =>
    intro rel
    cases rel <;> simp [Listing.update, Listing.addDir, Listing.dirs]
  | file m c rest ih =>
    intro rel
    cases rel with
    | nil => simp [Listing.update, dirs_addDir]
    | cons y ys =>
      by_cases h : m = y
      · simp [Listing.update, h]
      · simpa [Listing.update, h, Listing.dirs] using ih (y :: ys)
  | dir m r0 sub rest ihs ih =>
    intro rel
    cases rel with
    | nil => simp [Listing.update, dirs_addDir]
    | cons y ys =>
      by_cases h : m = y
      · have := ihs ys
        simp only [Listing.update, h, if_true, Listing.dirs]
        omega
      · have := ih (y :: ys)
        simp only [Listing.update, h, if_false, Listing.dirs]
        omega

theorem splitSlash_mem_noslash (a : List Char) : ∀ part ∈ splitSlash a, '/' ∉ part := by
  induction a with
  | nil => simp [splitSlash]
  | cons c cs ih =>
    intro part hp
    by_cases hc : c = '/'
    · simp only [splitSlash, hc, if_true, List.mem_cons] at hp
      rcases hp with rfl | hp
      · simp
      · exact ih part hp
    · simp only [splitSlash, hc, if_false] at hp
      cases h : splitSlash cs with
      | nil => exact absurd h (splitSlash_ne_nil cs)
      | cons x xs =>
        rw [h] at hp ih
        simp only [List.mem_cons] at hp
        rcases hp with rfl | hp
        · have := ih x (by simp)
          simp only [List.mem_cons, not_or]
          exact ⟨fun e => hc e.symm, this⟩
        · exact ih part (by simp [hp])

theorem pathComps_mem_noslash (s c : String) (hc : c ∈ pathComps s) : '/' ∉ c.data := by
  simp only [pathComps, List.mem_map] at hc
  obtain ⟨part, hp, rfl⟩ := hc
  exact splitSlash_mem_noslash _ part hp

theorem resolveParent_name (R : Listing) (cwd comps : List String) (path : String)
    (loc : List String) (name : String)
    (h : resolveParent R cwd comps path = some (loc, name)) :
    name ∈ comps ∧ name ≠ "" ∧ name ≠ "." ∧ name ≠ ".." := by
  unfold resolveParent at h
  split at h
  · simp at h
  · next nm before hrev =>
    split at h
    · simp at h
    · next hnm =>
      have hmem : nm ∈ comps := by
        have : nm ∈ comps.reverse := by rw [hrev]; simp
        simpa using this
      split at h
      · simp at h
      · split at h
        · simp at h
        · simp only [Option.some.injEq, Prod.mk.injEq] at h
          rw [← h.2]
          simp only [not_or] at hnm
          exact ⟨hmem, hnm.1, hnm.2.1, hnm.2.2⟩

theorem osMkdir_ok (path : String) (w w2 : World) (h : osMkdir path w = (none, w2)) :
    ∃ loc name r l, validName name ∧ walk true w.root loc = some (r, l) ∧ l.find name = none
      ∧ w2 = { w with root := w.root.update loc (fun d => d.addDir name) } := by
  unfold osMkdir at h
  split at h
  · simp at h
  · next loc name hrp =>
    obtain ⟨hmem, h1, h2, h3⟩ := resolveParent_name _ _ _ _ _ _ hrp
    have hns : '/' ∉ name.data := by
      apply pathComps_mem_noslash path
      have : name ∈ ((pathComps path).reverse.dropWhile (fun c => decide (c = ""))) := by
        simpa using hmem
      have := (List.dropWhile_sublist _).subset this
      simpa using this
    split at h
    · simp at h
    · next r l hw =>
      split at h
      · simp at h
      · next hf =>
        simp only [Prod.mk.injEq, true_and] at h
        exact ⟨loc, name, r, l, ⟨h1, h2, h3, hns⟩, hw, hf, h.symm⟩

theorem makeDir_ok (dir : String) (w w2 : World) (h : makeDir dir w = (none, w2)) :
    w2 = w ∨ ∃ loc name r l, validName name ∧ walk true w.root loc = some (r, l)
      ∧ l.find name = none
      ∧ w2 = { w with root := w.root.update loc (fun d => d.addDir name) } := by
  unfold makeDir at h
  split at h
  · exact Or.inr (osMkdir_ok dir w w2 h)
  · split at h
    · simp at h
    · simp only [Prod.mk.injEq, true_and] at h
      exact Or.inl h.symm

theorem walk_listing_indep (L : Listing) (p : List String) (r r2 r1 r3 : Bool)
    (l l2 : Listing) (h : walk r L p = some (r1, l)) (h2 : walk r2 L p = some (r3, l2)) :
    l = l2 := by
  cases p with
  | nil =>
    simp only [walk, Option.some.injEq, Prod.mk.injEq] at h h2
    rw [← h.2, ← h2.2]
  | cons n ns =>
    simp only [walk] at h h2
    rw [h] at h2
    simp only [Option.some.injEq, Prod.mk.injEq] at h2
    exact h2.2

theorem makeDir_tree (dir : String) (w w2 : World) (P0 : List String) (L0 : Listing)
    (h : makeDir dir w = (none, w2)) (hin : walk true w.root P0 = some (true, L0))
    (hwf : L0.wf = true) (hr : L0.allReadable = true) :
    ∃ L1, walk true w2.root P0 = some (true, L1) ∧ L1.wf = true ∧ L1.allReadable = true
      ∧ L1.dirs ≤ L0.dirs + 1
      ∧ (L1 = L0 ∨ ∃ rel x, L1 = L0.update rel (fun d => d.addDir x))
      ∧ w2.cwd = w.cwd ∧ w2.fQ = w.fQ ∧ w2.showMessages = w.showMessages
      ∧ w2.stdout = w.stdout := by
  rcases makeDir_ok dir w w2 h with rfl | ⟨loc, name, r, l, hv, hw, hf, rfl⟩
  · exact ⟨L0, hin, hwf, hr, by omega, Or.inl rfl, rfl, rfl, rfl, rfl⟩
  · have hwu := walk_update _ _ (keepsDirs_addDir name) P0 w.root loc true true L0
      (by
        intro r1 r2 T hT
        rw [walk_listing_indep w.root loc r1 true r2 r T l hT hw]
        exact hf)
      hin
    by_cases hp : P0 <+: loc
    · obtain ⟨rel, rfl⟩ := hp
      have hwu : walk true (w.root.update (P0 ++ rel) fun d => d.addDir name) P0
          = some (true, L0.update rel fun d => d.addDir name) := by
        simpa using hwu
      refine ⟨_, hwu, ?_, allReadable_update_addDir name L0 rel hr,
        dirs_update_addDir name L0 rel, Or.inr ⟨rel, name, rfl⟩, rfl, rfl, rfl, rfl⟩
      apply wf_update_addDir name hv L0 rel hwf
      intro r2 r3 l2 hw2
      rw [walk_append, hin] at hw
      change walk true L0 rel = some (r, l) at hw
      rw [walk_listing_indep L0 rel r2 true r3 r l2 l hw2 hw]
      exact hf
    · rw [if_neg hp] at hwu
      exact ⟨L0, hwu, hwf, hr, by omega, Or.inl rfl, rfl, rfl, rfl, rfl⟩

theorem pathIsAbs_pathClean (s : String) (h : pathIsAbs s = true) :
    pathIsAbs (pathClean s) = true := by
  unfold pathClean
  have hne : s ≠ "" := by
    intro e
    subst e
    simp [pathIsAbs] at h
  rw [if_neg hne]
  simp only [h, if_true]
  exact pathIsAbs_slash _

theorem startOf_abs (cwd : List String) (p : String) (h : pathIsAbs p = true) :
    startOf cwd p = [] := by
  simp [startOf, h]

theorem osStat_indep (dir : String) (hd : pathIsAbs dir = true) (w w2 : World)
    (hroot : w.root = w2.root) : osStat dir w = osStat dir w2 := by
  simp only [osStat, resolveDir, resolveParent, startOf_abs _ _ hd, hroot]

theorem osMkdir_indep (dir : String) (hd : pathIsAbs dir = true) (w w2 : World)
    (hroot : w.root = w2.root) :
    (osMkdir dir w).1 = (osMkdir dir w2).1 ∧ (osMkdir dir w).2.root = (osMkdir dir w2).2.root := by
  simp only [osMkdir, resolveParent, startOf_abs _ _ hd, hroot]
  split
  · simp [hroot]
  · split
    · simp [hroot]
    · split
      · simp [hroot]
      · simp [hroot]

theorem makeDir_indep (dir : String) (hd : pathIsAbs dir = true) (w w2 : World)
    (hroot : w.root = w2.root) :
    (makeDir dir w).1 = (makeDir dir w2).1 ∧ (makeDir dir w).2.root = (makeDir dir w2).2.root := by
  unfold makeDir
  rw [osStat_indep dir hd w w2 hroot]
  split
  · exact osMkdir_indep dir hd w w2 hroot
  · split <;> simp [hroot]

theorem osMkdir_frame (dir : String) (w : World) :
    (osMkdir dir w).2.cwd = w.cwd ∧ (osMkdir dir w).2.fQ = w.fQ
      ∧ (osMkdir dir w).2.showMessages = w.showMessages
      ∧ (osMkdir dir w).2.stdout = w.stdout := by
  unfold osMkdir
  split
  · simp
  · split
    · simp
    · split <;> simp

theorem makeDir_frame (dir : String) (w : World) :
    (makeDir dir w).2.cwd = w.cwd ∧ (makeDir dir w).2.fQ = w.fQ
      ∧ (makeDir dir w).2.showMessages = w.showMessages
      ∧ (makeDir dir w).2.stdout = w.stdout := by
  unfold makeDir
  split
  · exact osMkdir_frame dir w
  · split <;> simp

theorem finish_folders (in_ out : String) (b : Builder) (write : Bool) (folders : List Folder)
    (w w0 : World) :
    (Build.finish in_ out b write folders w).1.1 = folders.map (fun f => (f.generate b w0).1) := by
  obtain ⟨h1, -⟩ := Folders_generate_spec folders b (msg "generate scripts" [] w) w0
  unfold Build.finish
  cases write with
  | false => simp [h1]
  | true =>
    simp only [if_true]
    split
    · simp [h1]
    · split <;> simp [h1]

theorem bfsOrder_good (b : Builder) (R : Listing) (fuel : Nat) (q : List Item)
    (hgood : ∀ x ∈ q, x.good R) : ∀ x ∈ bfsOrder b fuel q, x.good R := by
  induction fuel generalizing q with
  | zero => simp [bfsOrder]
  | succ n ih =>
    cases q with
    | nil => simp [bfsOrder]
    | cons z rest =>
      have hgood2 : ∀ y ∈ rest ++ z.kids b, y.good R := by
        intro y hy
        rcases List.mem_append.mp hy with h | h
        · exact hgood y (by simp [h])
        · exact kids_good b R z (hgood z (by simp)) y h
      intro x hx
      simp only [bfsOrder, List.mem_cons] at hx
      rcases hx with rfl | hx
      · exact hgood x (by simp)
      · exact ih _ hgood2 x hx

theorem keptChain_append (b : Builder) (rel rest : List String) :
    ∀ (L M : Listing) (r r2 : Bool), keptChain b L rel = true → walk r L rel = some (r2, M) →
      keptChain b M rest = true → keptChain b L (rel ++ rest) = true := by
  induction rel with
  | nil =>
    intro L M r r2 _ hw hc
    simp only [walk, Option.some.injEq, Prod.mk.injEq] at hw
    simpa [hw.2] using hc
  | cons n ns ih =>
    intro L M r r2 h hw hc
    simp only [keptChain, walk] at h hw
    cases hf : L.find n with
    | none => simp [hf] at h
    | some k =>
      cases k with
      | file c => simp [hf] at h
      | dir r1 sub =>
        simp only [hf, Bool.and_eq_true] at h hw
        simp only [List.cons_append, keptChain, hf, h.1, Bool.true_and]
        exact ih sub M r1 r2 h.2 hw hc

theorem find_mem_names (L : Listing) (n : String) (k : Kind) (h : L.find n = some k) :
    n ∈ L.names := by
  by_contra hn
  rw [(find_eq_none_iff L n).mpr hn] at h
  simp at h

theorem wf_names_valid (L : Listing) (hwf : L.wf = true) : ∀ n ∈ L.names, validName n := by
  induction L with
  | nil => simp [Listing.names]
  | file m c rest ih =>
    simp only [Listing.wf, Bool.and_eq_true, decide_eq_true_eq] at hwf
    intro n hn
    simp only [Listing.names, List.mem_cons] at hn
    rcases hn with rfl | hn
    · exact hwf.1.1
    · exact ih hwf.2 n hn
  | dir m r sub rest _ ih =>
    simp only [Listing.wf, Bool.and_eq_true, decide_eq_true_eq] at hwf
    intro n hn
    simp only [Listing.names, List.mem_cons] at hn
    rcases hn with rfl | hn
    · exact hwf.1.1.1
    · exact ih hwf.2 n hn

theorem wf_find_dir (L : Listing) (hwf : L.wf = true) (n : String) (r : Bool) (sub : Listing)
    (h : L.find n = some (.dir r sub)) : sub.wf = true := by
  induction L with
  | nil => simp [Listing.find] at h
  | file m c rest ih =>
    simp only [Listing.wf, Bool.and_eq_true, decide_eq_true_eq] at hwf
    simp only [Listing.find] at h
    split at h
    · simp at h
    · exact ih hwf.2 h
  | dir m r2 sub2 rest _ ih =>
    simp only [Listing.wf, Bool.and_eq_true, decide_eq_true_eq] at hwf
    simp only [Listing.find] at h
    split at h
    · simp only [Option.some.injEq, Kind.dir.injEq] at h
      rw [← h.2]
      exact hwf.1.2
    · exact ih hwf.2 h

theorem keptChain_valid (b : Builder) (rel : List String) :
    ∀ (L : Listing), L.wf = true → keptChain b L rel = true → validPath rel := by
  induction rel with
  | nil =>
    intro L _ _ n hn
    simp at hn
  | cons m ms ih =>
    intro L hwf h
    simp only [keptChain] at h
    cases hf : L.find m with
    | none => simp [hf] at h
    | some k =>
      cases k with
      | file c => simp [hf] at h
      | dir r1 sub =>
        simp only [hf, Bool.and_eq_true] at h
        intro n hn
        simp only [List.mem_cons] at hn
        rcases hn with rfl | hn
        · exact wf_names_valid L hwf n (find_mem_names L n _ hf)
        · exact ih sub (wf_find_dir L hwf m r1 sub hf) h.2 n hn

theorem validPath_append (P Q : List String) (hP : validPath P) (hQ : validPath Q) :
    validPath (P ++ Q) := by
  intro n hn
  rcases List.mem_append.mp hn with h | h
  · exact hP n h
  · exact hQ n h

theorem record_children (script : String) (b : Builder) (x : Item) (hx : x.sub.wf = true)
    (hr : x.sub.allReadable = true) (hP : validPath x.loc) (c : String)
    (hc : c ∈ (x.record script b).Children) :
    ∃ s ∈ keptSubs b x.sub, c = absPath (x.loc ++ [s.1]) := by
  simp only [Item.record, scanned] at hc
  have e : (x.sub.entries.filter (keptDir b)).map (fun e => pathJoin (absPath x.loc) e.name)
      = ((x.sub.entries.filter (keptDir b)).map (fun e => e.name)).map
          (fun n => pathJoin (absPath x.loc) n) := by
    simp [List.map_map, Function.comp]
  rw [e, keptSubs_names, List.map_map] at hc
  simp only [List.mem_map, Function.comp] at hc
  obtain ⟨s, hs, rfl⟩ := hc
  exact ⟨s, hs, pathJoin_absPath _ _ hP (keptSubs_spec b x.sub hx hr s hs).1⟩

theorem scan_items_spec (script : String) (b : Builder) (R : Listing) (fuel : Nat)
    (P0 : List String) (D : String) (L1 : Listing)
    (hgood : Item.good R ⟨P0, D, L1⟩) (hfuel : L1.dirs + 1 < fuel) :
    ((bfsOrder b fuel [⟨P0, D, L1⟩]).map (fun x => absPath x.loc)).Nodup
      ∧ (∀ p, p ∈ (bfsOrder b fuel [⟨P0, D, L1⟩]).map (fun x => absPath x.loc)
          ↔ ∃ rel, keptChain b L1 rel = true ∧ p = absPath (P0 ++ rel))
      ∧ (bfsOrder b fuel [⟨P0, D, L1⟩]).length = 1 + keptBelow b L1
      ∧ (∀ x ∈ bfsOrder b fuel [⟨P0, D, L1⟩], ∀ c ∈ (x.record script b).Children,
          c ∈ (bfsOrder b fuel [⟨P0, D, L1⟩]).map (fun x => absPath x.loc))
      ∧ (∀ rel, validPath rel → keptChain b L1 rel = false →
          absPath (P0 ++ rel) ∉ (bfsOrder b fuel [⟨P0, D, L1⟩]).map (fun x => absPath x.loc)
          ∧ ∀ x ∈ bfsOrder b fuel [⟨P0, D, L1⟩],
              absPath (P0 ++ rel) ∉ (x.record script b).Children) := by
  have hq : ∀ x ∈ [(⟨P0, D, L1⟩ : Item)], x.good R := by
    intro x hx
    simp only [List.mem_singleton] at hx
    subst hx
    exact hgood
  have hf : totalSize [(⟨P0, D, L1⟩ : Item)] < fuel := by
    simp [totalSize, Item.size]
    omega
  have hall := bfsOrder_good b R fuel _ hq
  have hmem := bfsOrder_mem b R fuel _ hq hf
  have hmem2 : ∀ p, p ∈ (bfsOrder b fuel [⟨P0, D, L1⟩]).map (fun x => absPath x.loc)
      ↔ ∃ rel, keptChain b L1 rel = true ∧ p = absPath (P0 ++ rel) := by
    intro p
    constructor
    · intro hp
      simp only [List.mem_map] at hp
      obtain ⟨x, hx, rfl⟩ := hp
      obtain ⟨y, hy, rel, hc, hl⟩ := (hmem x.loc).mp (List.mem_map.mpr ⟨x, hx, rfl⟩)
      simp only [List.mem_singleton] at hy
      subst hy
      exact ⟨rel, hc, by rw [hl]⟩
    · rintro ⟨rel, hc, rfl⟩
      have := (hmem (P0 ++ rel)).mpr ⟨⟨P0, D, L1⟩, by simp, rel, hc, rfl⟩
      simp only [List.mem_map] at this ⊢
      obtain ⟨x, hx, hl⟩ := this
      exact ⟨x, hx, by rw [hl]⟩
  have hchild : ∀ x ∈ bfsOrder b fuel [⟨P0, D, L1⟩], ∀ c ∈ (x.record script b).Children,
      c ∈ (bfsOrder b fuel [⟨P0, D, L1⟩]).map (fun x => absPath x.loc) := by
    intro x hx c hc
    obtain ⟨g1, g2, g3, g4⟩ := hall x hx
    obtain ⟨s, hs, rfl⟩ := record_children script b x g3 g4 g1 c hc
    obtain ⟨y, hy, rel, hch, hl⟩ := (hmem x.loc).mp (List.mem_map.mpr ⟨x, hx, rfl⟩)
    simp only [List.mem_singleton] at hy
    subst hy
    simp only at hl hch
    rw [hmem2]
    refine ⟨rel ++ [s.1], ?_, by rw [hl, List.append_assoc]⟩
    have hw : walk true L1 rel = some (true, x.sub) := by
      have := g2
      rw [hl, walk_append, hgood.2.1] at this
      exact this
    apply keptChain_append b rel [s.1] L1 x.sub true true hch hw
    exact (keptChain_cons b x.sub g3 g4 s.1 []).mpr ⟨s, hs, rfl, by simp [keptChain]⟩
  have hnot : ∀ rel, validPath rel → keptChain b L1 rel = false →
      absPath (P0 ++ rel) ∉ (bfsOrder b fuel [⟨P0, D, L1⟩]).map (fun x => absPath x.loc) := by
    intro rel hv hk hin
    obtain ⟨rel2, hc2, he⟩ := (hmem2 _).mp hin
    have hv2 := keptChain_valid b rel2 L1 hgood.2.2.1 hc2
    have := absPath_injective _ _ (validPath_append _ _ hgood.1 hv)
      (validPath_append _ _ hgood.1 hv2) he
    have := List.append_cancel_left this
    subst this
    rw [hc2] at hk
    simp at hk
  refine ⟨?_, hmem2, ?_, hchild, ?_⟩
  · have hn := bfsOrder_nodup b R fuel _ hq (by simp)
    have : (bfsOrder b fuel [⟨P0, D, L1⟩]).map (fun x => absPath x.loc)
        = ((bfsOrder b fuel [⟨P0, D, L1⟩]).map (fun x => x.loc)).map absPath := by
      simp [List.map_map, Function.comp]
    rw [this]
    apply List.Nodup.map_on _ hn
    intro P hPm Q hQm he
    simp only [List.mem_map] at hPm hQm
    obtain ⟨x, hx, rfl⟩ := hPm
    obtain ⟨y, hy, rfl⟩ := hQm
    exact absPath_injective _ _ (hall x hx).1 (hall y hy).1 he
  · simpa using bfsOrder_length b fuel _ hf
  · intro rel hv hk
    exact ⟨hnot rel hv hk, fun x hx hc => hnot rel hv hk (hchild x hx _ hc)⟩

theorem statAt_cons (L : Listing) (n : String) (p : List String) :
    statAt L (n :: p) =
      match L.find n with
      | some (.dir _ sub) => statAt sub p
      | some (.file c) => if p = [] then some (.file c) else none
      | none => none := by
  cases p with
  | nil =>
    simp only [statAt]
    cases h : L.find n with
    | none => rfl
    | some k => cases k <;> rfl
  | cons m ms =>
    simp only [statAt]
    cases h : L.find n with
    | none => rfl
    | some k => cases k <;> simp

theorem statAt_dir_iff (p : List String) :
    ∀ (L : Listing) (r : Bool), (walk r L p).isSome = true ↔ statAt L p = some .dir := by
  induction p with
  | nil => intro L r; simp [walk, statAt]
  | cons n ns ih =>
    intro L r
    rw [statAt_cons]
    simp only [walk]
    cases h : L.find n with
    | none => simp
    | some k =>
      cases k with
      | file c =>
        simp only [Option.isSome_none, Bool.false_eq_true, false_iff]
        split <;> simp
      | dir r1 sub => exact ih sub r1

theorem statAt_snoc (p : List String) (n : String) :
    ∀ (L : Listing) (r r1 : Bool) (l : Listing), walk r L p = some (r1, l) →
      statAt L (p ++ [n]) = (l.find n).map Kind.stat := by
  induction p with
  | nil =>
    intro L r r1 l h
    simp only [walk, Option.some.injEq, Prod.mk.injEq] at h
    simp [statAt, h.2]
  | cons m ms ih =>
    intro L r r1 l h
    simp only [walk] at h
    rw [List.cons_append, statAt_cons]
    cases hf : L.find m with
    | none => simp [hf] at h
    | some k =>
      cases k with
      | file c => simp [hf] at h
      | dir r2 sub =>
        simp only [hf] at h
        exact ih sub r2 r1 l h

theorem statAt_nil_below (p : List String) (hp : p ≠ []) : statAt .nil p = none := by
  cases p with
  | nil => exact absurd rfl hp
  | cons n ns => rw [statAt_cons]; rfl

theorem statAt_addDir (L : Listing) (x : String) (hx : L.find x = none) (p : List String) :
    statAt (L.addDir x) p = if p = [x] then some .dir else statAt L p := by
  cases p with
  | nil => simp [statAt]
  | cons n ns =>
    rw [statAt_cons, statAt_cons, find_addDir L x hx n]
    by_cases e : n = x
    · subst e
      simp only [if_true, List.cons.injEq, true_and, hx]
      by_cases hns : ns = []
      · simp [hns, statAt]
      · simp [hns, statAt_nil_below ns hns]
    · simp [e]

theorem statAt_update_addDir (x : String) (loc : List String) :
    ∀ (L : Listing), statAt L loc = some .dir → statAt L (loc ++ [x]) = none →
      ∀ p, statAt (L.update loc (fun d => d.addDir x)) p
        = if p = loc ++ [x] then some .dir else statAt L p := by
  induction loc with
  | nil =>
    intro L _ h2 p
    simp only [statAt, Option.map_eq_none', List.nil_append] at h2
    simpa [Listing.update] using statAt_addDir L x h2 p
  | cons y ys ih =>
    intro L h1 h2 p
    rw [statAt_cons] at h1
    rw [List.cons_append, statAt_cons] at h2
    cases p with
    | nil => simp [statAt]
    | cons n ns =>
      rw [statAt_cons, statAt_cons, find_update_cons]
      by_cases hn : n = y
      · subst hn
        cases hf : L.find n with
        | none => simp [hf] at h1
        | some k =>
          cases k with
          | file c =>
            simp only [hf] at h1
            split at h1 <;> simp at h1
          | dir r sub =>
            simp only [hf] at h1 h2
            simp only [if_true, List.cons_append, List.cons.injEq, true_and]
            exact ih sub h1 h2 ns
      · have : ¬ (n :: ns = y :: ys ++ [x]) := by
          intro e
          simp only [List.cons_append, List.cons.injEq] at e
          exact hn e.1
        simp [hn, this]

theorem find_putFile (L : Listing) (x d : String)
    (hx : ∀ r sub, L.find x ≠ some (.dir r sub)) (n : String) :
    (L.putFile x d).find n = if n = x then some (.file d) else L.find n := by
  induction L with
  | nil =>
    by_cases h : n = x
    · simp [Listing.putFile, Listing.find, h]
    · have h2 : ¬ x = n := fun e => h e.symm
      simp [Listing.putFile, Listing.find, h, h2]
  | file m c rest ih =>
    by_cases hm : m = x
    · subst hm
      by_cases h : n = m
      · simp [Listing.putFile, Listing.find, h]
      · have h2 : ¬ m = n := fun e => h e.symm
        simp [Listing.putFile, Listing.find, h, h2]
    · have hrest : ∀ r sub, rest.find x ≠ some (.dir r sub) := by
        intro r sub e
        exact hx r sub (by simp [Listing.find, hm, e])
      by_cases hlt : nameLt x m = true
      · by_cases h : n = x
        · simp [Listing.putFile, Listing.find, hm, hlt, h]
        · have h2 : ¬ x = n := fun e => h e.symm
          simp [Listing.putFile, Listing.find, hm, hlt, h, h2]
      · by_cases h : n = x
        · subst h
          simp [Listing.putFile, Listing.find, hm, hlt, ih hrest]
        · by_cases hmn : m = n
          · subst hmn
            simp [Listing.putFile, Listing.find, hm, hlt, h]
          · simp [Listing.putFile, Listing.find, hm, hlt, hmn, h, ih hrest]
  | dir m r0 sub0 rest _ ih =>
    have hm : m ≠ x := by
      intro e
      exact hx r0 sub0 (by simp [Listing.find, e])
    have hrest : ∀ r sub, rest.find x ≠ some (.dir r sub) := by
      intro r sub e
      exact hx r sub (by simp [Listing.find, hm, e])
    by_cases hlt : nameLt x m = true
    · by_cases h : n = x
      · simp [Listing.putFile, Listing.find, hlt, h]
      · have h2 : ¬ x = n := fun e => h e.symm
        simp [Listing.putFile, Listing.find, hlt, h, h2]
    · by_cases h : n = x
      · subst h
        simp [Listing.putFile, Listing.find, hm, hlt, ih hrest]
      · by_cases hmn : m = n
        · subst hmn
          simp [Listing.putFile, Listing.find, hlt, h]
        · simp [Listing.putFile, Listing.find, hlt, hmn, h, ih hrest]

theorem statAt_putFile (L : Listing) (x d : String)
    (hx : ∀ r sub, L.find x ≠ some (.dir r sub)) (p : List String) :
    statAt (L.putFile x d) p = if p = [x] then some (.file d) else statAt L p := by
  cases p with
  | nil => simp [statAt]
  | cons n ns =>
    rw [statAt_cons, statAt_cons, find_putFile L x d hx]
    by_cases h : n = x
    · subst h
      simp only [if_true, List.cons.injEq, true_and]
      cases hf : L.find n with
      | none =>
        by_cases hns : ns = [] <;> simp [hns]
      | some k =>
        cases k with
        | file c => by_cases hns : ns = [] <;> simp [hns]
        | dir r sub => exact absurd hf (hx r sub)
    · simp [h]

theorem statAt_update_putFile (x d : String) (loc : List String) :
    ∀ (L : Listing), statAt L loc = some .dir → statAt L (loc ++ [x]) ≠ some .dir →
      ∀ p, statAt (L.update loc (fun l => l.putFile x d)) p
        = if p = loc ++ [x] then some (.file d) else statAt L p := by
  induction loc with
  | nil =>
    intro L _ h2 p
    have hx : ∀ r sub, L.find x ≠ some (.dir r sub) := by
      intro r sub e
      apply h2
      simp [statAt, e, Kind.stat]
    simpa [Listing.update] using statAt_putFile L x d hx p
  | cons y ys ih =>
    intro L h1 h2 p
    rw [statAt_cons] at h1
    rw [List.cons_append, statAt_cons] at h2
    cases p with
    | nil => simp [statAt]
    | cons n ns =>
      rw [statAt_cons, statAt_cons, find_update_cons]
      by_cases hn : n = y
      · subst hn
        cases hf : L.find n with
        | none => simp [hf] at h1
        | some k =>
          cases k with
          | file c =>
            simp only [hf] at h1
            split at h1 <;> simp at h1
          | dir r sub =>
            simp only [hf] at h1 h2
            simp only [if_true, List.cons_append, List.cons.injEq, true_and]
            exact ih sub h1 h2 ns
      · have : ¬ (n :: ns = y :: ys ++ [x]) := by
          intro e
          simp only [List.cons_append, List.cons.injEq] at e
          exact hn e.1
        simp [hn, this]

theorem pathIsAbs_name (n : String) (hn : validName n) : pathIsAbs n = false := by
  obtain ⟨h1, -, -, h4⟩ := hn
  unfold pathIsAbs
  cases hd : n.data with
  | nil => rfl
  | cons c cs =>
    have : c ≠ '/' := by
      intro e
      apply h4
      rw [hd, e]
      simp
    simp [this]

theorem osWriteFile_ok (script data : String) (w : World) (S : List String)
    (hn : validName script) (hcwd : w.cwd = S) (hS : statAt w.root S = some .dir)
    (hfree : statAt w.root (S ++ [script]) ≠ some .dir) :
    ∃ w2, osWriteFile script data w = (none, w2) ∧ w2.cwd = w.cwd ∧ w2.fQ = w.fQ
      ∧ w2.showMessages = w.showMessages
      ∧ ∀ p, statAt w2.root p
          = if p = S ++ [script] then some (.file data) else statAt w.root p := by
  have hw : (walk true w.root S).isSome = true := (statAt_dir_iff S w.root true).mpr hS
  obtain ⟨⟨r, l⟩, hwl⟩ := Option.isSome_iff_exists.mp hw
  have hrp : resolveParent w.root w.cwd (pathComps script) script = some (S, script) := by
    have hs : startOf w.cwd script = S := by simp [startOf, pathIsAbs_name script hn, hcwd]
    simp [resolveParent, pathComps_name script hn.2.2.2, hn.1, hn.2.1, hn.2.2.1, hs, hwl,
      resolveFrom]
  have hfind2 : ¬ ∃ r2 sub, l.find script = some (.dir r2 sub) := by
    rintro ⟨r2, sub, e⟩
    apply hfree
    rw [statAt_snoc S script w.root true r l hwl, e]
    rfl
  refine ⟨{ w with root := w.root.update S (fun d => d.putFile script data) }, ?_, rfl, rfl,
    rfl, statAt_update_putFile script data S w.root hS hfree⟩
  unfold osWriteFile
  rw [hrp]
  simp only [hwl]
  split
  · next r2 sub e => exact absurd ⟨r2, sub, e⟩ hfind2
  · rfl

theorem makeDir_abs_ok (Dp : List String) (n : String) (w : World)
    (hDp : validPath Dp) (hn : validName n) (hpar : statAt w.root Dp = some .dir)
    (hfree : ∀ c, statAt w.root (Dp ++ [n]) ≠ some (.file c)) :
    ∃ w2, makeDir (absPath (Dp ++ [n])) w = (none, w2) ∧ w2.cwd = w.cwd ∧ w2.fQ = w.fQ
      ∧ w2.showMessages = w.showMessages
      ∧ ∀ p, statAt w2.root p = if p = Dp ++ [n] then some .dir else statAt w.root p := by
  have hv : validPath (Dp ++ [n]) := validPath_snoc Dp n hDp hn
  have hw : (walk true w.root Dp).isSome = true := (statAt_dir_iff Dp w.root true).mpr hpar
  obtain ⟨⟨r, l⟩, hwl⟩ := Option.isSome_iff_exists.mp hw
  have hsn := statAt_snoc Dp n w.root true r l hwl
  by_cases hex : statAt w.root (Dp ++ [n]) = some .dir
  · -- the directory is there already
    have hw2 : (walk true w.root (Dp ++ [n])).isSome = true :=
      (statAt_dir_iff _ w.root true).mpr hex
    refine ⟨w, ?_, rfl, rfl, rfl, ?_⟩
    · simp [makeDir, osStat, resolveDir_absPath _ _ _ hv, hw2]
    · intro p
      by_cases hp : p = Dp ++ [n]
      · simp [hp, hex]
      · simp [hp]
  · have hnone : statAt w.root (Dp ++ [n]) = none := by
      cases h : statAt w.root (Dp ++ [n]) with
      | none => rfl
      | some st =>
        cases st with
        | file c => exact absurd h (hfree c)
        | dir => exact absurd h hex
    have hw2 : (walk true w.root (Dp ++ [n])).isSome = false := by
      cases h : (walk true w.root (Dp ++ [n])).isSome with
      | false => rfl
      | true => exact absurd ((statAt_dir_iff _ w.root true).mp h) hex
    have hfind : l.find n = none := by
      rw [hsn] at hnone
      simpa using hnone
    have hcomps : pathComps (absPath (Dp ++ [n])) = "" :: (Dp ++ [n]) := by
      rw [pathComps_absPath _ hv]
      simp
    have hrf : resolveFrom w.root [] ("" :: Dp) = some Dp := by
      have := resolveFrom_valid w.root [] Dp hDp (by simp [walk])
      simpa [resolveFrom, hwl] using this
    have hrp : ∀ cwd, resolveParent w.root cwd ("" :: (Dp ++ [n])) (absPath (Dp ++ [n]))
        = some (Dp, n) := by
      intro cwd
      have hs : startOf cwd (absPath (Dp ++ [n])) = [] := startOf_abs _ _ (pathIsAbs_absPath _)
      simp [resolveParent, hn.1, hn.2.1, hn.2.2.1, hs, walk, hrf]
    have hstrip : ((pathComps (absPath (Dp ++ [n]))).reverse.dropWhile
        (fun c => decide (c = ""))).reverse = "" :: (Dp ++ [n]) := by
      rw [hcomps]
      simp [List.dropWhile, hn.1]
    refine ⟨{ w with root := w.root.update Dp (fun d => d.addDir n) }, ?_, rfl, rfl, rfl,
      statAt_update_addDir n Dp w.root hpar hnone⟩
    have hstat : osStat (absPath (Dp ++ [n])) w = none := by
      simp [osStat, resolveDir_absPath _ _ _ hv, hw2, hcomps, hrp, hwl, hfind]
    unfold makeDir
    rw [hstat]
    simp only
    unfold osMkdir
    rw [hstrip, hrp]
    simp [hwl, hfind]

theorem bfsOrder_parent (b : Builder) (roots : List (List String)) (fuel : Nat) :
    ∀ (q : List Item) (seen : List (List String)),
      (∀ x ∈ q, x.loc ∈ roots ∨ ∃ init n, x.loc = init ++ [n] ∧ init ∈ seen) →
      ∀ pre x post, bfsOrder b fuel q = pre ++ x :: post →
        x.loc ∈ roots ∨ ∃ init n, x.loc = init ++ [n]
          ∧ init ∈ seen ++ pre.map (fun y => y.loc) := by
  induction fuel with
  | zero =>
    intro q seen _ pre x post h
    simp [bfsOrder] at h
  | succ k ih =>
    intro q seen hq pre x post h
    cases q with
    | nil => simp [bfsOrder] at h
    | cons z rest =>
      simp only [bfsOrder] at h
      cases pre with
      | nil =>
        simp only [List.nil_append, List.cons.injEq] at h
        rw [← h.1]
        rcases hq z (by simp) with hz | ⟨init, n, e1, e2⟩
        · exact Or.inl hz
        · exact Or.inr ⟨init, n, e1, by simpa using e2⟩
      | cons p0 pre2 =>
        simp only [List.cons_append, List.cons.injEq] at h
        obtain ⟨hz, h⟩ := h
        subst hz
        have hq2 : ∀ y ∈ rest ++ z.kids b,
            y.loc ∈ roots ∨ ∃ init n, y.loc = init ++ [n] ∧ init ∈ seen ++ [z.loc] := by
          intro y hy
          rcases List.mem_append.mp hy with hy | hy
          · rcases hq y (by simp [hy]) with hy2 | ⟨init, n, e1, e2⟩
            · exact Or.inl hy2
            · exact Or.inr ⟨init, n, e1, by simp [e2]⟩
          · simp only [Item.kids, List.mem_map] at hy
            obtain ⟨s, -, rfl⟩ := hy
            exact Or.inr ⟨z.loc, s.1, rfl, by simp⟩
        rcases ih _ _ hq2 pre2 x post h with hx | ⟨init, n, e1, e2⟩
        · exact Or.inl hx
        · refine Or.inr ⟨init, n, e1, ?_⟩
          simpa [List.append_assoc] using e2

theorem statAt_none_append (p q : List String) :
    ∀ (L : Listing), statAt L p = none → statAt L (p ++ q) = none := by
  induction p with
  | nil =>
    intro L h
    simp [statAt] at h
  | cons m ms ih =>
    intro L h
    rw [statAt_cons] at h
    rw [List.cons_append, statAt_cons]
    cases hf : L.find m with
    | none => rfl
    | some k =>
      cases k with
      | file c =>
        simp only [hf] at h
        split at h
        · simp at h
        · simp
          intro e1 e2
          subst e1
          simp at *
      | dir r2 sub =>
        simp only [hf] at h
        exact ih sub h

theorem noDir_find (x : String) (L : Listing) (h : L.noDir x = true) :
    (∀ r sub, L.find x ≠ some (.dir r sub))
      ∧ ∀ n r sub, L.find n = some (.dir r sub) → sub.noDir x = true := by
  induction L with
  | nil => simp [Listing.find]
  | file m c rest ih =>
    simp only [Listing.noDir] at h
    obtain ⟨i1, i2⟩ := ih h
    constructor
    · intro r sub e
      simp only [Listing.find] at e
      split at e
      · simp at e
      · exact i1 r sub e
    · intro n r sub e
      simp only [Listing.find] at e
      split at e
      · simp at e
      · exact i2 n r sub e
  | dir m r0 sub0 rest _ ih =>
    simp only [Listing.noDir, Bool.and_eq_true, decide_eq_true_eq] at h
    obtain ⟨i1, i2⟩ := ih h.2
    constructor
    · intro r sub e
      simp only [Listing.find] at e
      split at e
      · next hm => exact h.1.1 hm
      · exact i1 r sub e
    · intro n r sub e
      simp only [Listing.find] at e
      split at e
      · simp only [Option.some.injEq, Kind.dir.injEq] at e
        rw [← e.2]
        exact h.1.2
      · exact i2 n r sub e

theorem noDir_statAt (x : String) (rel : List String) :
    ∀ (L : Listing), L.noDir x = true → statAt L (rel ++ [x]) ≠ some .dir := by
  induction rel with
  | nil =>
    intro L h e
    simp only [List.nil_append, statAt, Option.map_eq_some'] at e
    obtain ⟨k, hk, hs⟩ := e
    cases k with
    | file c => simp [Kind.stat] at hs
    | dir r sub => exact (noDir_find x L h).1 r sub hk
  | cons m ms ih =>
    intro L h e
    rw [List.cons_append, statAt_cons] at e
    cases hf : L.find m with
    | none => simp [hf] at e
    | some k =>
      cases k with
      | file c =>
        simp only [hf] at e
        split at e <;> simp at e
      | dir r sub =>
        simp only [hf] at e
        exact ih sub ((noDir_find x L h).2 m r sub hf) e

theorem foldl_pathJoin_absPath (rel : List String) :
    ∀ (D : List String), validPath D → validPath rel →
      rel.foldl pathJoin (absPath D) = absPath (D ++ rel) := by
  induction rel with
  | nil => intro D _ _; simp
  | cons n ns ih =>
    intro D hD hrel
    have hn : validName n := hrel n (by simp)
    have hns : validPath ns := fun m hm => hrel m (by simp [hm])
    simp only [List.foldl_cons]
    rw [pathJoin_absPath D n hD hn, ih (D ++ [n]) (validPath_snoc D n hD hn) hns]
    simp

/-! ## Absolute paths -/

theorem pathIsAbs_ne (s : String) (h : pathIsAbs s = true) : s ≠ "" := by
  intro e
  subst e
  simp [pathIsAbs] at h

theorem pathIsAbs_append (s t : String) (h : pathIsAbs s = true) :
    pathIsAbs (s ++ t) = true := by
  unfold pathIsAbs at h ⊢
  rw [String.data_append]
  cases hd : s.data with
  | nil => simp [hd] at h
  | cons c cs => simpa [hd] using h

theorem resolveDir_abs (R : Listing) (c1 c2 : List String) (s : String)
    (h : pathIsAbs s = true) : resolveDir R c1 s = resolveDir R c2 s := by
  simp only [resolveDir, startOf_abs _ _ h]

theorem resolveDir_abs_eq (R : Listing) (cwd : List String) (s : String)
    (h : pathIsAbs s = true) :
    resolveDir R cwd s = resolveFrom R [] (pathComps s) := by
  simp [resolveDir, startOf_abs _ _ h, pathIsAbs_ne s h, walk]

theorem validPath_dropLast (P : List String) (hP : validPath P) : validPath P.dropLast :=
  fun n hn => hP n (List.dropLast_subset P hn)

theorem resolveFrom_validPath (R : Listing) (cs : List String) :
    ∀ (loc loc2 : List String), (∀ c ∈ cs, '/' ∉ c.data) → validPath loc →
      resolveFrom R loc cs = some loc2 → validPath loc2 := by
  induction cs with
  | nil =>
    intro loc loc2 _ hl h
    simp only [resolveFrom, Option.some.injEq] at h
    rw [← h]
    exact hl
  | cons c cs ih =>
    intro loc loc2 hcs hl h
    have hcs2 : ∀ d ∈ cs, '/' ∉ d.data := fun d hd => hcs d (by simp [hd])
    unfold resolveFrom at h
    split at h
    · exact ih loc loc2 hcs2 hl h
    · next h1 =>
      split at h
      · exact ih _ loc2 hcs2 (validPath_dropLast loc hl) h
      · next h2 =>
        split at h
        · simp only [not_or] at h1
          exact ih _ loc2 hcs2
            (validPath_snoc loc c hl ⟨h1.1, h1.2, h2, hcs c (by simp)⟩) h
        · simp at h

theorem resolveFrom_walk (R : Listing) (cs : List String) :
    ∀ (loc loc2 : List String), (walk true R loc).isSome = true →
      resolveFrom R loc cs = some loc2 → (walk true R loc2).isSome = true := by
  induction cs with
  | nil =>
    intro loc loc2 hl h
    simp only [resolveFrom, Option.some.injEq] at h
    rw [← h]
    exact hl
  | cons c cs ih =>
    intro loc loc2 hl h
    unfold resolveFrom at h
    split at h
    · exact ih loc loc2 hl h
    · split at h
      · refine ih _ loc2 ?_ h
        rcases List.eq_nil_or_concat loc with e | ⟨init, a, e⟩
        · simp [e, walk]
        · rw [e, List.concat_eq_append, walk_append] at hl
          simp only [List.concat_eq_append, List.dropLast_concat, e]
          cases hw : walk true R init with
          | none => simp [hw] at hl
          | some x => simp
      · split at h
        · next x hx => exact ih _ loc2 (by simp [hx]) h
        · simp at h

theorem cleanStack_cons (rooted : Bool) (acc : List String) (c : String) (cs : List String) :
    cleanStack rooted acc (c :: cs) =
      if c = "" ∨ c = "." then cleanStack rooted acc cs
      else if c = ".." then
        match acc with
        | [] => if rooted then cleanStack rooted [] cs else cleanStack rooted [".."] cs
        | a :: rest =>
          if a = ".." then cleanStack rooted (".." :: a :: rest) cs
          else cleanStack rooted rest cs
      else cleanStack rooted (c :: acc) cs := by
  conv_lhs => unfold cleanStack

theorem cleanStack_resolve (R : Listing) (cs : List String) :
    ∀ (loc loc2 ds : List String), (∀ a ∈ loc, a ≠ "..") → resolveFrom R loc cs = some loc2 →
      cleanStack true loc.reverse (cs ++ ds) = cleanStack true loc2.reverse ds := by
  induction cs with
  | nil =>
    intro loc loc2 ds _ h
    simp only [resolveFrom, Option.some.injEq] at h
    simp [h]
  | cons c cs ih =>
    intro loc loc2 ds hl h
    unfold resolveFrom at h
    rw [List.cons_append, cleanStack_cons]
    split at h
    · next h1 =>
      rw [if_pos h1]
      exact ih loc loc2 ds hl h
    · next h1 =>
      rw [if_neg h1]
      split at h
      · next h2 =>
        rw [if_pos h2]
        rcases List.eq_nil_or_concat loc with e | ⟨init, a, e⟩
        · subst e
          simp only [List.reverse_nil, if_true]
          exact ih [] loc2 ds hl (by simpa using h)
        · subst e
          have ha : a ≠ ".." := hl a (by simp)
          simp only [List.concat_eq_append, List.reverse_append, List.reverse_cons,
            List.reverse_nil, List.nil_append, List.singleton_append, ha, if_false]
          simp only [List.concat_eq_append, List.dropLast_concat] at h
          exact ih init loc2 ds (fun n hn => hl n (by simp [hn])) h
      · next h2 =>
        rw [if_neg h2]
        split at h
        · have := ih (loc ++ [c]) loc2 ds ?_ h
          · simpa using this
          · intro a ha
            rcases List.mem_append.mp ha with ha | ha
            · exact hl a ha
            · simp only [List.mem_singleton] at ha
              rw [ha]
              exact h2
        · simp at h

theorem resolveDir_validPath (R : Listing) (cwd : List String) (s : String)
    (P : List String) (habs : pathIsAbs s = true) (h : resolveDir R cwd s = some P) :
    validPath P := by
  rw [resolveDir_abs_eq R cwd s habs] at h
  exact resolveFrom_validPath R _ [] P (fun c hc => pathComps_mem_noslash s c hc)
    (fun n hn => by simp at hn) h

theorem pathJoin_resolved (R : Listing) (cwd : List String) (s : String) (P : List String)
    (n : String) (habs : pathIsAbs s = true) (h : resolveDir R cwd s = some P)
    (hn : validName n) : pathJoin s n = absPath (P ++ [n]) := by
  rw [resolveDir_abs_eq R cwd s habs] at h
  have hne := pathIsAbs_ne s habs
  unfold pathJoin
  rw [if_neg hne]
  unfold pathClean
  have e2 : pathIsAbs (s ++ "/" ++ n) = true := by
    rw [String.append_assoc]
    exact pathIsAbs_append _ _ habs
  have e1 : s ++ "/" ++ n ≠ "" := pathIsAbs_ne _ e2
  rw [if_neg e1, e2, pathComps_append_slash, pathComps_name n hn.2.2.2]
  have := cleanStack_resolve R (pathComps s) [] P [n] (by simp) h
  simp only [List.reverse_nil] at this
  rw [this, cleanStack_cons]
  simp [hn.1, hn.2.1, hn.2.2.1, cleanStack, absPath]

theorem foldl_pathJoin_resolved (R : Listing) (cwd : List String) (s : String)
    (P : List String) (habs : pathIsAbs s = true) (h : resolveDir R cwd s = some P)
    (rel : List String) (hrel : validPath rel) (hne : rel ≠ []) :
    rel.foldl pathJoin s = absPath (P ++ rel) := by
  cases rel with
  | nil => exact absurd rfl hne
  | cons n ns =>
    have hn : validName n := hrel n (by simp)
    have hns : validPath ns := fun m hm => hrel m (by simp [hm])
    have hP := resolveDir_validPath R cwd s P habs h
    simp only [List.foldl_cons]
    rw [pathJoin_resolved R cwd s P n habs h hn,
      foldl_pathJoin_absPath ns (P ++ [n]) (validPath_snoc P n hP hn) hns]
    simp

theorem osChdir_abs (s : String) (P : List String) (w : World) (R : Listing) (cwd : List String)
    (habs : pathIsAbs s = true) (h : resolveDir R cwd s = some P) (hR : w.root = R) :
    osChdir s w = (none, { w with cwd := P }) := by
  unfold osChdir
  rw [resolveDir_abs w.root w.cwd cwd s habs, hR, h]

theorem osReadDir_abs (s : String) (P : List String) (w : World) (R : Listing)
    (cwd : List String) (L : Listing)
    (habs : pathIsAbs s = true) (h : resolveDir R cwd s = some P) (hR : w.root = R)
    (hw : walk true R P = some (true, L)) :
    osReadDir s w = .ok L.entries := by
  unfold osReadDir
  rw [resolveDir_abs w.root w.cwd cwd s habs, hR, h]
  simp [hw]

theorem osReadDir_ok (s : String) (w : World) (E : List DirEntry)
    (h : osReadDir s w = .ok E) :
    ∃ P L, resolveDir w.root w.cwd s = some P ∧ walk true w.root P = some (true, L)
      ∧ E = L.entries := by
  unfold osReadDir at h
  split at h
  · simp at h
  · next loc hl =>
    split at h
    · next l hw =>
      simp only [Except.ok.injEq] at h
      exact ⟨loc, l, hl, hw, h.symm⟩
    · simp at h

/-! ## The record of one folder -/

/-- C2, as the code has it: for an absolute path `in` of a directory that can
be listed, with listing `E`, the record `scanFolder` returns has as its files
the entries of `E`, in listing order, that the filter keeps and that are not
directories, and as its children `path.Join(in, name)` for the entries, in
listing order, that the filter keeps and that are directories; files and kept
directories together are the kept entries, each once. -/
theorem scanFolder_selects (in_ out script : String) (b : Builder) (w : World)
    (E : List DirEntry) (habs : pathIsAbs in_ = true) (hrd : osReadDir in_ w = .ok E) :
    ∃ folder, (scanFolder in_ out script b w).1 = .ok folder
      ∧ folder.Files = E.filter (fun e => b.Filter e && !e.isDir)
      ∧ folder.Children
          = (E.filter (fun e => b.Filter e && e.isDir)).map (fun e => pathJoin in_ e.name)
      ∧ (folder.Files ++ E.filter (fun e => b.Filter e && e.isDir)).Perm (E.filter b.Filter)
      ∧ (∀ e ∈ E, b.Filter e = false → e ∉ folder.Files)
      ∧ folder.Children.length + folder.Files.length = (E.filter b.Filter).length := by
  obtain ⟨P, L, h1, h2, rfl⟩ := osReadDir_ok in_ w E hrd
  have hcd := osChdir_abs in_ P w w.root w.cwd habs h1 rfl
  have hrd2 := osReadDir_abs in_ P { w with cwd := P } w.root w.cwd L habs h1 rfl h2
  obtain ⟨w2, h, -⟩ := scanFolder_ok in_ out script b w _ L.entries hcd hrd2
  have hperm : (L.entries.filter (fun e => b.Filter e && !e.isDir)
      ++ L.entries.filter (fun e => b.Filter e && e.isDir)).Perm (L.entries.filter b.Filter) := by
    have h1 := List.filter_append_perm (fun e : DirEntry => !e.isDir) (L.entries.filter b.Filter)
    simp only [List.filter_filter, Bool.not_not] at h1
    have e1 : (fun e : DirEntry => b.Filter e && !e.isDir)
        = (fun e : DirEntry => !e.isDir && b.Filter e) := by
      funext e; exact Bool.and_comm _ _
    have e2 : (fun e : DirEntry => b.Filter e && e.isDir)
        = (fun e : DirEntry => e.isDir && b.Filter e) := by
      funext e; exact Bool.and_comm _ _
    rw [e1, e2]
    exact h1
  refine ⟨_, by rw [h], rfl, rfl, hperm, ?_, ?_⟩
  · intro e _ hf hmem
    have := (List.mem_filter.mp hmem).2
    simp [keptFile, hf] at this
  · have := hperm.length_eq
    simp only [List.length_append] at this
    have hk1 : keptFile b = fun e => b.Filter e && !e.isDir := rfl
    have hk2 : keptDir b = fun e => b.Filter e && e.isDir := rfl
    simp only [scanned, hk1, hk2, List.length_map]
    omega

theorem scanFolder_selects_witness :
    ∃ folder, (scanFolder "/home/root/" "/gen/root" "run" testBuilder sampleWorld).1 = .ok folder
      ∧ folder.Files = [⟨"a.txt", false⟩]
      ∧ folder.Children = ["/home/root/sub"] := by
  obtain ⟨folder, h1, h2, h3, -⟩ := scanFolder_selects "/home/root/" "/gen/root" "run"
    testBuilder sampleWorld [⟨"a.txt", false⟩, ⟨"bad", true⟩, ⟨"sub", true⟩]
    (by decide) rfl
  exact ⟨folder, h1, by rw [h2]; decide, by rw [h3]; decide⟩

/-- C2 fails for a path that is not absolute: `scanFolder` changes to the
directory and then lists the path again, from there.  In the tree with `sub`
in `sub`, called from `/home/root` with the path `sub`, whose listing is
`b.txt` and `sub`, it returns the record of the listing of `sub/sub`; and
called with the path `root` from `/home`, where `root` has no `root` in it, it
returns an error although `root` can be listed. -/
theorem scanFolder_lists_from_inside :
    osReadDir "sub" nestedWorld = .ok [⟨"b.txt", false⟩, ⟨"sub", true⟩]
    ∧ (scanFolder "sub" "/gen/sub" "run" copyBuilder nestedWorld).1
      = .ok { Source := "sub", Destination := "/gen/sub", Script := "run", Code := "",
              Files := [⟨"c.txt", false⟩], Children := [] }
    ∧ osReadDir "root" { nestedWorld with cwd := ["home"] }
      = .ok [⟨"a.txt", false⟩, ⟨"sub", true⟩]
    ∧ (scanFolder "root" "/gen/root" "run" copyBuilder { nestedWorld with cwd := ["home"] }).1
      = .error (.readDir "root") :=
  ⟨rfl, rfl, rfl, rfl⟩

/-! ## The scan from a root given by an absolute path -/

theorem pathIsAbs_outputBase_abs (in_ out : String) (habs : pathIsAbs in_ = true) :
    pathIsAbs (outputBase in_ out) = true := by
  unfold outputBase
  by_cases h : pathIsAbs out = true
  · simp [h]
  · simp only [h, Bool.not_false, if_true]
    unfold pathJoin
    rw [if_neg (pathIsAbs_ne in_ habs)]
    apply pathIsAbs_pathClean
    rw [String.append_assoc]
    exact pathIsAbs_append _ _ habs

theorem wf_entries_valid (L : Listing) (hwf : L.wf = true) :
    ∀ e ∈ L.entries, validName e.name := by
  induction L with
  | nil => simp [Listing.entries]
  | file m c rest ih =>
    simp only [Listing.wf, Bool.and_eq_true, decide_eq_true_eq] at hwf
    intro e he
    simp only [Listing.entries, List.mem_cons] at he
    rcases he with rfl | he
    · exact hwf.1.1
    · exact ih hwf.2 e he
  | dir m r sub rest _ ih =>
    simp only [Listing.wf, Bool.and_eq_true, decide_eq_true_eq] at hwf
    intro e he
    simp only [Listing.entries, List.mem_cons] at he
    rcases he with rfl | he
    · exact hwf.1.1.1
    · exact ih hwf.2 e he

theorem scanned_resolved (R : Listing) (cwd : List String) (in_ : String) (P : List String)
    (L : Listing) (out script : String) (b : Builder)
    (habs : pathIsAbs in_ = true) (h : resolveDir R cwd in_ = some P) (hwf : L.wf = true) :
    scanned in_ out script b L.entries
        = { scanned (absPath P) out script b L.entries with Source := in_ }
      ∧ queued in_ out b L.entries = queued (absPath P) out b L.entries := by
  have hP := resolveDir_validPath R cwd in_ P habs h
  have e : ∀ e ∈ L.entries.filter (keptDir b), pathJoin in_ e.name = pathJoin (absPath P) e.name := by
    intro e he
    have hv := wf_entries_valid L hwf e (List.mem_filter.mp he).1
    rw [pathJoin_resolved R cwd in_ P e.name habs h hv, pathJoin_absPath P e.name hP hv]
  constructor
  · simp only [scanned, Folder.mk.injEq, true_and]
    exact List.map_congr_left e
  · simp only [queued]
    apply List.map_congr_left
    intro x hx
    rw [e x hx]

theorem resolveFrom_mono (R T : Listing)
    (hm : ∀ p, statAt R p = some .dir → statAt T p = some .dir) (cs : List String) :
    ∀ (loc loc2 : List String), resolveFrom R loc cs = some loc2 →
      resolveFrom T loc cs = some loc2 := by
  induction cs with
  | nil => intro loc loc2 h; simpa [resolveFrom] using h
  | cons c cs ih =>
    intro loc loc2 h
    unfold resolveFrom at h ⊢
    split at h
    · next h1 =>
      rw [if_pos h1]
      exact ih loc loc2 h
    · next h1 =>
      rw [if_neg h1]
      split at h
      · next h2 =>
        rw [if_pos h2]
        exact ih _ loc2 h
      · next h2 =>
        rw [if_neg h2]
        split at h
        · next x hx =>
          have h3 : (walk true T (loc ++ [c])).isSome = true := by
            apply (statAt_dir_iff _ T true).mpr
            apply hm
            apply (statAt_dir_iff _ R true).mp
            simp [hx]
          obtain ⟨y, hy⟩ := Option.isSome_iff_exists.mp h3
          simp only [hy]
          exact ih _ loc2 h
        · simp at h

theorem resolveDir_mono (R T : Listing)
    (hm : ∀ p, statAt R p = some .dir → statAt T p = some .dir) (c1 c2 : List String)
    (s : String) (P : List String) (habs : pathIsAbs s = true)
    (h : resolveDir R c1 s = some P) : resolveDir T c2 s = some P := by
  rw [resolveDir_abs_eq _ _ s habs] at h ⊢
  exact resolveFrom_mono R T hm _ [] P h

theorem makeDir_dirs (dir : String) (w w2 : World) (h : makeDir dir w = (none, w2)) :
    ∀ p, statAt w.root p = some .dir → statAt w2.root p = some .dir := by
  rcases makeDir_ok dir w w2 h with rfl | ⟨loc, name, r, l, -, hw, hf, rfl⟩
  · exact fun p hp => hp
  · intro p hp
    have h1 : statAt w.root loc = some .dir :=
      (statAt_dir_iff loc w.root true).mp (by simp [hw])
    have h2 : statAt w.root (loc ++ [name]) = none := by
      rw [statAt_snoc loc name w.root true r l hw, hf]
      rfl
    simp only
    rw [statAt_update_addDir name loc w.root h1 h2 p]
    split
    · rfl
    · exact hp

theorem scan_root (script : String) (b : Builder) (fuel : Nat) (in_ : String)
    (P0 : List String) (D : String) (L1 : Listing) (ws : World)
    (habs : pathIsAbs in_ = true) (hres : resolveDir ws.root ws.cwd in_ = some P0)
    (hq : ws.fQ = []) (hw : walk true ws.root P0 = some (true, L1)) (hwf : L1.wf = true)
    (hr : L1.allReadable = true) (hfuel : L1.dirs + 1 < fuel) :
    ∃ w2, scanQ fuel script b (enq in_ D ws)
        = some ((withSource in_ ((bfsOrder b fuel [⟨P0, D, L1⟩]).map (Item.record script b)),
            none), w2)
      ∧ w2.fQ = [] ∧ w2.root = ws.root ∧ w2.showMessages = ws.showMessages := by
  obtain ⟨n, rfl⟩ : ∃ n, fuel = n + 1 := ⟨fuel - 1, by omega⟩
  have hP := resolveDir_validPath _ _ in_ P0 habs hres
  have hgood : Item.good ws.root ⟨P0, D, L1⟩ := ⟨hP, hw, hwf, hr⟩
  have hcd := osChdir_abs in_ P0 (msg "scan and filter %v" [in_] { ws with fQ := [] }) ws.root
    ws.cwd habs hres (by simp)
  have hrd := osReadDir_abs in_ P0
    ({ (msg "scan and filter %v" [in_] { ws with fQ := [] }) with cwd := P0 }) ws.root ws.cwd L1
    habs hres (by simp) hw
  obtain ⟨w2, hs, g1, g2, -, g4⟩ := scanFolder_ok in_ D script b _ _ _ hcd hrd
  obtain ⟨s1, s2⟩ := scanned_resolved ws.root ws.cwd in_ P0 L1 D script b habs hres hwf
  have hq2 : w2.fQ = ((⟨P0, D, L1⟩ : Item).kids b).map Item.toQ := by
    rw [g1, s2, ← queued_kids b ws.root ⟨P0, D, L1⟩ hgood]
    simp
  have hgood2 : ∀ y ∈ (⟨P0, D, L1⟩ : Item).kids b, y.good ws.root :=
    kids_good b ws.root _ hgood
  have hfuel2 : totalSize ((⟨P0, D, L1⟩ : Item).kids b) < n := by
    have := kids_size b ⟨P0, D, L1⟩
    simp only [Item.size] at this
    omega
  obtain ⟨w3, hl, k1, k2, k3⟩ := scanQ_loop_sim script b ws.root n _
    [scanned in_ D script b L1.entries] w2 (by rw [g2]; simp) hq2 hgood2 hfuel2
  refine ⟨w3, ?_, k1, k2, ?_⟩
  · unfold scanQ scanQ.loop
    simp only [deq, enq, hq, List.nil_append]
    rw [hs]
    simp only [List.nil_append]
    rw [hl]
    simp [bfsOrder, withSource, Item.record, s1]
  · rw [k3, g4]
    simp

theorem Build_body_scanned (fuel : Nat) (in_ : String) (P0 : List String) (out script : String)
    (b : Builder) (write verbose : Bool) (w : World) (L0 : Listing)
    (hq : w.fQ = []) (habs : pathIsAbs in_ = true)
    (hres : resolveDir w.root w.cwd in_ = some P0)
    (hin : walk true w.root P0 = some (true, L0))
    (hwf : L0.wf = true) (hr : L0.allReadable = true) (hfuel : L0.dirs + 2 < fuel) :
    (write = true ∧ ∃ err wb, (makeDir (outputBase in_ out) w).1 = some err
        ∧ Build.body fuel in_ out script b write verbose w = some (([], some err), wb)
        ∧ wb.showMessages = w.showMessages)
    ∨ ∃ L1 w2, (write = true → (makeDir (outputBase in_ out) w).1 = none)
        ∧ walk true (scanTree in_ out write w) P0 = some (true, L1)
        ∧ L1.wf = true ∧ L1.allReadable = true
        ∧ (L1 = L0 ∨ ∃ rel x, L1 = L0.update rel (fun d => d.addDir x))
        ∧ (write = false → L1 = L0)
        ∧ w2.root = scanTree in_ out write w ∧ w2.fQ = []
        ∧ w2.showMessages = w.showMessages ∧ L1.dirs + 1 < fuel
        ∧ Build.body fuel in_ out script b write verbose w
          = some (Build.finish in_ (rootDest in_ out) b write
              (withSource in_ ((bfsOrder b fuel [⟨P0, rootDest in_ out, L1⟩]).map
                (Item.record script b))) w2) := by
  have hcd := osChdir_abs in_ P0 (msg "Build(in: \"%v\", write: %v, verbose: %v)"
    [in_, toString write, toString verbose] w) w.root w.cwd habs hres (by simp)
  have hab := pathIsAbs_outputBase_abs in_ out habs
  cases write with
  | false =>
    right
    obtain ⟨w2, hs, k1, k2, k3⟩ := scan_root script b fuel in_ P0 (rootDest in_ out) L0
      ({ (msg "Build(in: \"%v\", write: %v, verbose: %v)"
          [in_, toString false, toString verbose] w) with cwd := P0 })
      habs (by
        rw [resolveDir_abs _ _ w.cwd in_ habs]
        simpa using hres)
      (by simp [hq]) (by simpa using hin) hwf hr (by omega)
    refine ⟨L0, w2, by simp, by simpa [scanTree] using hin, hwf, hr, Or.inl rfl,
      fun _ => rfl, by simpa [scanTree] using k2, k1, by simpa using k3, by omega, ?_⟩
    unfold Build.body
    simp only [hcd, Bool.false_eq_true, if_false]
    simp only [rootDest, outputBase] at hs
    rw [hs]
    rfl
  | true =>
    cases hmk : makeDir (outputBase in_ out)
        (msg "create base output folder %v" [outputBase in_ out]
          ({ (msg "Build(in: \"%v\", write: %v, verbose: %v)"
            [in_, toString true, toString verbose] w) with cwd := P0 })) with
    | mk e wb =>
      obtain ⟨i1, i2⟩ := makeDir_indep (outputBase in_ out) hab
        (msg "create base output folder %v" [outputBase in_ out]
          ({ (msg "Build(in: \"%v\", write: %v, verbose: %v)"
            [in_, toString true, toString verbose] w) with cwd := P0 })) w
        (by simp)
      rw [hmk] at i1 i2
      simp only at i1 i2
      cases e with
      | some err =>
        left
        refine ⟨rfl, err, wb, i1.symm, ?_, ?_⟩
        · unfold Build.body
          simp only [outputBase] at hmk
          simp only [hcd, if_true, hmk]
        · have := (makeDir_frame (outputBase in_ out)
            (msg "create base output folder %v" [outputBase in_ out]
              ({ (msg "Build(in: \"%v\", write: %v, verbose: %v)"
                [in_, toString true, toString verbose] w) with cwd := P0 }))).2.2.1
          rw [hmk] at this
          simpa using this
      | none =>
        right
        obtain ⟨L1, j1, j2, j3, j4, j5, j6, j7, j8, j9⟩ := makeDir_tree _ _ _ P0 L0 hmk
          (by simpa using hin) hwf hr
        have hres2 : resolveDir wb.root wb.cwd in_ = some P0 :=
          resolveDir_mono _ wb.root (by simpa using makeDir_dirs _ _ _ hmk) w.cwd wb.cwd in_ P0
            habs hres
        obtain ⟨w2, hs, k1, k2, k3⟩ := scan_root script b fuel in_ P0 (rootDest in_ out) L1 wb
          habs hres2 (by simp [j7, hq]) j1 j2 j3 (by omega)
        refine ⟨L1, w2, fun _ => i1.symm, by simpa [scanTree, ← i2] using j1, j2, j3, j5,
          by simp, by simpa [scanTree, ← i2] using k2, k1, by simpa [j8] using k3, by omega, ?_⟩
        unfold Build.body
        simp only [outputBase] at hmk
        simp only [rootDest, outputBase] at hs
        simp only [hcd, if_true, hmk, hs]
        rfl

theorem scanTree_indep_abs (in_ out : String) (write : Bool) (w w2 : World)
    (habs : pathIsAbs in_ = true) (hroot : w.root = w2.root) :
    scanTree in_ out write w = scanTree in_ out write w2 := by
  unfold scanTree
  cases write with
  | false => simpa using hroot
  | true =>
    simpa using (makeDir_indep _ (pathIsAbs_outputBase_abs in_ out habs) w w2 hroot).2

theorem scanTree_dirs (in_ out : String) (write : Bool) (w : World)
    (h : write = true → (makeDir (outputBase in_ out) w).1 = none) :
    ∀ p, statAt w.root p = some .dir → statAt (scanTree in_ out write w) p = some .dir := by
  unfold scanTree
  cases write with
  | false => exact fun p hp => hp
  | true =>
    simp only [if_true]
    apply makeDir_dirs (outputBase in_ out) w
    rw [← h rfl]

theorem Build_scanned (fuel : Nat) (in_ : String) (P0 : List String) (out script : String)
    (b : Builder) (write verbose : Bool) (w : World) (L0 : Listing)
    (hq : w.fQ = []) (habs : pathIsAbs in_ = true)
    (hres : resolveDir w.root w.cwd in_ = some P0)
    (hin : walk true w.root P0 = some (true, L0))
    (hwf : L0.wf = true) (hr : L0.allReadable = true) (hfuel : L0.dirs + 2 < fuel) :
    (write = true ∧ ∃ err w2, (makeDir (outputBase in_ out) w).1 = some err
        ∧ Build fuel in_ out script b write verbose w = some (([], some err), w2))
    ∨ ∃ L1 folders err w2, (write = true → (makeDir (outputBase in_ out) w).1 = none)
        ∧ walk true (scanTree in_ out write w) P0 = some (true, L1)
        ∧ L1.wf = true ∧ L1.allReadable = true
        ∧ (L1 = L0 ∨ ∃ rel x, L1 = L0.update rel (fun d => d.addDir x))
        ∧ (write = false → L1 = L0 ∧ err = none)
        ∧ L1.dirs + 1 < fuel
        ∧ Build fuel in_ out script b write verbose w = some ((folders, err), w2)
        ∧ folders = (withSource in_ ((bfsOrder b fuel [⟨P0, rootDest in_ out, L1⟩]).map
            (Item.record script b))).map (fun f => (f.generate b w).1) := by
  have hroot : (if verbose = true then { w with showMessages := true } else w).root = w.root := by
    cases verbose <;> rfl
  have hcwd : (if verbose = true then { w with showMessages := true } else w).cwd = w.cwd := by
    cases verbose <;> rfl
  have hfq : (if verbose = true then { w with showMessages := true } else w).fQ = [] := by
    cases verbose <;> simpa using hq
  have hi := makeDir_indep _ (pathIsAbs_outputBase_abs in_ out habs)
    (if verbose = true then { w with showMessages := true } else w) w hroot
  have hst := scanTree_indep_abs in_ out write
    (if verbose = true then { w with showMessages := true } else w) w habs hroot
  rcases Build_body_scanned fuel in_ P0 out script b write verbose
      (if verbose = true then { w with showMessages := true } else w) L0 hfq habs
      (by rw [hroot, hcwd]; exact hres)
      (by rw [hroot]; exact hin) hwf hr hfuel with
    ⟨hw, err, wb, h1, h2, -⟩ | ⟨L1, w2, h1, h2, h3, h4, h5, h6, h7, h8, h9, h10, h11⟩
  · left
    refine ⟨hw, err, clearQ (if verbose = true then displayError (some err) wb else wb),
      by rw [← hi.1]; exact h1, ?_⟩
    unfold Build
    simp only [h2]
  · right
    generalize hres : Build.finish in_ (rootDest in_ out) b write
      (withSource in_ ((bfsOrder b fuel [⟨P0, rootDest in_ out, L1⟩]).map
        (Item.record script b))) w2
      = res at h11
    refine ⟨L1, res.1.1, res.1.2,
      clearQ (if verbose = true then displayError res.1.2 res.2 else res.2),
      fun hw => by rw [← hi.1]; exact h1 hw, by rw [← hst]; exact h2,
      h3, h4, h5, ?_, h10, ?_, ?_⟩
    · intro hw
      refine ⟨h6 hw, ?_⟩
      subst hw
      rw [← hres]
      simp [Build.finish]
    · unfold Build
      simp only [h11]
    · rw [← hres]
      exact finish_folders _ _ _ _ _ _ _

theorem keptChain_walk (b : Builder) (rel : List String) :
    ∀ (L : Listing) (r : Bool), keptChain b L rel = true → (walk r L rel).isSome = true := by
  induction rel with
  | nil => intro L r _; simp [walk]
  | cons n ns ih =>
    intro L r h
    simp only [keptChain] at h
    simp only [walk]
    cases hf : L.find n with
    | none => simp [hf] at h
    | some k =>
      cases k with
      | file c => simp [hf] at h
      | dir r1 sub =>
        simp only [hf, Bool.and_eq_true] at h
        exact ih sub r1 h.2

theorem withSource_map_generate (in_ : String) (b : Builder) (w : World) (l : List Folder) :
    ((withSource in_ l).map (fun f => (f.generate b w).1)).map (fun f => f.Source)
        = (withSource in_ l).map (fun f => f.Source)
      ∧ ((withSource in_ l).map (fun f => (f.generate b w).1)).map (fun f => f.Children)
        = l.map (fun f => f.Children)
      ∧ ((withSource in_ l).map (fun f => (f.generate b w).1)).map (fun f => f.Destination)
        = l.map (fun f => f.Destination) := by
  cases l with
  | nil => simp [withSource]
  | cons f rest =>
    simp only [withSource, List.map_cons, List.map_map]
    refine ⟨?_, ?_, ?_⟩ <;> rfl

/-- C3, as the code has it: in a tree as a file system has it (`Listing.wf`)
in which every folder may be listed, whose root is given by an absolute path,
a `Build` started with an empty queue
whose base output folder can be made (a step taken only when `write` is set)
returns, and the sources of its records are, without duplicates, exactly the
folders of the kept subtree of the tree as the scan finds it: the root and
every folder reached from it by a chain of subfolders each accepted by the
filter.  The source of such a folder is `in` joined with the names of the
chain, and it is a path of that folder.  With `write = false` that tree is the
tree `Build` was called in.  The number of records is the number of those
folders, and no path of a folder at or below a rejected subfolder is the source
of a record or among the children of a record. -/
theorem Build_visits_kept_subtree (fuel : Nat) (in_ : String) (P0 : List String)
    (out script : String) (b : Builder) (write verbose : Bool) (w : World) (L0 : Listing)
    (hq : w.fQ = []) (habs : pathIsAbs in_ = true)
    (hres : resolveDir w.root w.cwd in_ = some P0)
    (hin : walk true w.root P0 = some (true, L0))
    (hwf : L0.wf = true) (hr : L0.allReadable = true) (hfuel : L0.dirs + 2 < fuel)
    (hbase : write = true → (makeDir (outputBase in_ out) w).1 = none) :
    ∃ folders err w2 L1,
      Build fuel in_ out script b write verbose w = some ((folders, err), w2)
      ∧ walk true (scanTree in_ out write w) P0 = some (true, L1)
      ∧ (write = false → L1 = L0)
      ∧ (folders.map (fun f => f.Source)).Nodup
      ∧ (∀ p, p ∈ folders.map (fun f => f.Source)
          ↔ ∃ rel, keptChain b L1 rel = true ∧ p = rel.foldl pathJoin in_)
      ∧ (∀ rel, keptChain b L1 rel = true →
          resolveDir (scanTree in_ out write w) w.cwd (rel.foldl pathJoin in_)
            = some (P0 ++ rel))
      ∧ folders.length = 1 + keptBelow b L1
      ∧ (∀ rel, keptChain b L1 rel = false →
          ∀ s, resolveDir (scanTree in_ out write w) w.cwd s = some (P0 ++ rel) →
            s ∉ folders.map (fun f => f.Source) ∧ ∀ f ∈ folders, s ∉ f.Children) := by
  have hP := resolveDir_validPath _ _ in_ P0 habs hres
  have hresT : ∀ cwd, resolveDir (scanTree in_ out write w) cwd in_ = some P0 := fun cwd =>
    resolveDir_mono w.root _ (scanTree_dirs in_ out write w hbase) w.cwd cwd in_ P0 habs hres
  rcases Build_scanned fuel in_ P0 out script b write verbose w L0 hq habs hres hin hwf hr hfuel
    with ⟨hw, err, w2, h1, -⟩ | ⟨L1, folders, err, w2, -, h2, h3, h4, -, h6, h7, h8, h9⟩
  · rw [hbase hw] at h1
    simp at h1
  · obtain ⟨s1, s2, s3, s4, s5⟩ := scan_items_spec script b (scanTree in_ out write w)
      fuel P0 (rootDest in_ out) L1 ⟨hP, h2, h3, h4⟩ h7
    obtain ⟨n, rfl⟩ : ∃ n, fuel = n + 1 := ⟨fuel - 1, by omega⟩
    obtain ⟨tail, htail⟩ : ∃ tail, bfsOrder b (n + 1) [⟨P0, rootDest in_ out, L1⟩]
        = ⟨P0, rootDest in_ out, L1⟩ :: tail := ⟨_, rfl⟩
    rw [htail] at s1 s2 s3 s4 s5 h9
    simp only [List.map_cons, List.nodup_cons] at s1
    obtain ⟨t1, t2, t3⟩ := withSource_map_generate in_ b w
      (((⟨P0, rootDest in_ out, L1⟩ : Item) :: tail).map (Item.record script b))
    rw [← h9] at t1 t2 t3
    have hsrc : folders.map (fun f => f.Source) = in_ :: tail.map (fun x => absPath x.loc) := by
      rw [t1]
      simp only [List.map_cons, withSource, List.map_map]
      rfl
    -- the chains and their paths
    have hvalid : ∀ rel, keptChain b L1 rel = true → validPath rel :=
      fun rel h => keptChain_valid b rel L1 h3 h
    have hfold : ∀ rel, keptChain b L1 rel = true → rel ≠ [] →
        rel.foldl pathJoin in_ = absPath (P0 ++ rel) := fun rel h hne =>
      foldl_pathJoin_resolved _ _ in_ P0 habs hres rel (hvalid rel h) hne
    have hresolve : ∀ rel cwd, keptChain b L1 rel = true →
        resolveDir (scanTree in_ out write w) cwd (absPath (P0 ++ rel)) = some (P0 ++ rel) := by
      intro rel cwd h
      rw [resolveDir_absPath _ _ _ (validPath_append _ _ hP (hvalid rel h))]
      have : (walk true (scanTree in_ out write w) (P0 ++ rel)).isSome = true := by
        rw [walk_append, h2]
        exact keptChain_walk b rel L1 true h
      simp [this]
    have hres1 : ∀ rel cwd, keptChain b L1 rel = true →
        resolveDir (scanTree in_ out write w) cwd (rel.foldl pathJoin in_) = some (P0 ++ rel) := by
      intro rel cwd h
      by_cases hne : rel = []
      · subst hne
        simpa using hresT cwd
      · rw [hfold rel h hne]
        exact hresolve rel cwd h
    have htl : ∀ p, p ∈ tail.map (fun x => absPath x.loc)
        ↔ ∃ rel, keptChain b L1 rel = true ∧ rel ≠ [] ∧ p = absPath (P0 ++ rel) := by
      intro p
      constructor
      · intro hp
        obtain ⟨rel, hk, he⟩ := (s2 p).mp (by simp only [List.map_cons, List.mem_cons]; exact Or.inr hp)
        refine ⟨rel, hk, ?_, he⟩
        intro e
        subst e
        apply s1.1
        rw [he] at hp
        simpa using hp
      · rintro ⟨rel, hk, hne, he⟩
        have := (s2 p).mpr ⟨rel, hk, he⟩
        simp only [List.map_cons, List.mem_cons] at this
        rcases this with h | h
        · exfalso
          rw [he] at h
          have := absPath_injective _ _ (validPath_append _ _ hP (hvalid rel hk)) hP h
          exact hne (by simpa using this)
        · exact h
    have hmem : ∀ p, p ∈ folders.map (fun f => f.Source)
        ↔ ∃ rel, keptChain b L1 rel = true ∧ p = rel.foldl pathJoin in_ := by
      intro p
      rw [hsrc, List.mem_cons, htl]
      constructor
      · rintro (h | ⟨rel, hk, hne, he⟩)
        · exact ⟨[], by simp [keptChain], by simpa using h⟩
        · exact ⟨rel, hk, by rw [he, hfold rel hk hne]⟩
      · rintro ⟨rel, hk, he⟩
        by_cases hne : rel = []
        · subst hne
          exact Or.inl (by simpa using he)
        · exact Or.inr ⟨rel, hk, hne, by rw [he, hfold rel hk hne]⟩
    have hchild : ∀ f ∈ folders, ∀ c ∈ f.Children,
        ∃ rel, keptChain b L1 rel = true ∧ c = absPath (P0 ++ rel) := by
      intro f hf c hc
      have : f.Children ∈ folders.map (fun f => f.Children) := List.mem_map.mpr ⟨f, hf, rfl⟩
      rw [t2, List.map_map] at this
      simp only [List.mem_map, Function.comp] at this
      obtain ⟨x, hx, hxc⟩ := this
      rw [← hxc] at hc
      exact (s2 c).mp (s4 x hx c hc)
    refine ⟨folders, err, w2, L1, h8, h2, fun hw => (h6 hw).1, ?_, hmem,
      fun rel h => hres1 rel w.cwd h, ?_, ?_⟩
    · rw [hsrc, List.nodup_cons]
      refine ⟨?_, s1.2⟩
      intro hin2
      obtain ⟨rel, hk, hne, he⟩ := (htl in_).mp hin2
      have h1 := hresolve rel w.cwd hk
      rw [← he, hresT] at h1
      simp only [Option.some.injEq] at h1
      exact hne (by simpa using h1.symm)
    · have := congrArg List.length hsrc
      simp only [List.length_map, List.length_cons] at this s3
      omega
    · intro rel hk s hs
      constructor
      · intro hin2
        obtain ⟨rel2, hk2, he⟩ := (hmem s).mp hin2
        have := hres1 rel2 w.cwd hk2
        rw [← he, hs] at this
        simp only [Option.some.injEq, List.append_cancel_left_eq] at this
        rw [this, hk2] at hk
        simp at hk
      · intro f hf hc
        obtain ⟨rel2, hk2, he⟩ := hchild f hf s hc
        have := hresolve rel2 w.cwd hk2
        rw [← he, hs] at this
        simp only [Option.some.injEq, List.append_cancel_left_eq] at this
        rw [this, hk2] at hk
        simp at hk

theorem Build_visits_kept_subtree_witness :
    (Build 9 "/home/root/" "gen" "run" skipBuilder false false openWorld).map
        (fun r => r.1.1.map (fun f => f.Source))
      = some ["/home/root/", "/home/root/sub", "/home/root/sub/deep"]
    ∧ ∃ folders err w2 L1,
      Build 9 "/home/root/" "gen" "run" skipBuilder false false openWorld
        = some ((folders, err), w2)
      ∧ walk true (scanTree "/home/root/" "gen" false openWorld) ["home", "root"]
        = some (true, L1)
      ∧ (false = false → L1 = openListing)
      ∧ (folders.map (fun f => f.Source)).Nodup
      ∧ (∀ p, p ∈ folders.map (fun f => f.Source)
          ↔ ∃ rel, keptChain skipBuilder L1 rel = true ∧ p = rel.foldl pathJoin "/home/root/")
      ∧ (∀ rel, keptChain skipBuilder L1 rel = true →
          resolveDir (scanTree "/home/root/" "gen" false openWorld) openWorld.cwd
            (rel.foldl pathJoin "/home/root/") = some (["home", "root"] ++ rel))
      ∧ folders.length = 1 + keptBelow skipBuilder L1
      ∧ (∀ rel, keptChain skipBuilder L1 rel = false →
          ∀ s, resolveDir (scanTree "/home/root/" "gen" false openWorld) openWorld.cwd s
              = some (["home", "root"] ++ rel) →
            s ∉ folders.map (fun f => f.Source) ∧ ∀ f ∈ folders, s ∉ f.Children) :=
  ⟨by decide,
    Build_visits_kept_subtree 9 "/home/root/" ["home", "root"] "gen" "run" skipBuilder
      false false openWorld openListing rfl (by decide) (by decide) rfl (by decide) (by decide)
      (by decide) (by simp)⟩

/-- C3 fails where `write` is set: the output base that `Build` makes before
the scan is scanned as a folder of the tree although the tree did not have it
(here `/home/root/gen`, six records for a tree of five folders), and when the
output base cannot be made `Build` returns no record at all.  It fails for a
path that is not absolute: called with `.` from `/home/root`, `Build` returns
the record of the root and the error of listing `skip` from inside `skip`. -/
theorem Build_scans_output_base :
    (Build 12 "/home/root" "gen" "run" copyBuilder true false openWorld).map
        (fun r => r.1.1.map (fun f => f.Source))
      = some ["/home/root", "/home/root/gen", "/home/root/skip", "/home/root/sub",
          "/home/root/skip/inner", "/home/root/sub/deep"]
    ∧ walk true openTree ["home", "root", "gen"] = none
    ∧ 1 + keptBelow copyBuilder openListing = 5
    ∧ (Build 12 "/home/root" "no/gen" "run" copyBuilder true false openWorld).map
        (fun r => (r.1.1.map (fun f => f.Source), r.1.2))
      = some ([], some (.mkdir "/home/root/no/gen"))
    ∧ (Build 12 "." "gen" "run" copyBuilder false false
          { openWorld with cwd := ["home", "root"] }).map
        (fun r => (r.1.1.map (fun f => f.Source), r.1.2))
      = some (["."], some (.readDir "skip")) := by
  decide

/-! ## The depth of a path -/

theorem stackOK_suffix (r : Bool) (l1 l2 : List String) (h : stackOK r (l1 ++ l2)) :
    stackOK r l2 := by
  induction l1 with
  | nil => simpa using h
  | cons a rest ih =>
    simp only [List.cons_append, stackOK] at h
    exact ih h.2.2.2.2

theorem cleanStack_ok (r : Bool) (cs : List String) :
    ∀ (acc : List String), (∀ c ∈ cs, '/' ∉ c.data) → stackOK r acc →
      stackOK r (cleanStack r acc cs).reverse := by
  induction cs with
  | nil =>
    intro acc _ h
    simpa [cleanStack] using h
  | cons c cs ih =>
    intro acc hcs h
    have hcs2 : ∀ d ∈ cs, '/' ∉ d.data := fun d hd => hcs d (by simp [hd])
    rw [cleanStack_cons]
    split
    · exact ih acc hcs2 h
    · next h1 =>
      simp only [not_or] at h1
      split
      · next h2 =>
        subst h2
        cases acc with
        | nil =>
          cases r with
          | true => exact ih [] hcs2 h
          | false =>
            refine ih [".."] hcs2 ?_
            simp [stackOK]
        | cons a rest =>
          simp only
          split
          · next ha =>
            refine ih _ hcs2 ?_
            simp only [stackOK] at h ⊢
            obtain ⟨k1, k2⟩ := h.2.2.2.1 ha
            refine ⟨by decide, by decide, by decide, fun _ => ⟨k1, ?_⟩, h⟩
            intro x hx
            rcases List.mem_cons.mp hx with hx | hx
            · rw [hx, ha]
            · exact k2 x hx
          · simp only [stackOK] at h
            exact ih _ hcs2 h.2.2.2.2
      · next h2 =>
        refine ih _ hcs2 ?_
        simp only [stackOK]
        exact ⟨h1.1, h1.2, hcs c (by simp), fun e => absurd e h2, h⟩

theorem cleanStack_fix (r : Bool) (st : List String) :
    ∀ (acc : List String), stackOK r (st.reverse ++ acc) →
      cleanStack r acc st = acc.reverse ++ st := by
  induction st with
  | nil => intro acc _; simp [cleanStack]
  | cons c cs ih =>
    intro acc h
    have h2 : stackOK r (cs.reverse ++ (c :: acc)) := by simpa using h
    have h3 := stackOK_suffix r _ _ h2
    simp only [stackOK] at h3
    obtain ⟨k1, k2, -, k4, -⟩ := h3
    rw [cleanStack_cons]
    have hn : ¬ (c = "" ∨ c = ".") := by simp [k1, k2]
    rw [if_neg hn]
    split
    · next hc =>
      obtain ⟨hr, hall⟩ := k4 hc
      subst hc
      subst hr
      cases acc with
      | nil =>
        simp only [Bool.false_eq_true, if_false]
        rw [ih _ h2]
        simp
      | cons a rest =>
        simp only
        rw [if_pos (hall a (by simp)), ih _ h2]
        simp
    · rw [ih _ h2]
      simp

theorem pathComps_joinSlash_gen (P : List String) (hP : ∀ n ∈ P, '/' ∉ n.data) (hne : P ≠ []) :
    pathComps (joinSlash P) = P := by
  induction P with
  | nil => exact absurd rfl hne
  | cons c cs ih =>
    cases cs with
    | nil =>
      simp only [joinSlash]
      exact pathComps_name c (hP c (by simp))
    | cons d ds =>
      simp only [joinSlash]
      rw [pathComps_append_slash, pathComps_name c (hP c (by simp)),
        ih (fun n hn => hP n (by simp [hn])) (by simp)]
      rfl

theorem stackOK_noslash (r : Bool) (l : List String) (h : stackOK r l) :
    ∀ n ∈ l, n ≠ "" ∧ '/' ∉ n.data := by
  induction l with
  | nil => simp
  | cons a rest ih =>
    simp only [stackOK] at h
    intro n hn
    rcases List.mem_cons.mp hn with hn | hn
    · rw [hn]
      exact ⟨h.1, h.2.2.1⟩
    · exact ih h.2.2.2.2 n hn

theorem pathIsAbs_joinSlash (c : String) (cs : List String) (h1 : c ≠ "")
    (h2 : '/' ∉ c.data) : pathIsAbs (joinSlash (c :: cs)) = false := by
  have hd : ∃ x xs, c.data = x :: xs ∧ x ≠ '/' := by
    cases hc : c.data with
    | nil =>
      exfalso
      apply h1
      exact String.ext (by simp [hc])
    | cons x xs =>
      refine ⟨x, xs, rfl, ?_⟩
      intro e
      apply h2
      rw [hc, e]
      simp
  obtain ⟨x, xs, e1, e2⟩ := hd
  cases cs with
  | nil => simp [joinSlash, pathIsAbs, e1, e2]
  | cons d ds =>
    simp [joinSlash, pathIsAbs, String.data_append, e1, e2]

theorem pathDepth_pathClean (t : String) (ht : t ≠ "") :
    pathDepth (pathClean t) = pathDepth t := by
  have hok := cleanStack_ok (pathIsAbs t) (pathComps t) []
    (fun c hc => pathComps_mem_noslash t c hc) (by simp [stackOK])
  have hfix := cleanStack_fix (pathIsAbs t) (cleanStack (pathIsAbs t) [] (pathComps t)) []
    (by simpa using hok)
  simp only [List.reverse_nil, List.nil_append] at hfix
  have hns := stackOK_noslash _ _ hok
  unfold pathClean
  rw [if_neg ht]
  generalize hst : cleanStack (pathIsAbs t) [] (pathComps t) = st at hfix hns
  have hd : pathDepth t = st.length := by rw [← hst]; rfl
  rw [hd]
  simp only
  cases hr : pathIsAbs t with
  | true =>
    simp only [if_true]
    unfold pathDepth
    rw [pathIsAbs_slash, pathComps_slash_append, cleanStack_skip]
    rw [hr] at hfix
    by_cases he : st = []
    · subst he
      simp [joinSlash, pathComps, splitSlash, cleanStack]
    · rw [pathComps_joinSlash_gen st (fun n hn => (hns n (List.mem_reverse.mpr hn)).2) he, hfix]
  | false =>
    simp only [Bool.false_eq_true, if_false]
    rw [hr] at hfix
    by_cases he : st = []
    · subst he
      simp only [if_true]
      decide
    · rw [if_neg he]
      obtain ⟨c, cs, rfl⟩ := List.exists_cons_of_ne_nil he
      unfold pathDepth
      rw [pathIsAbs_joinSlash c cs (hns c (by simp)).1 (hns c (by simp)).2,
        pathComps_joinSlash_gen _ (fun n hn => (hns n (List.mem_reverse.mpr hn)).2) he, hfix]

theorem cleanStack_snoc (r : Bool) (n : String) (hn : validName n) (cs : List String) :
    ∀ (acc : List String), cleanStack r acc (cs ++ [n]) = cleanStack r acc cs ++ [n] := by
  induction cs with
  | nil =>
    intro acc
    rw [List.nil_append, cleanStack_cons]
    simp [hn.1, hn.2.1, hn.2.2.1, cleanStack]
  | cons c cs ih =>
    intro acc
    rw [List.cons_append, cleanStack_cons, cleanStack_cons]
    split
    · exact ih acc
    · split
      · cases acc with
        | nil =>
          cases r with
          | true => exact ih []
          | false => exact ih [".."]
        | cons a rest =>
          simp only
          split
          · exact ih _
          · exact ih _
      · exact ih _

theorem pathDepth_pathJoin (s n : String) (hn : validName n) :
    pathDepth (pathJoin s n) = pathDepth s + 1 := by
  unfold pathJoin
  by_cases hs : s = ""
  · subst hs
    simp only [if_true, hn.1, if_false]
    rw [pathDepth_pathClean n hn.1]
    unfold pathDepth
    rw [pathIsAbs_name n hn, pathComps_name n hn.2.2.2]
    have : pathComps "" = [""] := by decide
    have h2 : pathIsAbs "" = false := by decide
    rw [this, h2, cleanStack_cons]
    simp [hn.1, hn.2.1, hn.2.2.1, cleanStack]
  · rw [if_neg hs]
    have hne : s ++ "/" ++ n ≠ "" := by
      intro e
      have := congrArg String.data e
      simp [String.data_append] at this
    rw [pathDepth_pathClean _ hne]
    unfold pathDepth
    have habs : pathIsAbs (s ++ "/" ++ n) = pathIsAbs s := by
      unfold pathIsAbs
      simp only [String.data_append]
      cases hd : s.data with
      | nil =>
        exfalso
        exact hs (String.ext (by simp [hd]))
      | cons x xs => simp
    rw [habs, pathComps_append_slash, pathComps_name n hn.2.2.2, cleanStack_snoc _ n hn]
    simp

/-! ## Breadth-first order -/

theorem wf_walk (p : List String) :
    ∀ (R : Listing) (r r1 : Bool) (L : Listing), R.wf = true → walk r R p = some (r1, L) →
      L.wf = true := by
  induction p with
  | nil =>
    intro R r r1 L hwf h
    simp only [walk, Option.some.injEq, Prod.mk.injEq] at h
    rw [← h.2]
    exact hwf
  | cons n ns ih =>
    intro R r r1 L hwf h
    simp only [walk] at h
    cases hf : R.find n with
    | none => simp [hf] at h
    | some k =>
      cases k with
      | file c => simp [hf] at h
      | dir r2 sub =>
        simp only [hf] at h
        exact ih sub r2 r1 L (wf_find_dir R hwf n r2 sub hf) h

theorem scanFolder_names (in_ out script : String) (b : Builder) (w w2 : World) (folder : Folder)
    (hwf : w.root.wf = true)
    (h : scanFolder in_ out script b w = (.ok folder, w2)) :
    ∃ E, folder = scanned in_ out script b E ∧ w2.fQ = w.fQ ++ queued in_ out b E
      ∧ w2.root = w.root ∧ ∀ e ∈ E, validName e.name := by
  cases hcd : osChdir in_ w with
  | mk e w1 =>
    cases e with
    | some err => simp [scanFolder, hcd] at h
    | none =>
      cases hrd : osReadDir in_ w1 with
      | error err => simp [scanFolder, hcd, hrd] at h
      | ok E =>
        obtain ⟨w3, h3, g1, g2, -⟩ := scanFolder_ok in_ out script b w w1 E hcd hrd
        rw [h3] at h
        simp only [Prod.mk.injEq, Except.ok.injEq] at h
        refine ⟨E, h.1.symm, by rw [← h.2]; exact g1, by rw [← h.2]; exact g2, ?_⟩
        obtain ⟨P, L, -, k2, rfl⟩ := osReadDir_ok in_ w1 E hrd
        have hr1 : w1.root = w.root := by
          have := osChdir_root in_ w
          rw [hcd] at this
          exact this
        rw [hr1] at k2
        exact wf_entries_valid L (wf_walk P w.root true true L hwf k2)

theorem scanQ_loop_depth (script : String) (b : Builder) (x : String × String) (fuel : Nat) :
    ∀ (fs : List Folder) (w : World) (fs2 : List Folder) (err : Option Error) (w2 : World),
      scanQ.loop script b fuel fs w = some ((fs2, err), w2) → w.root.wf = true →
      depthInv fs w.fQ →
      (fs.map (fun f => (f.Source, f.Destination))
        ++ w.fQ.map (fun it => (it.in_, it.out))).head? = some x →
      (fs2.map (fun f => pathDepth f.Source)).Pairwise (fun a c => a ≤ c)
        ∧ ∀ f, fs2.head? = some f → (f.Source, f.Destination) = x := by
  induction fuel with
  | zero =>
    intro fs w fs2 err w2 h
    simp [scanQ.loop] at h
  | succ n ih =>
    intro fs w fs2 err w2 h hwf hinv hhd
    have hfs : (fs.map (fun f => pathDepth f.Source)).Pairwise (fun a c => a ≤ c)
        ∧ ∀ f, fs.head? = some f → (f.Source, f.Destination) = x := by
      refine ⟨(List.pairwise_append.mp hinv.1).1, ?_⟩
      intro f hf
      cases fs with
      | nil => simp at hf
      | cons f0 rest =>
        simp only [List.head?_cons, Option.some.injEq] at hf
        subst hf
        simpa using hhd
    unfold scanQ.loop at h
    cases hq : w.fQ with
    | nil =>
      simp only [deq, hq, Option.some.injEq, Prod.mk.injEq] at h
      rw [← h.1.1]
      exact hfs
    | cons it rest =>
      simp only [deq, hq] at h
      cases hsf : scanFolder it.in_ it.out script b
          (msg "scan and filter %v" [it.in_] { w with fQ := rest }) with
      | mk res w3 =>
        rw [hsf] at h
        cases res with
        | error e =>
          simp only [Option.some.injEq, Prod.mk.injEq] at h
          rw [← h.1.1]
          exact hfs
        | ok folder =>
          simp only at h
          obtain ⟨E, hE, hq3, hr3, hnames⟩ := scanFolder_names _ _ _ _ _ _ _
            (by simpa using hwf) hsf
          simp only [msg_fQ, msg_root] at hq3 hr3
          have hsrc : folder.Source = it.in_ := by rw [hE]; rfl
          have hdst : folder.Destination = it.out := by rw [hE]; rfl
          rw [hq] at hinv hhd
          obtain ⟨i1, i2⟩ := hinv
          have hkid : ∀ k ∈ queued it.in_ it.out b E, pathDepth k.in_ = pathDepth it.in_ + 1 := by
            intro k hk
            simp only [queued, List.mem_map, List.mem_filter] at hk
            obtain ⟨e, ⟨he, -⟩, rfl⟩ := hk
            exact pathDepth_pathJoin it.in_ e.name (hnames e he)
          simp only [List.map_cons] at i1
          obtain ⟨p1, p2, p3⟩ := List.pairwise_append.mp i1
          obtain ⟨p4, p5⟩ := List.pairwise_cons.mp p2
          apply ih (fs ++ [folder]) w3 fs2 err w2 h (by rw [hr3]; exact hwf)
          · rw [hq3]
            constructor
            · simp only [List.map_append, List.map_cons, List.map_nil, List.append_assoc,
                List.singleton_append, hsrc]
              rw [List.pairwise_append]
              refine ⟨p1, ?_, ?_⟩
              · rw [List.pairwise_cons]
                constructor
                · intro d hd
                  rcases List.mem_append.mp hd with hd | hd
                  · exact p4 d hd
                  · simp only [List.mem_map] at hd
                    obtain ⟨k, hk, rfl⟩ := hd
                    rw [hkid k hk]
                    omega
                · rw [List.pairwise_append]
                  refine ⟨p5, ?_, ?_⟩
                  · rw [List.pairwise_map]
                    apply List.Pairwise.imp_of_mem _ (List.pairwise_of_forall (R := fun _ _ => True)
                      (l := queued it.in_ it.out b E) (fun _ _ => trivial))
                    intro k1 k2 hk1 hk2 _
                    rw [hkid k1 hk1, hkid k2 hk2]
                  · intro d hd c hc
                    simp only [List.mem_map] at hd hc
                    obtain ⟨a, ha, rfl⟩ := hd
                    obtain ⟨k, hk, rfl⟩ := hc
                    rw [hkid k hk]
                    exact i2 it (by simp) a (by simp [ha])
              · intro d hd c hc
                rcases List.mem_cons.mp hc with hc | hc
                · rw [hc]
                  exact p3 d hd _ (by simp)
                · rcases List.mem_append.mp hc with hc | hc
                  · exact p3 d hd c (by simp [hc])
                  · simp only [List.mem_map] at hc
                    obtain ⟨k, hk, rfl⟩ := hc
                    rw [hkid k hk]
                    have := p3 d hd (pathDepth it.in_) (by simp)
                    omega
            · intro a ha c hc
              rcases List.mem_append.mp ha with ha | ha <;>
                rcases List.mem_append.mp hc with hc | hc
              · exact i2 a (by simp [ha]) c (by simp [hc])
              · rw [hkid c hc]
                have := p4 (pathDepth a.in_) (List.mem_map.mpr ⟨a, ha, rfl⟩)
                omega
              · rw [hkid a ha]
                have := i2 it (by simp) c (by simp [hc])
                omega
              · rw [hkid a ha, hkid c hc]
                omega
          · cases fs with
            | nil =>
              simp only [List.map_nil, List.nil_append, List.map_cons, List.head?_cons,
                Option.some.injEq] at hhd
              simp [hsrc, hdst, hhd]
            | cons f0 fs0 =>
              simpa using hhd

theorem makeDir_wf (dir : String) (w w2 : World) (hwf : w.root.wf = true)
    (h : makeDir dir w = (none, w2)) : w2.root.wf = true := by
  rcases makeDir_ok dir w w2 h with rfl | ⟨loc, name, r, l, hv, hw, hf, rfl⟩
  · exact hwf
  · apply wf_update_addDir name hv w.root loc hwf
    intro r2 r3 l2 hw2
    rw [walk_listing_indep w.root loc r2 true r3 r l2 l hw2 hw]
    exact hf

theorem Build_body_sorted (fuel : Nat) (in_ out script : String) (b : Builder)
    (write verbose : Bool) (w : World) (folders : List Folder) (err : Option Error) (w2 : World)
    (hq : w.fQ = []) (hwf : w.root.wf = true)
    (h : Build.body fuel in_ out script b write verbose w = some ((folders, err), w2)) :
    (folders.map (fun f => pathDepth f.Source)).Pairwise (fun a c => a ≤ c)
      ∧ ∀ f, folders.head? = some f → f.Source = in_ ∧ f.Destination = rootDest in_ out := by
  unfold Build.body at h
  simp only at h
  cases hcd : osChdir in_ (msg "Build(in: \"%v\", write: %v, verbose: %v)"
      [in_, toString write, toString verbose] w) with
  | mk e w1 =>
    have hq1 : w1.fQ = [] := by
      have := osChdir_fQ in_ (msg "Build(in: \"%v\", write: %v, verbose: %v)"
        [in_, toString write, toString verbose] w)
      rw [hcd] at this
      simpa [hq] using this
    have hr1 : w1.root = w.root := by
      have := osChdir_root in_ (msg "Build(in: \"%v\", write: %v, verbose: %v)"
        [in_, toString write, toString verbose] w)
      rw [hcd] at this
      simpa using this
    rw [hcd] at h
    cases e with
    | some e1 =>
      simp only [Option.some.injEq, Prod.mk.injEq] at h
      rw [← h.1.1]
      simp
    | none =>
      simp only at h
      have hout : (if (!pathIsAbs out) = true then pathJoin in_ out else out)
          = outputBase in_ out := rfl
      rw [hout] at h
      cases hbs : (if write = true then makeDir (outputBase in_ out)
          (msg "create base output folder %v" [outputBase in_ out] w1) else (none, w1)) with
      | mk e2 ws =>
        rw [hbs] at h
        cases e2 with
        | some e3 =>
          simp only [Option.some.injEq, Prod.mk.injEq] at h
          rw [← h.1.1]
          simp
        | none =>
          have hqs : ws.fQ = [] ∧ ws.root.wf = true := by
            cases write with
            | false =>
              simp only [Bool.false_eq_true, if_false, Prod.mk.injEq] at hbs
              rw [← hbs.2]
              exact ⟨hq1, by rw [hr1]; exact hwf⟩
            | true =>
              simp only [if_true] at hbs
              have := (makeDir_frame (outputBase in_ out)
                (msg "create base output folder %v" [outputBase in_ out] w1)).2.1
              rw [hbs] at this
              exact ⟨by simpa [hq1] using this,
                makeDir_wf _ _ _ (by simpa [hr1] using hwf) hbs⟩
          simp only at h
          cases hs : scanQ fuel script b
              (enq in_ (pathJoin (outputBase in_ out) (pathBase in_)) ws) with
          | none => simp [hs] at h
          | some x =>
            obtain ⟨⟨fs, er⟩, w3⟩ := x
            rw [hs] at h
            obtain ⟨k1, k2⟩ := scanQ_loop_depth script b (in_, rootDest in_ out) fuel [] _ fs er w3
              hs (by simpa [enq] using hqs.2)
              (by simp [depthInv, enq, hqs.1])
              (by simp [enq, hqs.1, rootDest])
            cases er with
            | some e4 =>
              simp only [Option.some.injEq, Prod.mk.injEq] at h
              rw [← h.1.1]
              refine ⟨k1, fun f hf => ?_⟩
              have := k2 f hf
              simp only [Prod.mk.injEq] at this
              exact this
            | none =>
              simp only [Option.some.injEq] at h
              have := finish_folders in_ (pathJoin (outputBase in_ out) (pathBase in_)) b
                write fs w3 w
              rw [h] at this
              simp only at this
              rw [this]
              constructor
              · rw [List.map_map]
                exact k1
              · intro f hf
                cases fs with
                | nil => simp at hf
                | cons f0 rest =>
                  simp only [List.map_cons, List.head?_cons, Option.some.injEq] at hf
                  have := k2 f0 rfl
                  simp only [Prod.mk.injEq] at this
                  rw [← hf]
                  exact this

/-- C4: in a file tree as a file system has it (`Listing.wf`), the records
that a `Build` started with an empty queue returns are in breadth-first order,
whatever the input path: the first record, if there is one, has
`in` as its source and the output folder of the root as its destination, and
of two records at different depths below the root the one nearer to the root
has the smaller index.  And in a tree in which every folder may be listed,
whose root is given by an absolute path, `Build` returns, with a record of the
root unless the base output folder could not be made. -/
theorem Build_breadth_first (fuel : Nat) (in_ out script : String)
    (b : Builder) (write verbose : Bool) (w : World)
    (hq : w.fQ = []) (hwf : w.root.wf = true) :
    (∀ P0 L0, pathIsAbs in_ = true → resolveDir w.root w.cwd in_ = some P0 →
        walk true w.root P0 = some (true, L0) → L0.allReadable = true → L0.dirs + 2 < fuel →
        ∃ folders err w2,
          Build fuel in_ out script b write verbose w = some ((folders, err), w2)
          ∧ (folders = [] → write = true ∧ (makeDir (outputBase in_ out) w).1 ≠ none))
      ∧ ∀ folders err w2,
        Build fuel in_ out script b write verbose w = some ((folders, err), w2) →
        (∀ f, folders.head? = some f →
            f.Source = in_ ∧ f.Destination = rootDest in_ out)
        ∧ ∀ (i j : Nat) (hi : i < folders.length) (hj : j < folders.length),
            depthBelow in_ (folders.get ⟨i, hi⟩).Source
              < depthBelow in_ (folders.get ⟨j, hj⟩).Source → i < j := by
  constructor
  · intro P0 L0 habs hres hin hr hfuel
    rcases Build_scanned fuel in_ P0 out script b write verbose w L0 hq habs hres hin
        (wf_walk P0 w.root true true L0 hwf hin) hr hfuel with
      ⟨hw, err, w2, h1, h⟩ | ⟨L1, folders, err, w2, -, -, -, -, -, -, h7, h, h9⟩
    · exact ⟨[], some err, w2, h, fun _ => ⟨hw, by simp [h1]⟩⟩
    · refine ⟨folders, err, w2, h, fun he => ?_⟩
      exfalso
      obtain ⟨n, rfl⟩ : ∃ n, fuel = n + 1 := ⟨fuel - 1, by omega⟩
      rw [h9] at he
      simp [bfsOrder, withSource] at he
  · intro folders err w2 h
    unfold Build at h
    cases hb : Build.body fuel in_ out script b write verbose
        (if verbose = true then { w with showMessages := true } else w) with
    | none => simp [hb] at h
    | some x =>
      obtain ⟨⟨fs0, er⟩, w3⟩ := x
      simp only [hb, Option.some.injEq, Prod.mk.injEq] at h
      obtain ⟨⟨h1, -⟩, -⟩ := h
      subst h1
      obtain ⟨hpw, hhd⟩ := Build_body_sorted fuel in_ out script b write verbose _ _ _ _
        (by cases verbose <;> simpa using hq) (by cases verbose <;> simpa using hwf) hb
      refine ⟨hhd, ?_⟩
      intro i j hi hj hlt
      by_contra hij
      have hji : j ≤ i := by omega
      simp only [depthBelow, List.get_eq_getElem] at hlt
      rcases Nat.lt_or_eq_of_le hji with hji | hji
      · have := List.pairwise_iff_getElem.mp hpw j i (by simpa using hj) (by simpa using hi) hji
        simp only [List.getElem_map] at this
        omega
      · subst hji
        omega

/-! ## Records and destinations -/

theorem pathIsAbs_pathJoin (s n : String) (h : pathIsAbs s = true) :
    pathIsAbs (pathJoin s n) = true := by
  unfold pathJoin
  rw [if_neg (pathIsAbs_ne s h)]
  apply pathIsAbs_pathClean
  rw [String.append_assoc]
  exact pathIsAbs_append _ _ h

theorem pathIsAbs_foldl (rel : List String) :
    ∀ (s : String), pathIsAbs s = true → pathIsAbs (rel.foldl pathJoin s) = true := by
  induction rel with
  | nil => intro s h; simpa using h
  | cons n ns ih =>
    intro s h
    exact ih _ (pathIsAbs_pathJoin s n h)

theorem scanFolder_listed (in_ out script : String) (b : Builder) (w w2 : World)
    (folder : Folder) (habs : pathIsAbs in_ = true)
    (h : scanFolder in_ out script b w = (.ok folder, w2)) :
    ∃ loc L, resolveDir w.root [] in_ = some loc ∧ walk true w.root loc = some (true, L)
      ∧ folder = scanned in_ out script b L.entries
      ∧ w2.fQ = w.fQ ++ queued in_ out b L.entries ∧ w2.root = w.root := by
  cases hcd : osChdir in_ w with
  | mk e w1 =>
    cases e with
    | some err => simp [scanFolder, hcd] at h
    | none =>
      cases hrd : osReadDir in_ w1 with
      | error err => simp [scanFolder, hcd, hrd] at h
      | ok E =>
        obtain ⟨w3, h3, g1, g2, -⟩ := scanFolder_ok in_ out script b w w1 E hcd hrd
        rw [h3] at h
        simp only [Prod.mk.injEq, Except.ok.injEq] at h
        obtain ⟨P, L, k1, k2, rfl⟩ := osReadDir_ok in_ w1 E hrd
        have hr1 : w1.root = w.root := by
          have := osChdir_root in_ w
          rw [hcd] at this
          exact this
        rw [hr1] at k1 k2
        rw [resolveDir_abs _ _ [] in_ habs] at k1
        exact ⟨P, L, k1, k2, h.1.symm, by rw [← h.2]; exact g1, by rw [← h.2]; exact g2⟩

theorem scanQ_loop_state (R : Listing) (in_ rd script : String) (b : Builder) (fuel : Nat) :
    ∀ (fs : List Folder) (w : World) (fs2 : List Folder) (w2 : World),
      scanQ.loop script b fuel fs w = some ((fs2, none), w2) → w.root = R →
      scanState R in_ rd script b fs w.fQ → scanState R in_ rd script b fs2 [] := by
  induction fuel with
  | zero =>
    intro fs w fs2 w2 h
    simp [scanQ.loop] at h
  | succ n ih =>
    intro fs w fs2 w2 h hR hinv
    unfold scanQ.loop at h
    cases hq : w.fQ with
    | nil =>
      simp only [deq, hq, Option.some.injEq, Prod.mk.injEq, and_true] at h
      rw [hq] at hinv
      rw [← h.1]
      exact hinv
    | cons it rest =>
      simp only [deq, hq] at h
      cases hsf : scanFolder it.in_ it.out script b
          (msg "scan and filter %v" [it.in_] { w with fQ := rest }) with
      | mk res w3 =>
        rw [hsf] at h
        cases res with
        | error err => simp at h
        | ok folder =>
          simp only at h
          rw [hq] at hinv
          obtain ⟨i1, i2, i3, i4⟩ := hinv
          have hab := (i3 it (by simp)).2
          obtain ⟨loc, L, l1, l2, hE, hq3, hr3⟩ := scanFolder_listed _ _ _ _ _ _ _ hab hsf
          simp only [msg_fQ, msg_root, hR] at hq3 hr3 l1 l2
          apply ih _ _ _ _ h hr3
          rw [hq3]
          have hsrc : folder.Source = it.in_ := by rw [hE]; rfl
          have hdst : folder.Destination = it.out := by rw [hE]; rfl
          refine ⟨?_, ?_, ?_, ?_⟩
          · intro P hP
            rcases List.mem_append.mp hP with hP | hP
            · obtain ⟨locP, LP, e0, e00, e1, e2⟩ := i1 P hP
              refine ⟨locP, LP, e0, e00, e1, ?_⟩
              intro e he hk
              rcases e2 e he hk with hm | ⟨C, hC, c1, c2⟩
              · rcases List.mem_cons.mp hm with hm | hm
                · right
                  refine ⟨folder, by simp, ?_, ?_⟩
                  · rw [hsrc, ← hm]
                  · rw [hdst, ← hm]
                · left
                  exact List.mem_append_left _ hm
              · right
                exact ⟨C, List.mem_append_left _ hC, c1, c2⟩
            · simp only [List.mem_singleton] at hP
              subst hP
              refine ⟨loc, L, by rw [hsrc]; exact l1, l2, by rw [hsrc, hdst]; exact hE, ?_⟩
              intro e he hk
              left
              apply List.mem_append_right
              simp only [queued, List.mem_map, List.mem_filter]
              exact ⟨e, ⟨he, hk⟩, by rw [hsrc, hdst]⟩
          · intro f hf
            rcases List.mem_append.mp hf with hf | hf
            · exact i2 f hf
            · simp only [List.mem_singleton] at hf
              subst hf
              rw [hsrc, hdst]
              exact (i3 it (by simp)).1
          · intro x hx
            rcases List.mem_append.mp hx with hx | hx
            · exact i3 x (by simp [hx])
            · simp only [queued, List.mem_map, List.mem_filter] at hx
              obtain ⟨e, -, rfl⟩ := hx
              obtain ⟨rel, r1, r2⟩ := (i3 it (by simp)).1
              exact ⟨⟨rel ++ [e.name], by simp [r1], by simp [r2]⟩, pathIsAbs_pathJoin _ _ hab⟩
          · cases fs with
            | nil =>
              simp only [List.map_nil, List.nil_append, List.map_cons, List.head?_cons,
                Option.some.injEq, Prod.mk.injEq] at i4
              simp [hsrc, hdst, i4.1, i4.2]
            | cons f0 fs0 =>
              simpa using i4

theorem Build_body_state (fuel : Nat) (in_ out script : String) (b : Builder)
    (write verbose : Bool) (w : World) (folders : List Folder) (w2 : World)
    (hq : w.fQ = []) (habs : pathIsAbs in_ = true)
    (h : Build.body fuel in_ out script b write verbose w = some ((folders, none), w2)) :
    ∃ fs, scanState (scanTree in_ out write w) in_ (rootDest in_ out) script b fs []
      ∧ folders = fs.map (fun f => (f.generate b w).1) := by
  unfold Build.body at h
  simp only at h
  cases hcd : osChdir in_ (msg "Build(in: \"%v\", write: %v, verbose: %v)"
      [in_, toString write, toString verbose] w) with
  | mk e w1 =>
    have hq1 : w1.fQ = [] := by
      have := osChdir_fQ in_ (msg "Build(in: \"%v\", write: %v, verbose: %v)"
        [in_, toString write, toString verbose] w)
      rw [hcd] at this
      simpa [hq] using this
    have hr1 : w1.root = w.root := by
      have := osChdir_root in_ (msg "Build(in: \"%v\", write: %v, verbose: %v)"
        [in_, toString write, toString verbose] w)
      rw [hcd] at this
      simpa using this
    rw [hcd] at h
    cases e with
    | some err => simp at h
    | none =>
      simp only at h
      have hout : (if (!pathIsAbs out) = true then pathJoin in_ out else out)
          = outputBase in_ out := rfl
      rw [hout] at h
      cases hbs : (if write = true then makeDir (outputBase in_ out)
          (msg "create base output folder %v" [outputBase in_ out] w1) else (none, w1)) with
      | mk e2 ws =>
        have hqs : ws.fQ = [] ∧ ws.root = scanTree in_ out write w := by
          cases write with
          | false =>
            simp only [Bool.false_eq_true, if_false, Prod.mk.injEq] at hbs
            rw [← hbs.2]
            exact ⟨hq1, by simpa [scanTree] using hr1⟩
          | true =>
            simp only [if_true] at hbs
            have := (makeDir_frame (outputBase in_ out)
              (msg "create base output folder %v" [outputBase in_ out] w1)).2.1
            rw [hbs] at this
            refine ⟨by simpa [hq1] using this, ?_⟩
            have hi := (makeDir_indep _ (pathIsAbs_outputBase_abs in_ out habs)
              (msg "create base output folder %v" [outputBase in_ out] w1) w
              (by simpa using hr1)).2
            rw [hbs] at hi
            simpa [scanTree] using hi
        rw [hbs] at h
        cases e2 with
        | some err => simp at h
        | none =>
          simp only at h
          cases hs : scanQ fuel script b
              (enq in_ (pathJoin (outputBase in_ out) (pathBase in_)) ws) with
          | none => simp [hs] at h
          | some x =>
            obtain ⟨⟨fs, err⟩, w3⟩ := x
            rw [hs] at h
            cases err with
            | some err => simp at h
            | none =>
              simp only [Option.some.injEq] at h
              refine ⟨fs, ?_, ?_⟩
              · apply scanQ_loop_state (scanTree in_ out write w) in_ (rootDest in_ out) script
                  b fuel [] _ fs w3 hs (by simpa [enq] using hqs.2)
                simp only [enq, hqs.1, List.nil_append]
                refine ⟨by simp, by simp, ?_, by simp [rootDest]⟩
                intro it hit
                simp only [List.mem_singleton] at hit
                subst hit
                exact ⟨⟨[], rfl, rfl⟩, habs⟩
              · have := finish_folders in_ (pathJoin (outputBase in_ out) (pathBase in_)) b
                  write fs w3 w
                rw [h] at this
                exact this

/-- C5, as the code has it: when a `Build` started with an empty queue on an
absolute path `in` returns without an error, its first record is that of the
root, with `in` as its source and `path.Join(resolved out, path.Base(in))` as
its destination; every record `P` holds the kept files and the kept subfolders
of the listing of the folder its source is a path of, in the tree as the scan
finds it, and for every kept subfolder in that listing, of name `n`, there is a
record with the source `path.Join(P.Source, n)` and the destination
`path.Join(P.Destination, n)`; and every record has the source of the root
joined with some names, one after the other, as its source and the destination
of the root joined with the same names as its destination. -/
theorem Build_destinations (fuel : Nat) (in_ out script : String) (b : Builder)
    (write verbose : Bool) (w : World) (folders : List Folder) (w2 : World)
    (hq : w.fQ = []) (habs : pathIsAbs in_ = true)
    (h : Build fuel in_ out script b write verbose w = some ((folders, none), w2)) :
    (∃ root rest, folders = root :: rest ∧ root.Source = in_
        ∧ root.Destination = pathJoin (outputBase in_ out) (pathBase in_))
      ∧ (∀ P ∈ folders, ∃ loc L,
          resolveDir (scanTree in_ out write w) w.cwd P.Source = some loc
          ∧ walk true (scanTree in_ out write w) loc = some (true, L)
          ∧ P.Files = L.entries.filter (fun e => b.Filter e && !e.isDir)
          ∧ P.Children = (L.entries.filter (fun e => b.Filter e && e.isDir)).map
              (fun e => pathJoin P.Source e.name)
          ∧ ∀ e ∈ L.entries, b.Filter e = true → e.isDir = true →
              ∃ C ∈ folders, C.Source = pathJoin P.Source e.name
                ∧ C.Destination = pathJoin P.Destination e.name)
      ∧ (∀ f ∈ folders, ∃ rel : List String,
          f.Source = rel.foldl pathJoin in_
          ∧ f.Destination = rel.foldl pathJoin (pathJoin (outputBase in_ out) (pathBase in_))) := by
  unfold Build at h
  cases hb : Build.body fuel in_ out script b write verbose
      (if verbose = true then { w with showMessages := true } else w) with
  | none => simp [hb] at h
  | some x =>
    obtain ⟨⟨fs0, err⟩, w3⟩ := x
    simp only [hb, Option.some.injEq, Prod.mk.injEq] at h
    obtain ⟨⟨h1, h2⟩, -⟩ := h
    subst h1 h2
    have hst := scanTree_indep_abs in_ out write
      (if verbose = true then { w with showMessages := true } else w) w habs
      (by cases verbose <;> rfl)
    obtain ⟨fs, ⟨i1, i2, i3, i4⟩, hf⟩ := Build_body_state fuel in_ out script b write verbose _ _ _
      (by cases verbose <;> simpa using hq) habs hb
    rw [hst] at i1
    subst hf
    refine ⟨?_, ?_, ?_⟩
    · cases fs with
      | nil => simp at i4
      | cons f0 rest =>
        simp only [List.map_cons, List.map_nil, List.append_nil, List.head?_cons,
          Option.some.injEq, Prod.mk.injEq] at i4
        exact ⟨_, _, rfl, i4.1, i4.2⟩
    · intro P hP
      simp only [List.mem_map] at hP
      obtain ⟨P0, hP0, rfl⟩ := hP
      obtain ⟨loc, L, e0, e00, e1, e2⟩ := i1 P0 hP0
      have hPa : pathIsAbs P0.Source = true := by
        obtain ⟨rel, r1, -⟩ := i2 P0 hP0
        rw [r1]
        exact pathIsAbs_foldl rel in_ habs
      refine ⟨loc, L, ?_, e00, ?_, ?_, ?_⟩
      · show resolveDir _ _ P0.Source = _
        rw [resolveDir_abs _ _ [] _ hPa]
        exact e0
      · show P0.Files = _
        rw [e1]
        rfl
      · show P0.Children = _
        rw [e1]
        rfl
      · intro e he hk hd
        rcases e2 e he (by simp [keptDir, hk, hd]) with hm | ⟨C, hC, c1, c2⟩
        · simp at hm
        · exact ⟨(C.generate b _).1, List.mem_map.mpr ⟨C, hC, rfl⟩, c1, c2⟩
    · intro f hf
      simp only [List.mem_map] at hf
      obtain ⟨f0, hf0, rfl⟩ := hf
      exact i2 f0 hf0

/-! ## Writing the records -/

theorem Folder_Write_to (f : Folder) (cmd : String) (w : World) (S Dp : List String)
    (n : String) (hDp : validPath Dp) (hn : validName n)
    (hscr : validName f.Script) (habs : pathIsAbs f.Source = true)
    (hsrc : resolveDir w.root [] f.Source = some S)
    (hdst : f.Destination = absPath (Dp ++ [n]))
    (h1 : statAt w.root S = some .dir) (h2 : statAt w.root (S ++ [f.Script]) ≠ some .dir)
    (h3 : statAt w.root Dp = some .dir) (h4 : ∀ c, statAt w.root (Dp ++ [n]) ≠ some (.file c))
    (h5 : S ++ [f.Script] ≠ Dp) (h6 : S ++ [f.Script] ≠ Dp ++ [n]) :
    ∃ w2, f.Write cmd w = (none, w2) ∧ w2.fQ = w.fQ ∧ w2.showMessages = w.showMessages
      ∧ ∀ p, statAt w2.root p
          = if p = Dp ++ [n] then some .dir
            else if p = S ++ [f.Script] then some (.file cmd) else statAt w.root p := by
  have hcd := osChdir_abs f.Source S (msg "navigate to %s" [f.Source] w) w.root [] habs hsrc
    (by simp)
  obtain ⟨w1, e1, a1, a2, a3, a4⟩ := osWriteFile_ok f.Script cmd
    (msg "write script '%s'" [f.Script] { (msg "navigate to %s" [f.Source] w) with cwd := S })
    S hscr (by simp) (by simpa using h1) (by simpa using h2)
  simp only [msg_root] at a4
  obtain ⟨w2, e2, b1, b2, b3, b4⟩ := makeDir_abs_ok Dp n
    (msg "verify/create destination %s" [f.Destination] w1) hDp hn
    (by
      rw [msg_root, a4, if_neg (fun e => h5 e.symm)]
      exact h3)
    (by
      intro c
      rw [msg_root, a4, if_neg (fun e => h6 e.symm)]
      exact h4 c)
  refine ⟨w2, ?_, ?_, ?_, ?_⟩
  · unfold Folder.Write
    simp only [hcd]
    simp only [e1]
    rw [hdst]
    rw [hdst] at e2
    exact e2
  · rw [b2, msg_fQ, a2]
    simp
  · rw [b3, msg_showMessages, a3]
    simp
  · intro p
    rw [b4, msg_root, a4]

theorem Folders_Write_to (T0 : Listing) (P0 Og : List String) (base script : String)
    (hOg : validPath Og) (hbase : validName base)
    (hscr : validName script) :
    ∀ (todo done : List (List String × Folder)) (w : World),
      writePlan T0 P0 (Og ++ [base]) Og script (done ++ todo) →
      writeState T0 P0 (Og ++ [base]) Og script w.root done todo →
      ∃ w2, Folders.Write (todo.map (fun j => j.2)) w = (none, w2)
        ∧ writeState T0 P0 (Og ++ [base]) Og script w2.root (done ++ todo) []
        ∧ w2.fQ = w.fQ ∧ w2.showMessages = w.showMessages := by
  intro todo
  induction todo with
  | nil =>
    intro done w _ hinv
    exact ⟨w, rfl, by simpa using hinv, rfl, rfl⟩
  | cons j rest ih =>
    intro done w hjobs hinv
    obtain ⟨s1, s2, s3⟩ := hjobs
    obtain ⟨v1, v2, v3, v4, v5, v6, v7⟩ := hinv
    obtain ⟨j1, j0, j2, j3, j4, j5, j6⟩ := s1 j (by simp)
    -- no other record has the place of this one
    have hnd : j.1 ∉ done.map (fun j => j.1) ∧ j.1 ∉ rest.map (fun j => j.1) := by
      simp only [List.map_append, List.map_cons] at s2
      have := List.nodup_append.mp s2
      have h2 := (List.nodup_cons.mp this.2.1).1
      refine ⟨fun h => ?_, h2⟩
      exact this.2.2 h (List.mem_cons_self _ _)
    -- the folder that is to hold the destination
    have hdp : ∃ Dp n, Og ++ [base] ++ j.1 = Dp ++ [n] ∧ validPath Dp ∧ validName n
        ∧ statAt w.root Dp = some .dir
        ∧ (Dp = Og ∨ (Og ++ [base]) <+: Dp) := by
      rcases List.eq_nil_or_concat j.1 with h | ⟨init, m, h⟩
      · refine ⟨Og, base, by simp [h], hOg, hbase, v5, Or.inl rfl⟩
      · have hinit : init ∈ done.map (fun j => j.1) :=
          s3 done j rest rfl init m (by simpa using h)
        simp only [List.mem_map] at hinit
        obtain ⟨j', hj', rfl⟩ := hinit
        have hv : validPath (j'.1 ++ [m]) := by
          have := j1
          rw [h] at this
          simpa using this
        refine ⟨Og ++ [base] ++ j'.1, m, by simp [h], ?_, hv m (by simp), (v4 j' hj').1,
          Or.inr (List.prefix_append _ _)⟩
        intro x hx
        rcases List.mem_append.mp hx with hx | hx
        · rcases List.mem_append.mp hx with hx | hx
          · exact hOg x hx
          · simp only [List.mem_singleton] at hx
            subst hx
            exact hbase
        · exact hv x (by simp [hx])
    obtain ⟨Dp, n, hD, hvDp, hvn, hpar, hDpc⟩ := hdp
    have hpre : (Og ++ [base]) <+: (Og ++ [base] ++ j.1) := List.prefix_append _ _
    obtain ⟨w2, e1, e2, e3, e4⟩ := Folder_Write_to j.2 j.2.Code w (P0 ++ j.1) Dp n hvDp hvn
      (by rw [j4]; exact hscr) j0 (resolveDir_mono T0 w.root v7 [] [] _ _ j0 j2)
      (by rw [j3, hD]) (v1 j (by simp))
      (by rw [j4]; exact v2 j (by simp))
      hpar (by intro c; rw [← hD]; exact v3 _ hpre c)
      (by
        rw [j4]
        intro e
        rcases hDpc with h | h
        · exact j6 (by rw [e, h])
        · exact j5 (by rw [e]; exact h))
      (by
        rw [j4, ← hD]
        intro e
        exact j5 (by rw [e]; exact hpre))
    rw [j4, ← hD] at e4
    obtain ⟨w3, f1, f2, f3, f4⟩ := ih (done ++ [j]) w2
      (by simpa using ⟨s1, s2, s3⟩)
      (by
        refine ⟨?_, ?_, ?_, ?_, ?_, ?_, ?_⟩
        · intro y hy
          rw [e4]
          by_cases c1 : P0 ++ y.1 = Og ++ [base] ++ j.1
          · simp [c1]
          · rw [if_neg c1]
            by_cases c2 : P0 ++ y.1 = P0 ++ j.1 ++ [script]
            · exfalso
              apply v2 j (by simp)
              rw [← c2]
              exact v1 y (by simpa using hy)
            · rw [if_neg c2]
              exact v1 y (by simpa using hy)
        · intro y hy
          rw [e4]
          obtain ⟨-, -, -, -, -, y5, -⟩ := s1 y (by simp [hy])
          have c1 : ¬ P0 ++ y.1 ++ [script] = Og ++ [base] ++ j.1 := by
            intro e
            exact y5 (by rw [e]; exact hpre)
          have c2 : ¬ P0 ++ y.1 ++ [script] = P0 ++ j.1 ++ [script] := by
            intro e
            have : y.1 = j.1 := by simpa using e
            exact hnd.2 (List.mem_map.mpr ⟨y, hy, this⟩)
          rw [if_neg c1, if_neg c2]
          exact v2 y (by simp [hy])
        · intro p hp c
          rw [e4]
          by_cases c1 : p = Og ++ [base] ++ j.1
          · simp [c1]
          · rw [if_neg c1]
            have c2 : ¬ p = P0 ++ j.1 ++ [script] := by
              intro e
              exact j5 (by rw [← e]; exact hp)
            rw [if_neg c2]
            exact v3 p hp c
        · intro y hy
          rcases List.mem_append.mp hy with hy | hy
          · obtain ⟨-, -, -, -, -, y5, -⟩ := s1 y (by simp [hy])
            constructor
            · rw [e4]
              by_cases c1 : Og ++ [base] ++ y.1 = Og ++ [base] ++ j.1
              · simp [c1]
              · rw [if_neg c1]
                have c2 : ¬ Og ++ [base] ++ y.1 = P0 ++ j.1 ++ [script] := by
                  intro e
                  exact j5 (by rw [← e]; exact List.prefix_append _ _)
                rw [if_neg c2]
                exact (v4 y hy).1
            · rw [e4]
              have c1 : ¬ P0 ++ y.1 ++ [script] = Og ++ [base] ++ j.1 := by
                intro e
                exact y5 (by rw [e]; exact hpre)
              have c2 : ¬ P0 ++ y.1 ++ [script] = P0 ++ j.1 ++ [script] := by
                intro e
                have : y.1 = j.1 := by simpa using e
                exact hnd.1 (List.mem_map.mpr ⟨y, hy, this⟩)
              rw [if_neg c1, if_neg c2]
              exact (v4 y hy).2
          · simp only [List.mem_singleton] at hy
            subst hy
            constructor
            · rw [e4]
              simp
            · rw [e4]
              have c1 : ¬ P0 ++ y.1 ++ [script] = Og ++ [base] ++ y.1 := by
                intro e
                exact j5 (by rw [e]; exact hpre)
              rw [if_neg c1]
              simp
        · rw [e4]
          have c1 : ¬ Og = Og ++ [base] ++ j.1 := by
            intro e
            have := congrArg List.length e
            simp at this
          have c2 : ¬ Og = P0 ++ j.1 ++ [script] := fun e => j6 e.symm
          rw [if_neg c1, if_neg c2]
          exact v5
        · rw [e4]
          by_cases c1 : Og ++ [base] = Og ++ [base] ++ j.1
          · rw [if_pos c1]
          · rw [if_neg c1]
            have c2 : ¬ Og ++ [base] = P0 ++ j.1 ++ [script] := by
              intro e
              exact j5 (by rw [← e])
            rw [if_neg c2]
            exact v6
        · intro p hp
          rw [e4]
          by_cases c1 : p = Og ++ [base] ++ j.1
          · rw [if_pos c1]
          · rw [if_neg c1]
            have c2 : ¬ p = P0 ++ j.1 ++ [script] := by
              intro e
              apply v2 j (by simp)
              rw [← e]
              exact v7 p hp
            rw [if_neg c2]
            exact v7 p hp)
    refine ⟨w3, ?_, by simpa using f2, by rw [f3, e2], by rw [f4, e3]⟩
    simp only [List.map_cons, Folders.Write, e1]
    exact f1

theorem withSource_recordFrom (in_ : String) (script : String) (b : Builder) (R : Listing)
    (fuel : Nat) (P0 : List String) (D : String) (L1 : Listing)
    (hgood : Item.good R ⟨P0, D, L1⟩) :
    withSource in_ ((bfsOrder b fuel [⟨P0, D, L1⟩]).map (Item.record script b))
      = (bfsOrder b fuel [⟨P0, D, L1⟩]).map (Item.recordFrom in_ P0 script b) := by
  have hq : ∀ x ∈ [(⟨P0, D, L1⟩ : Item)], x.good R := by
    intro x hx
    simp only [List.mem_singleton] at hx
    subst hx
    exact hgood
  have hn := bfsOrder_nodup b R fuel _ hq (by simp)
  cases fuel with
  | zero => simp [bfsOrder, withSource]
  | succ n =>
    simp only [bfsOrder, List.map_cons, List.nodup_cons] at hn ⊢
    simp only [withSource, List.cons.injEq]
    constructor
    · simp [Item.recordFrom]
    · apply List.map_congr_left
      intro x hx
      have hne : x.loc ≠ P0 := by
        intro e
        have h1 : x.loc ∈ List.map (fun x => x.loc)
            (bfsOrder b n ([] ++ Item.kids b ⟨P0, D, L1⟩)) := List.mem_map.mpr ⟨x, hx, rfl⟩
        rw [e] at h1
        exact hn.1 h1
      simp only [Item.recordFrom, hne, if_false]
      rfl

theorem scan_plan (in_ script : String) (b : Builder) (R1 : Listing) (fuel : Nat)
    (P0 O : List String) (g base : String) (L1 : Listing) (w0 : World)
    (hgood : Item.good R1 ⟨P0, absPath (O ++ [g] ++ [base]), L1⟩)
    (hfuel : L1.dirs + 1 < fuel)
    (habs : pathIsAbs in_ = true) (hres : resolveDir R1 [] in_ = some P0)
    (hO : validPath O) (hg : validName g) (hbase : validName base)
    (hOg : statAt R1 (O ++ [g]) = some .dir)
    (hDst : statAt R1 (O ++ [g] ++ [base]) = none)
    (hfree : ∀ rel, keptChain b L1 rel = true →
      P0 ++ rel ++ [script] ≠ O ++ [g] ++ [base]
        ∧ statAt R1 (P0 ++ rel ++ [script]) ≠ some .dir) :
    writePlan R1 P0 (O ++ [g] ++ [base]) (O ++ [g]) script
      ((bfsOrder b fuel [⟨P0, absPath (O ++ [g] ++ [base]), L1⟩]).map
        (fun x => (x.loc.drop P0.length, ((x.recordFrom in_ P0 script b).generate b w0).1)))
    ∧ ∀ x ∈ bfsOrder b fuel [⟨P0, absPath (O ++ [g] ++ [base]), L1⟩],
        x.loc = P0 ++ x.loc.drop P0.length ∧ statAt R1 x.loc = some .dir
          ∧ statAt R1 (x.loc ++ [script]) ≠ some .dir := by
  have hq : ∀ x ∈ [(⟨P0, absPath (O ++ [g] ++ [base]), L1⟩ : Item)], x.good R1 := by
    intro x hx
    simp only [List.mem_singleton] at hx
    subst hx
    exact hgood
  have hf : totalSize [(⟨P0, absPath (O ++ [g] ++ [base]), L1⟩ : Item)] < fuel := by
    simp [totalSize, Item.size]
    omega
  have hall := bfsOrder_good b R1 fuel _ hq
  have hmem := bfsOrder_mem b R1 fuel _ hq hf
  have hDv : validPath (O ++ [g] ++ [base]) :=
    validPath_snoc _ _ (validPath_snoc _ _ hO hg) hbase
  -- every item lies below the input folder, and its output below the output folder
  have hrel : ∀ x ∈ bfsOrder b fuel [⟨P0, absPath (O ++ [g] ++ [base]), L1⟩],
      x.loc = P0 ++ x.loc.drop P0.length ∧ validPath (x.loc.drop P0.length)
        ∧ x.out = absPath (O ++ [g] ++ [base] ++ x.loc.drop P0.length)
        ∧ statAt R1 x.loc = some .dir
        ∧ keptChain b L1 (x.loc.drop P0.length) = true := by
    intro x hx
    obtain ⟨y, hy, rel, e1, e2⟩ := bfsOrder_below b fuel _ x hx
    simp only [List.mem_singleton] at hy
    subst hy
    simp only at e1 e2
    have hdrop : x.loc.drop P0.length = rel := by rw [e1]; simp
    have hv : validPath rel := by
      intro n hn
      exact (hall x hx).1 n (by rw [e1]; simp [hn])
    refine ⟨by rw [hdrop, e1], by rw [hdrop]; exact hv, ?_, ?_, ?_⟩
    · rw [hdrop, e2]
      exact foldl_pathJoin_absPath rel _ hDv hv
    · apply (statAt_dir_iff x.loc R1 true).mp
      rw [(hall x hx).2.1]
      rfl
    · obtain ⟨y, hy, rel2, k1, k2⟩ := (hmem x.loc).mp (List.mem_map.mpr ⟨x, hx, rfl⟩)
      simp only [List.mem_singleton] at hy
      subst hy
      simp only at k1 k2
      rw [k2]
      simpa using k1
  have hF2 : ∀ x ∈ bfsOrder b fuel [⟨P0, absPath (O ++ [g] ++ [base]), L1⟩],
      ¬ (O ++ [g] ++ [base]) <+: x.loc := by
    intro x hx hp
    obtain ⟨t, ht⟩ := hp
    have := statAt_none_append (O ++ [g] ++ [base]) t R1 hDst
    rw [ht, (hrel x hx).2.2.2.1] at this
    simp at this
  refine ⟨⟨?_, ?_, ?_⟩, fun x hx => ⟨(hrel x hx).1, (hrel x hx).2.2.2.1, ?_⟩⟩
  · intro j hj
    simp only [List.mem_map] at hj
    obtain ⟨x, hx, rfl⟩ := hj
    obtain ⟨r1, r2, r3, r4, r5⟩ := hrel x hx
    obtain ⟨f1, f2⟩ := hfree _ r5
    simp only
    rw [← r1] at f1 f2 ⊢
    refine ⟨r2, ?_, ?_, ?_, rfl, ?_, ?_⟩
    · show pathIsAbs (if x.loc = P0 then in_ else absPath x.loc) = true
      split
      · exact habs
      · exact pathIsAbs_absPath _
    · show resolveDir R1 [] (if x.loc = P0 then in_ else absPath x.loc) = some x.loc
      split
      · next e => rw [e]; exact hres
      · rw [resolveDir_absPath _ _ _ (hall x hx).1]
        have : (walk true R1 x.loc).isSome = true := (statAt_dir_iff x.loc R1 true).mpr r4
        simp [this]
    · show x.out = _
      exact r3
    · intro hp
      rcases List.prefix_concat_iff.mp hp with h | h
      · exact f1 h.symm
      · exact hF2 x hx h
    · intro e
      rw [e] at f2
      exact f2 hOg
  · have hn := bfsOrder_nodup b R1 fuel _ hq (by simp)
    have e : ((bfsOrder b fuel [⟨P0, absPath (O ++ [g] ++ [base]), L1⟩]).map
        (fun x => (x.loc.drop P0.length,
          ((x.recordFrom in_ P0 script b).generate b w0).1))).map
          (fun j => j.1)
        = ((bfsOrder b fuel [⟨P0, absPath (O ++ [g] ++ [base]), L1⟩]).map
            (fun x => x.loc)).map (fun l => l.drop P0.length) := by
      simp [List.map_map, Function.comp]
    rw [e]
    apply List.Nodup.map_on _ hn
    intro l1 h1 l2 h2 hd
    simp only [List.mem_map] at h1 h2
    obtain ⟨x, hx, rfl⟩ := h1
    obtain ⟨y, hy, rfl⟩ := h2
    rw [(hrel x hx).1, (hrel y hy).1, hd]
  · intro pre j post hdec init n hj
    obtain ⟨ipre, irest, e1, e2, e3⟩ := List.map_eq_append_iff.mp hdec
    obtain ⟨x, ipost, e4, e5, -⟩ := List.map_eq_cons_iff.mp e3
    subst e4
    have hx : x ∈ bfsOrder b fuel [⟨P0, absPath (O ++ [g] ++ [base]), L1⟩] := by
      rw [e1]; simp
    have hj1 : x.loc.drop P0.length = init ++ [n] := by
      rw [← e5] at hj
      exact hj
    rcases bfsOrder_parent b [P0] fuel _ [] (by simp) ipre x ipost e1 with h | ⟨i2, n2, h1, h2⟩
    · simp only [List.mem_singleton] at h
      rw [h] at hj1
      simp at hj1
    · have hl := (hrel x hx).1
      rw [hj1, h1, ← List.append_assoc] at hl
      have hi : i2 = P0 ++ init := (List.append_inj' hl (by simp)).1
      simp only [List.nil_append, List.mem_map] at h2
      obtain ⟨y, hy, hyl⟩ := h2
      rw [← e2]
      simp only [List.map_map, List.mem_map, Function.comp]
      refine ⟨y, hy, ?_⟩
      rw [hyl, hi]
      simp
  · obtain ⟨r1, -, -, -, r5⟩ := hrel x hx
    have := (hfree _ r5).2
    rw [← r1] at this
    exact this

theorem finish_written (in_ script : String) (b : Builder) (fuel : Nat)
    (P0 O : List String) (g base : String) (L1 : Listing) (w2 : World)
    (hgood : Item.good w2.root ⟨P0, absPath (O ++ [g] ++ [base]), L1⟩)
    (hfuel : L1.dirs + 1 < fuel)
    (habs : pathIsAbs in_ = true) (hres : resolveDir w2.root [] in_ = some P0)
    (hO : validPath O) (hg : validName g) (hbase : validName base) (hscr : validName script)
    (hOg : statAt w2.root (O ++ [g]) = some .dir)
    (hDst : statAt w2.root (O ++ [g] ++ [base]) = none)
    (hfree : ∀ rel, keptChain b L1 rel = true →
      P0 ++ rel ++ [script] ≠ O ++ [g] ++ [base]
        ∧ statAt w2.root (P0 ++ rel ++ [script]) ≠ some .dir) :
    ∃ folders wf,
      Build.finish in_ (absPath (O ++ [g] ++ [base])) b true
        (withSource in_ ((bfsOrder b fuel [⟨P0, absPath (O ++ [g] ++ [base]), L1⟩]).map
          (Item.record script b))) w2 = ((folders, none), wf)
      ∧ statAt wf.root (O ++ [g]) = some .dir
      ∧ folders.length = (bfsOrder b fuel [⟨P0, absPath (O ++ [g] ++ [base]), L1⟩]).length
      ∧ (∀ p, statAt w2.root p = some .dir → statAt wf.root p = some .dir)
      ∧ ∀ f ∈ folders, ∃ S D, pathIsAbs f.Source = true
          ∧ resolveDir wf.root [] f.Source = some S ∧ f.Destination = absPath D
          ∧ f.Script = script ∧ statAt wf.root D = some .dir
          ∧ statAt wf.root (S ++ [f.Script]) = some (.file f.Code)
          ∧ ∀ n c, statAt wf.root (D ++ [n]) ≠ some (.file c) := by
  have hOgv : validPath (O ++ [g]) := validPath_snoc _ _ hO hg
  obtain ⟨hjobs, hitems⟩ := scan_plan in_ script b w2.root fuel P0 O g base L1 w2 hgood hfuel
    habs hres hO hg hbase hOg hDst hfree
  rw [withSource_recordFrom in_ script b w2.root fuel P0 _ L1 hgood]
  obtain ⟨g1, g2⟩ := Folders_generate_spec
    ((bfsOrder b fuel [⟨P0, absPath (O ++ [g] ++ [base]), L1⟩]).map
      (Item.recordFrom in_ P0 script b)) b
    (msg "generate scripts" [] w2) w2
  unfold Build.finish
  simp only [if_true]
  generalize Folders.generate
    ((bfsOrder b fuel [⟨P0, absPath (O ++ [g] ++ [base]), L1⟩]).map
      (Item.recordFrom in_ P0 script b)) b
    (msg "generate scripts" [] w2) = gg at g1 g2 ⊢
  simp only [msg_root] at g2
  have hr4 : (msg "create output folder %v" [absPath (O ++ [g] ++ [base])]
      (osChdir in_ gg.2).2).root = w2.root := by
    simp [g2]
  obtain ⟨w5, e5, -, -, -, a5⟩ := makeDir_abs_ok (O ++ [g]) base
    (msg "create output folder %v" [absPath (O ++ [g] ++ [base])]
      (osChdir in_ gg.2).2) hOgv hbase (by rw [hr4]; exact hOg)
    (by intro c; rw [hr4, hDst]; simp)
  rw [hr4] at a5
  rw [e5]
  simp only
  -- the state in which the records are written
  have hne : O ++ [g] ≠ O ++ [g] ++ [base] := by
    intro e
    have := congrArg List.length e
    simp at this
  have hjs : gg.1 = ((bfsOrder b fuel [⟨P0, absPath (O ++ [g] ++ [base]), L1⟩]).map
      (fun x => (x.loc.drop P0.length,
        ((x.recordFrom in_ P0 script b).generate b w2).1))).map
        (fun j => j.2) := by
    rw [g1]
    simp [List.map_map, Function.comp]
  have hinv : writeState w2.root P0 (O ++ [g] ++ [base]) (O ++ [g]) script
      (msg "write script and create output folders" [] w5).root []
      ((bfsOrder b fuel [⟨P0, absPath (O ++ [g] ++ [base]), L1⟩]).map
        (fun x => (x.loc.drop P0.length,
          ((x.recordFrom in_ P0 script b).generate b w2).1))) := by
    obtain ⟨s1, -, -⟩ := hjobs
    refine ⟨?_, ?_, ?_, by simp, ?_, ?_, ?_⟩
    · intro j hj
      simp only [List.nil_append, List.mem_map] at hj
      obtain ⟨x, hx, rfl⟩ := hj
      obtain ⟨r1, r2, -⟩ := hitems x hx
      simp only
      rw [← r1, msg_root, a5]
      have c1 : ¬ x.loc = O ++ [g] ++ [base] := by
        intro e
        rw [e, hDst] at r2
        simp at r2
      rw [if_neg c1]
      exact r2
    · intro j hj
      obtain ⟨-, -, -, -, -, j5, j6⟩ := s1 j hj
      rw [msg_root, a5]
      have c1 : ¬ P0 ++ j.1 ++ [script] = O ++ [g] ++ [base] := by
        intro e
        exact j5 (by rw [e])
      rw [if_neg c1]
      simp only [List.mem_map] at hj
      obtain ⟨x, hx, rfl⟩ := hj
      obtain ⟨r1, -, r3⟩ := hitems x hx
      simp only
      rw [← r1]
      exact r3
    · intro p hp c
      rw [msg_root, a5]
      by_cases c1 : p = O ++ [g] ++ [base]
      · simp [c1]
      · rw [if_neg c1]
        obtain ⟨t, rfl⟩ := hp
        rw [statAt_none_append _ t w2.root hDst]
        simp
    · rw [msg_root, a5, if_neg hne]
      exact hOg
    · rw [msg_root, a5]
      simp
    · intro p hp
      rw [msg_root, a5]
      split
      · rfl
      · exact hp
  obtain ⟨wf, f1, ⟨-, -, v3, v4, v5, -, v7⟩, -, -⟩ := Folders_Write_to w2.root P0 (O ++ [g]) base
    script hOgv hbase hscr _ [] (msg "write script and create output folders" [] w5)
    (by simpa using hjobs) hinv
  rw [hjs, f1]
  refine ⟨_, wf, rfl, v5, by simp, v7, ?_⟩
  intro f hf
  simp only [List.map_map, List.mem_map, Function.comp] at hf
  obtain ⟨x, hx, rfl⟩ := hf
  have hj : (x.loc.drop P0.length, ((x.recordFrom in_ P0 script b).generate b w2).1)
      ∈ [] ++ (bfsOrder b fuel [⟨P0, absPath (O ++ [g] ++ [base]), L1⟩]).map
        (fun x => (x.loc.drop P0.length,
          ((x.recordFrom in_ P0 script b).generate b w2).1)) := by
    simp only [List.nil_append, List.mem_map]
    exact ⟨x, hx, rfl⟩
  obtain ⟨-, j0, j2, j3, j4, -, -⟩ := hjobs.1
    (x.loc.drop P0.length, ((x.recordFrom in_ P0 script b).generate b w2).1)
    (List.mem_map.mpr ⟨x, hx, rfl⟩)
  obtain ⟨k1, k2⟩ := v4 _ hj
  refine ⟨P0 ++ x.loc.drop P0.length, O ++ [g] ++ [base] ++ x.loc.drop P0.length, j0,
    resolveDir_mono w2.root wf.root v7 [] [] _ _ j0 j2, j3, j4, k1, ?_, ?_⟩
  · rw [j4]
    exact k2
  · intro n c
    apply v3
    exact ⟨x.loc.drop P0.length ++ [n], by simp [List.append_assoc]⟩

theorem resolveParent_some (R : Listing) (cwd comps : List String) (path : String)
    (loc : List String) (name : String) (habs : pathIsAbs path = true)
    (h : resolveParent R cwd comps path = some (loc, name)) :
    ∃ before, comps = before ++ [name] ∧ name ≠ "" ∧ name ≠ "." ∧ name ≠ ".."
      ∧ resolveFrom R [] before = some loc := by
  unfold resolveParent at h
  rw [startOf_abs _ _ habs] at h
  split at h
  · simp at h
  · next nm before hrev =>
    split at h
    · simp at h
    · next hnm =>
      simp only [not_or] at hnm
      split at h
      · simp at h
      · split at h
        · simp at h
        · next loc2 hl =>
          simp only [Option.some.injEq, Prod.mk.injEq] at h
          obtain ⟨h1, h2⟩ := h
          subst h1 h2
          refine ⟨before.reverse, ?_, hnm.1, hnm.2.1, hnm.2.2, hl⟩
          have := congrArg List.reverse hrev
          simpa using this

theorem trim_decomp (l : List String) :
    ∃ es, l = (l.reverse.dropWhile (fun c => decide (c = ""))).reverse ++ es
      ∧ ∀ c ∈ es, c = "" := by
  refine ⟨(l.reverse.takeWhile (fun c => decide (c = ""))).reverse, ?_, ?_⟩
  · have := List.takeWhile_append_dropWhile (fun c => decide (c = "")) l.reverse
    have h2 := congrArg List.reverse this
    simp only [List.reverse_append, List.reverse_reverse] at h2
    exact h2.symm
  · intro c hc
    have := List.mem_takeWhile_imp (List.mem_reverse.mp hc)
    simpa using this

theorem cleanStack_skip_all (r : Bool) (es : List String) (hes : ∀ c ∈ es, c = "") :
    ∀ (acc ds : List String), cleanStack r acc (es ++ ds) = cleanStack r acc ds := by
  induction es with
  | nil => intro acc ds; rfl
  | cons e es ih =>
    intro acc ds
    rw [List.cons_append, hes e (by simp), cleanStack_skip]
    exact ih (fun c hc => hes c (by simp [hc])) acc ds

theorem resolveFrom_cons (R : Listing) (loc : List String) (c : String) (cs : List String) :
    resolveFrom R loc (c :: cs) =
      if c = "" ∨ c = "." then resolveFrom R loc cs
      else if c = ".." then resolveFrom R loc.dropLast cs
      else match walk true R (loc ++ [c]) with
        | some _ => resolveFrom R (loc ++ [c]) cs
        | none => none := by
  conv_lhs => unfold resolveFrom

theorem resolveFrom_append (R : Listing) (cs ds : List String) :
    ∀ (loc : List String), resolveFrom R loc (cs ++ ds)
      = (resolveFrom R loc cs).bind (fun l => resolveFrom R l ds) := by
  induction cs with
  | nil => intro loc; simp [resolveFrom]
  | cons c cs ih =>
    intro loc
    rw [List.cons_append, resolveFrom_cons, resolveFrom_cons]
    split
    · exact ih loc
    · split
      · exact ih _
      · split
        · exact ih _
        · simp

theorem resolveFrom_skip_all (R : Listing) (es : List String) (hes : ∀ c ∈ es, c = "") :
    ∀ (loc : List String), resolveFrom R loc es = some loc := by
  induction es with
  | nil => intro loc; simp [resolveFrom]
  | cons e es ih =>
    intro loc
    rw [resolveFrom_cons, if_pos (Or.inl (hes e (by simp)))]
    exact ih (fun c hc => hes c (by simp [hc])) loc

theorem makeDir_fresh (ob : String) (w : World) (habs : pathIsAbs ob = true)
    (hnew : osStat ob w = none) (h : (makeDir ob w).1 = none) :
    ∃ O g, validPath O ∧ validName g ∧ statAt w.root O = some .dir
      ∧ statAt w.root (O ++ [g]) = none
      ∧ (∀ p, statAt (makeDir ob w).2.root p
          = if p = O ++ [g] then some .dir else statAt w.root p)
      ∧ (∀ n, validName n → pathJoin ob n = absPath (O ++ [g] ++ [n]))
      ∧ ∀ T cwd, (∀ p, statAt w.root p = some .dir → statAt T p = some .dir) →
          statAt T (O ++ [g]) = some .dir → resolveDir T cwd ob = some (O ++ [g]) := by
  have hm : makeDir ob w = osMkdir ob w := by
    unfold makeDir
    rw [hnew]
  rw [hm] at h ⊢
  unfold osMkdir at h ⊢
  cases hrp : resolveParent w.root w.cwd
      ((pathComps ob).reverse.dropWhile (fun c => decide (c = ""))).reverse ob with
  | none => simp [hrp] at h
  | some x =>
    obtain ⟨O, g⟩ := x
    simp only [hrp] at h ⊢
    obtain ⟨before, hb, g1, g2, g3, hrf⟩ := resolveParent_some _ _ _ _ _ _ habs hrp
    obtain ⟨es, hes, hall⟩ := trim_decomp (pathComps ob)
    rw [hb] at hes
    have hgs : '/' ∉ g.data := by
      apply pathComps_mem_noslash ob
      rw [hes]
      simp
    have hg : validName g := ⟨g1, g2, g3, hgs⟩
    have hO : validPath O := by
      apply resolveFrom_validPath w.root before [] O _ (fun n hn => by simp at hn) hrf
      intro c hc
      apply pathComps_mem_noslash ob
      rw [hes]
      simp [hc]
    cases hw : walk true w.root O with
    | none => simp [hw] at h
    | some y =>
      obtain ⟨r, l⟩ := y
      simp only [hw] at h ⊢
      cases hf : l.find g with
      | some k => simp [hf] at h
      | none =>
        simp only [hf]
        have h1 : statAt w.root O = some .dir :=
          (statAt_dir_iff O w.root true).mp (by simp [hw])
        have h2 : statAt w.root (O ++ [g]) = none := by
          rw [statAt_snoc O g w.root true r l hw, hf]
          rfl
        refine ⟨O, g, hO, hg, h1, h2, statAt_update_addDir g O w.root h1 h2, ?_, ?_⟩
        rotate_left
        · intro T cwd hmono hT
          rw [resolveDir_abs_eq T cwd ob habs, hes, List.append_assoc, resolveFrom_append,
            resolveFrom_mono w.root T hmono before [] O hrf]
          have hn : ¬ (g = "" ∨ g = ".") := by simp [g1, g2]
          simp only [Option.some_bind, List.singleton_append]
          rw [resolveFrom_cons, if_neg hn, if_neg g3]
          have hwT : (walk true T (O ++ [g])).isSome = true :=
            (statAt_dir_iff _ T true).mpr hT
          obtain ⟨y, hy⟩ := Option.isSome_iff_exists.mp hwT
          simp only [hy]
          exact resolveFrom_skip_all T es hall _
        intro n hn
        have hne := pathIsAbs_ne ob habs
        unfold pathJoin
        rw [if_neg hne]
        unfold pathClean
        have e2 : pathIsAbs (ob ++ "/" ++ n) = true := by
          rw [String.append_assoc]
          exact pathIsAbs_append _ _ habs
        rw [if_neg (pathIsAbs_ne _ e2), e2, pathComps_append_slash, pathComps_name n hn.2.2.2,
          hes]
        have e3 : before ++ [g] ++ es ++ [n] = before ++ ([g] ++ (es ++ [n])) := by simp
        have e4 := cleanStack_resolve w.root before [] O ([g] ++ (es ++ [n])) (by simp) hrf
        simp only [List.reverse_nil] at e4
        rw [e3, e4, List.singleton_append, cleanStack_cons]
        simp only [g1, g2, g3, false_or, if_false]
        rw [cleanStack_skip_all _ es hall, cleanStack_cons]
        simp [hn.1, hn.2.1, hn.2.2.1, cleanStack, absPath]

/-- C9, as the code has it: let `in` be an absolute path of a folder that ends
in a name, in a tree as a file system has it (`Listing.wf`) in which every
folder below that folder may be listed;
let the output base not exist yet and be one that `makeDir` can make; and let
the script name be a plain name that, once the output base and the output
folder of the root are made, no folder of the kept subtree holds a folder of.
Then `Build` with `write = true`, started with an empty queue, succeeds;
afterwards the output base is a folder, and for every returned record the
destination is a folder that holds no file, and the source folder holds a file
of the name `Script` with the content `Code`. -/
theorem Build_writes (fuel : Nat) (in_ : String) (P0 : List String) (out script : String)
    (b : Builder) (verbose : Bool) (w : World) (L0 : Listing)
    (hq : w.fQ = []) (habs : pathIsAbs in_ = true)
    (hres : resolveDir w.root w.cwd in_ = some P0)
    (hin : walk true w.root P0 = some (true, L0))
    (hwf : L0.wf = true) (hr : L0.allReadable = true) (hfuel : L0.dirs + 2 < fuel)
    (hbn : validName (pathBase in_))
    (hnew : osStat (outputBase in_ out) w = none)
    (hbase : (makeDir (outputBase in_ out) w).1 = none)
    (hscr : validName script)
    (hfree : ∀ L1, walk true (scanTree in_ out true w) P0 = some (true, L1) →
      ∀ rel, keptChain b L1 rel = true →
        statAt (writeTree in_ out w) (P0 ++ rel ++ [script]) ≠ some .dir) :
    ∃ folders w2,
      Build fuel in_ out script b true verbose w = some ((folders, none), w2)
      ∧ folders ≠ []
      ∧ osStat (outputBase in_ out) w2 = some true
      ∧ ∀ f ∈ folders, ∃ S D, resolveDir w2.root w2.cwd f.Source = some S
          ∧ f.Destination = absPath D
          ∧ f.Script = script ∧ statAt w2.root D = some .dir
          ∧ statAt w2.root (S ++ [f.Script]) = some (.file f.Code)
          ∧ ∀ n c, statAt w2.root (D ++ [n]) ≠ some (.file c) := by
  have hab := pathIsAbs_outputBase_abs in_ out habs
  obtain ⟨O, g, hO, hg, hpar, hnone, m5, hjoin, hresob⟩ :=
    makeDir_fresh (outputBase in_ out) w hab hnew hbase
  have hOgv : validPath (O ++ [g]) := validPath_snoc _ _ hO hg
  have hrd : rootDest in_ out = absPath (O ++ [g] ++ [pathBase in_]) := by
    unfold rootDest
    exact hjoin _ hbn
  have hroot : (if verbose = true then { w with showMessages := true } else w).root = w.root := by
    cases verbose <;> rfl
  have hcwd : (if verbose = true then { w with showMessages := true } else w).cwd = w.cwd := by
    cases verbose <;> rfl
  have hfq : (if verbose = true then { w with showMessages := true } else w).fQ = [] := by
    cases verbose <;> simpa using hq
  have hi := makeDir_indep _ hab
    (if verbose = true then { w with showMessages := true } else w) w hroot
  have hst := scanTree_indep_abs in_ out true
    (if verbose = true then { w with showMessages := true } else w) w habs hroot
  have hT1 : scanTree in_ out true w = (makeDir (outputBase in_ out) w).2.root := by
    simp [scanTree]
  -- the tree in which the records are written
  have hDstnone : statAt (makeDir (outputBase in_ out) w).2.root (O ++ [g] ++ [pathBase in_])
      = none := by
    rw [m5]
    have hne : ¬ (O ++ [g] ++ [pathBase in_] = O ++ [g]) := by
      intro e
      have := congrArg List.length e
      simp at this
    rw [if_neg hne]
    exact statAt_none_append _ _ _ hnone
  obtain ⟨wx, x1, -, -, -, x5⟩ := makeDir_abs_ok (O ++ [g]) (pathBase in_)
    (makeDir (outputBase in_ out) w).2 hOgv hbn (by rw [m5]; simp)
    (by intro c; rw [hDstnone]; simp)
  have hwt : writeTree in_ out w = wx.root := by
    unfold writeTree
    rw [hrd, x1]
  rcases Build_body_scanned fuel in_ P0 out script b true verbose
      (if verbose = true then { w with showMessages := true } else w) L0 hfq habs
      (by rw [hroot, hcwd]; exact hres)
      (by rw [hroot]; exact hin) hwf hr hfuel with
    ⟨-, err, wb, h1, -⟩ | ⟨L1, w2, -, h2, h3, h4, -, -, h7, -, -, h10, h11⟩
  · rw [hi.1, hbase] at h1
    simp at h1
  · rw [hst, hT1] at h2 h7
    have hP := resolveDir_validPath _ _ in_ P0 habs hres
    have hmono1 : ∀ p, statAt w.root p = some .dir
        → statAt (makeDir (outputBase in_ out) w).2.root p = some .dir := by
      intro p hp
      rw [m5]
      split
      · rfl
      · exact hp
    obtain ⟨folders, wf, e1, e2, e3, e4, e5⟩ := finish_written in_ script b fuel P0 O g
      (pathBase in_) L1 w2 ⟨hP, by rw [h7]; exact h2, h3, h4⟩ h10 habs
      (by
        rw [h7]
        exact resolveDir_mono w.root _ hmono1 w.cwd [] in_ P0 habs hres)
      hO hg hbn hscr
      (by rw [h7, m5]; simp)
      (by rw [h7]; exact hDstnone)
      (by
        intro rel hk
        have := hfree L1 (by rw [hT1]; exact h2) rel hk
        rw [hwt, x5] at this
        rw [h7]
        by_cases c : P0 ++ rel ++ [script] = O ++ [g] ++ [pathBase in_]
        · rw [if_pos c] at this
          exact absurd rfl this
        · rw [if_neg c] at this
          exact ⟨c, this⟩)
    rw [hrd] at h11
    rw [e1] at h11
    have hfr : (clearQ (if verbose = true then displayError none wf else wf)).root = wf.root := by
      cases verbose <;> simp [clearQ, displayError]
    refine ⟨folders, clearQ (if verbose = true then displayError none wf else wf), ?_, ?_, ?_, ?_⟩
    · unfold Build
      simp only [h11]
    · intro e
      rw [e] at e3
      have hl := bfsOrder_length b fuel [⟨P0, absPath (O ++ [g] ++ [pathBase in_]), L1⟩]
        (by simp [totalSize, Item.size]; omega)
      rw [← e3] at hl
      simp at hl
      omega
    · have := hresob wf.root (clearQ (if verbose = true then displayError none wf else wf)).cwd
        (fun p hp => e4 p (by rw [h7]; exact hmono1 p hp)) e2
      unfold osStat
      rw [hfr, this]
    · intro f hf
      obtain ⟨S, D, k0, k1, k2, k3, k4, k5, k6⟩ := e5 f hf
      refine ⟨S, D, ?_, k2, k3, ?_, ?_, ?_⟩
      · rw [hfr, resolveDir_abs _ _ [] _ k0]
        exact k1
      · rw [hfr]; exact k4
      · rw [hfr]; exact k5
      · rw [hfr]; exact k6

/-! ## Runs on the sample trees -/

theorem Build_breadth_first_witness :
    ∃ folders err w2,
      Build 9 "/home/root/" "gen" "run" skipBuilder true false openWorld
        = some ((folders, err), w2)
      ∧ folders.map (fun f => f.Source)
        = ["/home/root/", "/home/root/gen", "/home/root/sub", "/home/root/sub/deep"]
      ∧ (∀ f, folders.head? = some f →
          f.Source = "/home/root/" ∧ f.Destination = rootDest "/home/root/" "gen")
      ∧ ∀ (i j : Nat) (hi : i < folders.length) (hj : j < folders.length),
          depthBelow "/home/root/" (folders.get ⟨i, hi⟩).Source
            < depthBelow "/home/root/" (folders.get ⟨j, hj⟩).Source → i < j :=
  ⟨_, _, _, rfl, by decide,
    (Build_breadth_first 9 "/home/root/" "gen" "run" skipBuilder true false openWorld
      rfl (by decide)).2 _ _ _ rfl⟩

theorem Build_destinations_witness :
    (Build 9 "/home/root/" "gen" "run" skipBuilder true false openWorld).map
        (fun r => (r.1.2, r.1.1.map (fun f => (f.Source, f.Destination))))
      = some (none,
          [("/home/root/", "/home/root/gen/root"),
           ("/home/root/gen", "/home/root/gen/root/gen"),
           ("/home/root/sub", "/home/root/gen/root/sub"),
           ("/home/root/sub/deep", "/home/root/gen/root/sub/deep")])
    ∧ ∃ folders w2,
        Build 9 "/home/root/" "gen" "run" skipBuilder true false openWorld
          = some ((folders, none), w2)
        ∧ (∀ P ∈ folders, ∃ loc L,
            resolveDir (scanTree "/home/root/" "gen" true openWorld) openWorld.cwd P.Source
              = some loc
            ∧ walk true (scanTree "/home/root/" "gen" true openWorld) loc = some (true, L)
            ∧ P.Files = L.entries.filter (fun e => skipBuilder.Filter e && !e.isDir)
            ∧ P.Children = (L.entries.filter (fun e => skipBuilder.Filter e && e.isDir)).map
                (fun e => pathJoin P.Source e.name)
            ∧ ∀ e ∈ L.entries, skipBuilder.Filter e = true → e.isDir = true →
                ∃ C ∈ folders, C.Source = pathJoin P.Source e.name
                  ∧ C.Destination = pathJoin P.Destination e.name)
        ∧ ∀ f ∈ folders, ∃ rel : List String,
            f.Source = rel.foldl pathJoin "/home/root/"
            ∧ f.Destination = rel.foldl pathJoin
                (pathJoin (outputBase "/home/root/" "gen") (pathBase "/home/root/")) :=
  ⟨by decide, _, _, rfl,
    (Build_destinations 9 "/home/root/" "gen" "run" skipBuilder true false openWorld _ _ rfl
      (by decide) rfl).2⟩

/-- C5 fails where a scan step fails: `Build` returns the records made so
far, and the kept subfolders `bad` and `sub` of the root record have no
record.  It fails where the queue holds an item when `Build` is called: the
record of that item comes first, with the destination the item had.  And it
fails for a path that is not absolute: called with `.` from `/home/root` in the
tree with `sub` in `sub`, `Build` returns without an error the records of `.`
and of `sub`, the second made of the listing of `sub/sub`, and the folder
`sub/sub`, a kept subfolder of `sub`, has no record. -/
theorem Build_partial_records :
    (Build 9 "/home/root" "gen" "run" copyBuilder false false sampleWorld).map
        (fun r => (r.1.2, r.1.1.map (fun f => (f.Source, f.Children))))
      = some (some (.readDir "/home/root/bad"),
          [("/home/root", ["/home/root/bad", "/home/root/sub"])])
    ∧ (Build 9 "/home/root" "gen" "run" testBuilder false false
          { sampleWorld with fQ := [⟨"/home/root/sub", "/old"⟩] }).map
        (fun r => (r.1.2, r.1.1.map (fun f => (f.Source, f.Destination))))
      = some (none,
          [("/home/root/sub", "/old"), ("/home/root", "/home/root/gen/root"),
           ("/home/root/sub", "/home/root/gen/root/sub")])
    ∧ (Build 9 "." "gen" "run" copyBuilder false false nestedWorld).map
        (fun r => (r.1.2, r.1.1.map (fun f => (f.Source, f.Files, f.Children))))
      = some (none, [(".", [⟨"a.txt", false⟩], ["sub"]), ("sub", [⟨"c.txt", false⟩], [])])
    ∧ statAt nestedTree ["home", "root", "sub", "sub"] = some .dir :=
  ⟨by decide, by decide, by decide, by decide⟩

theorem Build_writes_witness :
    (Build 9 "/home/root/" "/home/root/gen/" "run" skipBuilder true false openWorld).map
        (fun r => (r.1.2, r.1.1.map (fun f => f.Destination),
          statAt r.2.root ["home", "root", "gen", "root", "sub", "deep"],
          statAt r.2.root ["home", "root", "sub", "run"]))
      = some (none,
          ["/home/root/gen/root", "/home/root/gen/root/gen", "/home/root/gen/root/sub",
           "/home/root/gen/root/sub/deep"],
          some .dir,
          some (.file ("cp \"b.txt\" \"/home/root/gen/root/sub\"\n"
            ++ "cd \"/home/root/sub/deep\"\n./run\ncd ..\n")))
    ∧ ∃ folders w2,
      Build 9 "/home/root/" "/home/root/gen/" "run" skipBuilder true false openWorld
        = some ((folders, none), w2)
      ∧ folders ≠ []
      ∧ osStat (outputBase "/home/root/" "/home/root/gen/") w2 = some true
      ∧ ∀ f ∈ folders, ∃ S D, resolveDir w2.root w2.cwd f.Source = some S
          ∧ f.Destination = absPath D
          ∧ f.Script = "run" ∧ statAt w2.root D = some .dir
          ∧ statAt w2.root (S ++ [f.Script]) = some (.file f.Code)
          ∧ ∀ n c, statAt w2.root (D ++ [n]) ≠ some (.file c) :=
  ⟨by decide,
    Build_writes 9 "/home/root/" ["home", "root"] "/home/root/gen/" "run" skipBuilder false
      openWorld openListing rfl (by decide) (by decide) rfl (by decide) (by decide) (by decide)
      (by decide) (by decide) (by decide) (by decide)
      (fun _ _ rel _ => by
        have h := noDir_statAt "run" (["home", "root"] ++ rel)
          (writeTree "/home/root/" "/home/root/gen/" openWorld) (by decide)
        simpa using h)⟩

/-- C9 fails for an output base whose holding folder does not exist (the error
of `os.Mkdir`); for a script name that a folder in a scanned folder has (the
error of `os.WriteFile`); for a path `in` that does not end in a name: with
`/home/root/.` the output folder of the root is the output base itself, which
is scanned, and the script of its record is written into it; for a tree with a
folder that cannot be listed; for a path that is not absolute; and for a queue
that holds an item when `Build` is called; and for a script name that is not a
plain name. -/
theorem Build_write_fails :
    (Build 12 "/home/root" "no/gen" "run" skipBuilder true false openWorld).map
        (fun r => (r.1.2, statAt r.2.root ["home", "root", "no", "gen"]))
      = some (some (.mkdir "/home/root/no/gen"), none)
    ∧ statAt openTree ["home", "root", "no", "gen"] = none
    ∧ (Build 12 "/home/root" "gen" "sub" skipBuilder true false openWorld).map
        (fun r => (r.1.2, statAt r.2.root ["home", "root", "gen", "root", "sub"]))
      = some (some (.writeFile "sub"), none)
    ∧ statAt openTree ["home", "root", "gen"] = none
    ∧ (Build 12 "/home/root/." "gen" "run" copyBuilder true false openWorld).map
        (fun r => (r.1.2, r.1.1.head?.map (fun f => f.Destination),
          statAt r.2.root ["home", "root", "gen", "run"]))
      = some (none, some "/home/root/gen", some (.file ""))
    ∧ (Build 12 "/home/root" "gen" "run" copyBuilder true false sampleWorld).map
        (fun r => r.1.2)
      = some (some (.readDir "/home/root/bad"))
    ∧ (Build 12 "." "gen" "run" copyBuilder true false
          { openWorld with cwd := ["home", "root"] }).map (fun r => r.1.2)
      = some (some (.readDir "gen"))
    ∧ (Build 12 "/home/root" "gen" "run" copyBuilder true false
          { openWorld with fQ := [⟨"/nowhere", "/x"⟩] }).map (fun r => r.1.2)
      = some (some (.chdir "/nowhere"))
    ∧ (Build 12 "/home/root" "gen" "x/run" skipBuilder true false openWorld).map
        (fun r => r.1.2)
      = some (some (.writeFile "x/run")) :=
  ⟨by decide, by decide, by decide, by decide, by decide, by decide, by decide, by decide,
    by decide⟩

end Scan
